import Mathlib

/-!
# flhex: Intel HEX flattener

A shallow embedding of `flhex.c` (the byte image, the HEX decoder `hexdata_load`
and the HEX encoder `hexdata_dump`) together with theorems about it.

Conventions of the embedding.

* `uint8_t`, `uint16_t` and `uint32_t` values are natural numbers; every
  operation of the source that can wrap is reduced modulo `2 ^ 8`, `2 ^ 16` or
  `2 ^ 32` explicitly. Arguments are taken to be in the range of their C type.
* The heap block `hdata->data` is a total function from offsets to bytes.  Only
  the offsets below `capacity` belong to the block; what the function holds
  elsewhere stands for indeterminate memory.
* A call that the process does not come back from gives `none`: `xrealloc`
  leaves through `exit(1)` when `realloc` returns `NULL`, and a store outside
  the allocated block has no defined effect.
* A `FILE *` that is written is the list of characters written so far; a
  `FILE *` that is read is the list of characters still unread.
* The contents of uninitialised locals and of fresh heap blocks are arguments
  of the functions that read them.
* Loops whose termination depends on the data carry a fuel argument and give
  `none` when it runs out.
-/

namespace Flhex

/-! ## The byte image -/

/-- The C `struct hexdata`. -/
structure hexdata where
  /-- allocated memory size (`uint32_t`) -/
  capacity : Nat
  /-- populated memory size (`uint32_t`) -/
  size : Nat
  /-- memory (`uint8_t *`) -/
  data : Nat → Nat
  /-- unpopulated value (`uint8_t`) -/
  empty : Nat
  /-- record byte count while writing (`uint8_t`) -/
  width : Nat

/-- The libc `memset(mem + start, val, n)`: `val` is converted to a byte. -/
def memset (mem : Nat → Nat) (start val n : Nat) : Nat → Nat :=
  fun i => if start ≤ i ∧ i < start + n then val % 256 else mem i

/-- The function `hexdata_new`. The argument `heap` is the indeterminate content of the
freshly allocated block. -/
def hexdata_new (heap : Nat → Nat) (empty : Nat) : hexdata :=
  let capacity := 64 * 1024
  { capacity := capacity
    size := 0
    data := memset heap 0 empty capacity
    empty := empty
    width := 16 }

/-- The block `if (desired & (desired - 1)) { ... }` of `hexdata_resize` ("ensure a power of
2"): the value of `desired` after it. -/
def hexdata_resize_round (desired : Nat) : Nat :=
  if desired &&& ((desired + 2 ^ 32 - 1) % 2 ^ 32) ≠ 0 then
    let desired := desired ||| (desired >>> 16)
    let desired := desired ||| (desired >>> 8)
    let desired := desired ||| (desired >>> 4)
    let desired := desired ||| (desired >>> 2)
    let desired := desired ||| (desired >>> 1)
    (desired + 1) % 2 ^ 32
  else desired

/-- The function `hexdata_resize`, with `desired` a `uint32_t`. The result is `none` when the
rounding has wrapped to 0: `realloc(ptr, 0)` frees the block and returns `NULL`, and
`xrealloc` leaves through `exit(1)` before the capacity is assigned. (A `realloc` that fails
for want of memory is not modelled.) -/
def hexdata_resize (hdata : hexdata) (desired : Nat) : Option hexdata :=
  if desired > hdata.capacity then
    let desired := hexdata_resize_round desired
    if desired = 0 then none
    else
      some { hdata with
        data := memset hdata.data hdata.capacity hdata.empty
                  ((desired + 2 ^ 32 - hdata.capacity) % 2 ^ 32)
        capacity := desired }
  else some hdata

/-- The function `hexdata_write`, with `addr` a `uint32_t` and `val` a `uint8_t`. The result is
`none` when `hexdata_resize` does not come back, and when `addr` is not below the capacity at
the store `hdata->data[addr] = val`, which is then outside the allocated block. -/
def hexdata_write (hdata : hexdata) (addr val : Nat) : Option hexdata :=
  match (if addr ≥ hdata.capacity then hexdata_resize hdata ((addr + 1) % 2 ^ 32)
         else some hdata) with
  | none => none
  | some hdata =>
    if addr < hdata.capacity then
      let hdata := { hdata with data := fun i => if i = addr then val else hdata.data i }
      some (if hdata.size ≤ addr then { hdata with size := (addr + 1) % 2 ^ 32 } else hdata)
    else none

/-! ## Writing records -/

/-- One hexadecimal digit as `printf("%X")` prints it. -/
def hexDigit (d : Nat) : Char :=
  if d < 10 then Char.ofNat (48 + d) else Char.ofNat (55 + d)

/-- The conversion `%02X` applied to a `uint8_t`. -/
def hex2 (n : Nat) : List Char :=
  [hexDigit (n / 16 % 16), hexDigit (n % 16)]

/-- The conversion `%04X` applied to a `uint16_t`. -/
def hex4 (n : Nat) : List Char :=
  [hexDigit (n / 4096 % 16), hexDigit (n / 256 % 16), hexDigit (n / 16 % 16), hexDigit (n % 16)]

/-- The first loop of `write_record`: `for (i = 0; i < count; i++) checksum += data[i];`
started at index `i` with `n` iterations to go. -/
def write_record_sum (data : Nat → Nat) : Nat → Nat → Nat → Nat
  | _, 0, checksum => checksum
  | i, n + 1, checksum => write_record_sum data (i + 1) n ((checksum + data i) % 256)

/-- The second loop of `write_record`: `for (i = 0; i < count; i++) fprintf(file, "%02X", data[i]);`
started at index `i` with `n` iterations to go. -/
def write_record_data (data : Nat → Nat) : Nat → Nat → List Char → List Char
  | _, 0, file => file
  | i, n + 1, file => write_record_data data (i + 1) n (file ++ hex2 (data i))

/-- The checksum byte that `write_record` computes before printing. -/
def write_record_checksum (count addr type : Nat) (data : Nat → Nat) : Nat :=
  let checksum := (count + addr + (addr >>> 8) + type) % 256
  let checksum := write_record_sum data 0 count checksum
  (256 - checksum) % 256

/-- The function `write_record`, with `count` and `type` of type `uint8_t`, `addr` a `uint16_t`
and `data` a pointer to bytes. The result is `file` after the record has been printed. -/
def write_record (file : List Char) (count addr type : Nat) (data : Nat → Nat) : List Char :=
  let checksum := write_record_checksum count addr type data
  let file := file ++ ':' :: (hex2 count ++ hex4 addr ++ hex2 type)
  let file := write_record_data data 0 count file
  file ++ hex2 checksum ++ ['\n']

/-- One call of `write_record`, without the file. -/
structure Call where
  count : Nat
  addr : Nat
  type : Nat
  data : Nat → Nat

/-- The bytes `data[0], ..., data[count-1]` that a call prints. -/
def Call.payload (c : Call) : List Nat :=
  (List.range c.count).map c.data

/-- A local array `uint8_t data[2] = { a, b }`. -/
def array2 (a b : Nat) : Nat → Nat :=
  fun i => if i = 0 then a % 256 else if i = 1 then b % 256 else 0

/-- The `write_record` calls that one pass through the loop body of `hexdata_dump` makes at
`addr`, and the value of `addr` after the pass. -/
def hexdata_dump_body (hdata : hexdata) (addr : Nat) : List Call × Nat :=
  let bank : List Call :=
    if (addr &&& 0x0000ffff) = 0 ∧ addr < 0x100000 then
      [⟨2, 0x0000, 0x02, array2 ((addr >>> 12) &&& 0xf0) 0⟩]
    else if (addr &&& 0x0000ffff) = 0 ∧ addr ≠ 0 then
      [⟨2, 0x0000, 0x04, array2 (addr >>> 24) ((addr >>> 16) &&& 0xff)⟩]
    else []
  let data := fun i => hdata.data (addr + i)
  let size := hdata.width
  let size :=
    if (addr + size) % 2 ^ 32 > hdata.size then (hdata.size + 2 ^ 32 - addr) % 2 ^ 32 % 256
    else size
  (bank ++ [⟨size, addr &&& 0x0000ffff, 0x00, data⟩], (addr + size) % 2 ^ 32)

/-- The loop of `hexdata_dump` from `addr` on, followed by the end-of-file record: the
sequence of `write_record` calls. -/
def hexdata_dump_loop (hdata : hexdata) : Nat → Nat → Option (List Call)
  | 0, _ => none
  | fuel + 1, addr =>
    if addr < hdata.size then
      match hexdata_dump_loop hdata fuel (hexdata_dump_body hdata addr).2 with
      | none => none
      | some rest => some ((hexdata_dump_body hdata addr).1 ++ rest)
    else some [⟨0, 0x0000, 0x01, fun _ => 0⟩]

/-- The `write_record` calls of `hexdata_dump`, in order. -/
def hexdata_dump_calls (hdata : hexdata) (fuel : Nat) : Option (List Call) :=
  hexdata_dump_loop hdata fuel 0

/-- The text that a sequence of `write_record` calls appends to `file`. -/
def write_records (file : List Char) (calls : List Call) : List Char :=
  calls.foldl (fun file c => write_record file c.count c.addr c.type c.data) file

/-- The function `hexdata_dump`: the content of the file after the call (the return value is
always 0). -/
def hexdata_dump (hdata : hexdata) (fuel : Nat) : Option (List Char) :=
  (hexdata_dump_calls hdata fuel).map (write_records [])

/-! ## Reading records -/

/-- The libc `isspace` in the C locale. -/
def isspace (c : Char) : Bool :=
  c.toNat = 32 ∨ (9 ≤ c.toNat ∧ c.toNat ≤ 13)

/-- The value of a hexadecimal digit, of either case. -/
def hexDigitVal (c : Char) : Option Nat :=
  let n := c.toNat
  if 48 ≤ n ∧ n ≤ 57 then some (n - 48)
  else if 65 ≤ n ∧ n ≤ 70 then some (n - 55)
  else if 97 ≤ n ∧ n ≤ 102 then some (n - 87)
  else none

/-- Reads at most `width` hexadecimal digits off the front of `s`, continuing the value `acc`;
`seen` tells whether a digit has been read already. Gives the value and the unread rest, or
`none` when there is no digit at all. -/
def scanDigits : Nat → List Char → Nat → Bool → Option (Nat × List Char)
  | 0, s, acc, seen => if seen then some (acc, s) else none
  | _ + 1, [], acc, seen => if seen then some (acc, []) else none
  | width + 1, c :: s, acc, seen =>
    match hexDigitVal c with
    | some d => scanDigits width s ((acc * 16 + d) % 2 ^ 32) true
    | none => if seen then some (acc, c :: s) else none

/-- The `scanf` conversion `%<width>X` into an `unsigned int`, as the C library performs it:
white space is skipped, then an optional sign, an optional `0x` or `0X` and hexadecimal
digits are read, `width` characters at most; the conversion fails when no digit was read.
The `0` of a `0x` counts as a digit, so a `0x` that no digit follows within the width converts
to 0 and is consumed (ISO C calls that a matching failure; the C library does not). A null
character ends the input like any other character that is not part of a number. Gives the
value and the unread rest. -/
def scanX (width : Nat) (s : List Char) : Option (Nat × List Char) :=
  let s := s.dropWhile isspace
  let (neg, width, s) :=
    match s with
    | c :: s1 =>
      if 0 < width ∧ (c.toNat = 43 ∨ c.toNat = 45) then (decide (c.toNat = 45), width - 1, s1)
      else (false, width, s)
    | [] => (false, width, s)
  let (seen, width, s) :=
    match s with
    | c0 :: c1 :: s2 =>
      if 2 ≤ width ∧ c0.toNat = 48 ∧ (c1.toNat = 120 ∨ c1.toNat = 88) then
        (true, width - 2, s2)
      else (false, width, s)
    | _ => (false, width, s)
  match scanDigits width s 0 seen with
  | some (v, rest) => some (if neg then (2 ^ 32 - v) % 2 ^ 32 else v, rest)
  | none => none

/-- The call `sscanf(buff, ":%2X%4X%2X", &count, &addr, &type)` when it returns 3: the three
values. In every other case the result is `none`. -/
def scan_header (buff : List Char) : Option (Nat × Nat × Nat) :=
  match buff with
  | c :: s =>
    if c = ':' then
      match scanX 2 s with
      | some (count, s) =>
        match scanX 4 s with
        | some (addr, s) =>
          match scanX 2 s with
          | some (type, _) => some (count, addr, type)
          | none => none
        | none => none
      | none => none
    else none
  | [] => none

/-- The call `sscanf(buff + i, "%<width>X", &val)`: the new content of `val`, which keeps its
old content when the conversion fails. -/
def sscanf_val (width : Nat) (buff : List Char) (i val : Nat) : Nat :=
  match scanX width (buff.drop i) with
  | some (v, _) => v
  | none => val

/-- The characters that `fgets` takes from `file` when it may store `n` of them, and the
characters it leaves. -/
def fgets_read : Nat → List Char → List Char × List Char
  | 0, file => ([], file)
  | _ + 1, [] => ([], [])
  | n + 1, c :: file =>
    if c = '\n' then ([c], file)
    else ((c :: (fgets_read n file).1), (fgets_read n file).2)

/-- The call `fgets(buff, size, file)`: `none` for `NULL` (end of file); otherwise the buffer,
in which the characters read and a null character replace the front, and the rest of the file. -/
def fgets (buff : List Char) (size : Nat) (file : List Char) : Option (List Char × List Char) :=
  match file with
  | [] => none
  | _ :: _ =>
    let got := (fgets_read (size - 1) file).1
    some (got ++ Char.ofNat 0 :: buff.drop (got.length + 1), (fgets_read (size - 1) file).2)

/-- The local variables of `hexdata_load` that the loop of a data record changes. -/
structure DataLoop where
  hdata : hexdata
  addr : Nat
  val : Nat
  checksum : Nat
  i : Nat

/-- The loop `while (count--) { ... }` of a data record in `hexdata_load`; `none` when a call
of `hexdata_write` does not come back. -/
def hexdata_load_data (buff : List Char) : Nat → DataLoop → Option DataLoop
  | 0, st => some st
  | count + 1, st =>
    let val := sscanf_val 2 buff st.i st.val
    match hexdata_write st.hdata st.addr (val % 256) with
    | none => none
    | some hdata =>
      hexdata_load_data buff count
        { hdata := hdata
          addr := (st.addr + 1) % 2 ^ 32
          val := val
          checksum := (st.checksum + val) % 256
          i := (st.i + 2) % 256 }

/-- What `hexdata_load` does after a line: go on to the next line with an image and a
`base_addr`, or return a code; `abort` when the process does not come back from a call of
`hexdata_write`. -/
inductive Step where
  | next (hdata : hexdata) (base_addr : Nat)
  | stop (code : Nat) (hdata : hexdata)
  | abort

/-- The checksum test at the end of the loop body of `hexdata_load`. -/
def hexdata_load_test (hdata : hexdata) (base_addr : Nat) (buff : List Char)
    (i val checksum : Nat) : Step :=
  let val := sscanf_val 2 buff i val
  if ((val + checksum) % 2 ^ 32) &&& 0xff ≠ 0 then .stop 1 hdata
  else .next hdata base_addr

/-- The body of the loop of `hexdata_load` for the line in `buff`. The argument `junk` is the
indeterminate content of the uninitialised local `val`. (The local `partition_size` is never
read and is left out.) -/
def hexdata_load_line (junk : Nat) (hdata : hexdata) (base_addr : Nat) (buff : List Char) :
    Step :=
  match scan_header buff with
  | none => .stop 1 hdata
  | some (count, addr, type) =>
    let val := junk
    let i := 9
    let checksum := (count + addr + (addr >>> 8) + type) % 256
    let hdata :=
      if count > hdata.width ∧ count ≤ 256 then { hdata with width := count % 256 } else hdata
    if type = 0x00 then
      let addr := (addr + base_addr) % 2 ^ 32
      match hexdata_load_data buff count ⟨hdata, addr, val, checksum, i⟩ with
      | none => .abort
      | some st => hexdata_load_test st.hdata base_addr buff st.i st.val st.checksum
    else if type = 0x01 then .stop 0 hdata
    else if type = 0x02 then
      let val := sscanf_val 4 buff i val
      let checksum := (checksum + (val + (val >>> 8))) % 256
      let base_addr := (val <<< 4) % 2 ^ 32
      let i := (i + 4) % 256
      hexdata_load_test hdata base_addr buff i val checksum
    else if type = 0x03 then
      hexdata_load_test hdata base_addr buff i val checksum
    else if type = 0x04 then
      let val := sscanf_val 4 buff i val
      let checksum := (checksum + (val + (val >>> 8))) % 256
      let base_addr := base_addr &&& 0xffff0000
      let base_addr := base_addr ||| ((val <<< 16) % 2 ^ 32)
      let i := (i + 4) % 256
      hexdata_load_test hdata base_addr buff i val checksum
    else .stop 1 hdata

/-- The loop `while (fgets(buff, LINE_BUFF_SIZE, file)) { ... }` of `hexdata_load` and the
`return 0` after it. The result is `none` when the fuel runs out, `some none` when the process
does not come back from a call of `hexdata_write`, and otherwise the return code and the
image. -/
def hexdata_load_loop (junk : Nat → Nat) :
    Nat → hexdata → Nat → Nat → List Char → List Char → Option (Option (Nat × hexdata))
  | 0, _, _, _, _, _ => none
  | fuel + 1, hdata, base_addr, line, buff, file =>
    match fgets buff 256 file with
    | none => some (some (0, hdata))
    | some (buff, file) =>
      match hexdata_load_line (junk line) hdata base_addr buff with
      | .stop code hdata => some (some (code, hdata))
      | .next hdata base_addr =>
        hexdata_load_loop junk fuel hdata base_addr ((line + 1) % 2 ^ 32) buff file
      | .abort => some none

/-- The function `hexdata_load` reading `file`. The arguments `junk` and `buff` are the
indeterminate contents of the uninitialised locals: `junk n` that of `val` at line `n`, `buff`
the line buffer. The result is that of the loop: the return code and the image after the
call, when the call returns. -/
def hexdata_load (junk : Nat → Nat) (buff : List Char) (hdata : hexdata) (file : List Char)
    (fuel : Nat) : Option (Option (Nat × hexdata)) :=
  hexdata_load_loop junk fuel hdata 0 1 buff file

/-! ## The call of `hexdata_dump` in `main` -/

/-- The lines `if (count > 0) { hdata->width = count; }` of `main`, between `hexdata_load` and
`hexdata_dump`; `count` is the `int` that the option `--count` sets and that is 0 without
it. -/
def main_override (hdata : hexdata) (count : Int) : hexdata :=
  if count > 0 then { hdata with width := (count % 256).toNat } else hdata

/-! ## Notions used to state the properties -/

/-- A record as the data model describes it: byte count, 16-bit address field, type and
payload bytes. -/
structure Record where
  count : Nat
  addr : Nat
  type : Nat
  payload : List Nat
  deriving DecidableEq, Repr

/-- The record that a call of `write_record` prints. -/
def Call.record (c : Call) : Record :=
  ⟨c.count, c.addr, c.type, c.payload⟩

/-- The hexadecimal digits of a record line: every byte of the record and the checksum byte
`cs`, in upper case. -/
def record_body (r : Record) (cs : Nat) : List Char :=
  hex2 r.count ++ hex4 r.addr ++ hex2 r.type ++ r.payload.flatMap hex2 ++ hex2 cs

/-- The text of a record line: the colon, the byte count, the address, the type, the payload
bytes and the checksum byte `cs` in upper-case hexadecimal, then a line feed. -/
def record_line (r : Record) (cs : Nat) : List Char :=
  ':' :: (hex2 r.count ++ hex4 r.addr ++ hex2 r.type) ++ r.payload.flatMap hex2 ++ hex2 cs ++ ['\n']

/-- The sum that the checksum law speaks of: byte count, the two address bytes, type, payload
bytes and the checksum byte `cs`. -/
def record_sum (r : Record) (cs : Nat) : Nat :=
  r.count + r.addr / 256 + r.addr % 256 + r.type + r.payload.sum + cs

/-- The checksum byte of a record: the two's complement of the sum of its other bytes. -/
def record_checksum (r : Record) : Nat :=
  (256 - (r.count + r.addr / 256 + r.addr % 256 + r.type + r.payload.sum) % 256) % 256

/-- The line of a record with its checksum byte. -/
def record_text (r : Record) : List Char :=
  record_line r (record_checksum r)

/-- The bytes that a text of hexadecimal digits, of either case, writes, two digits to a
byte; `none` when the text is not of that form. A well-formed record line is a colon, such a
text for the bytes of the record, and a line terminator. -/
def hexBytes : List Char → Option (List Nat)
  | [] => some []
  | [_] => none
  | c1 :: c2 :: s =>
    match hexDigitVal c1, hexDigitVal c2, hexBytes s with
    | some a, some b, some bs => some ((16 * a + b) :: bs)
    | _, _, _ => none

/-- The invariants of the byte image in the data model: the capacity is a power of two that
fits a `uint32_t`, the size is at most the capacity, and the memory holds bytes. -/
structure Image (h : hexdata) : Prop where
  capacity_pow : ∃ k, k < 32 ∧ h.capacity = 2 ^ k
  size_le : h.size ≤ h.capacity
  bytes : ∀ i, h.data i < 256

/-- The image after a sequence of `hexdata_write` calls, given as pairs of address and
value; `none` when one of the calls does not come back. -/
def hexdata_writes (h : hexdata) : List (Nat × Nat) → Option hexdata
  | [] => some h
  | p :: ws =>
    match hexdata_write h p.1 p.2 with
    | none => none
    | some h => hexdata_writes h ws

/-- The bytes `bs` written to an image by `hexdata_write` at consecutive addresses from `addr`
on, in order; `none` when one of the calls does not come back. -/
def write_bytes (h : hexdata) (addr : Nat) : List Nat → Option hexdata
  | [] => some h
  | b :: bs =>
    match hexdata_write h addr b with
    | none => none
    | some h => write_bytes h ((addr + 1) % 2 ^ 32) bs

/-- The image after the width tracking of `hexdata_load` for a line with byte count `n`. -/
def track_width (h : hexdata) (n : Nat) : hexdata :=
  if n > h.width then { h with width := n } else h

/-- The extended-address records that the encoder is to emit before the data record at
`addr`, in the words of the specification. -/
def spec_bank (addr : Nat) : List Record :=
  if addr % 65536 = 0 then
    if addr < 0x100000 then [⟨2, 0, 0x02, [(addr >>> 12) &&& 0xf0, 0]⟩]
    else [⟨2, 0, 0x04, [addr >>> 24, (addr >>> 16) &&& 0xff]⟩]
  else []

/-- The data record that the encoder is to emit for the chunk of an image that starts at
`addr`, for the record width `width`, in the words of the specification. -/
def spec_data (h : hexdata) (width addr : Nat) : Record :=
  ⟨min width (h.size - addr), addr &&& 0xffff, 0x00,
    (List.range (min width (h.size - addr))).map (fun i => h.data (addr + i))⟩

/-- The records that the encoder is to emit for the chunk that starts at `addr`. -/
def spec_chunk (h : hexdata) (width addr : Nat) : List Record :=
  spec_bank addr ++ [spec_data h width addr]

/-- The end-of-file record. -/
def spec_eof : Record := ⟨0, 0, 0x01, []⟩

/-- The number of chunks of `width` bytes in `size` bytes, the last one possibly shorter. -/
def chunks (size width : Nat) : Nat := (size + width - 1) / width

/-- An image of twenty bytes, the byte at offset `i` being `i`. -/
def image20 : hexdata := ⟨65536, 20, fun i => i % 256, 0xff, 16⟩

/-- An image of 124 bytes, the byte at offset `i` being `i`, with record width 124. -/
def image124 : hexdata := ⟨65536, 124, fun i => i % 256, 0xff, 124⟩

/-- An image of one mebibyte and one byte, all zero, with record width 128. -/
def image1M : hexdata := ⟨0x200000, 0x100001, fun _ => 0, 0xff, 128⟩

/-- The image that a step of `hexdata_load` leaves, when the process comes back from it. -/
def Step.image : Step → Option hexdata
  | .next hdata _ => some hdata
  | .stop _ hdata => some hdata
  | .abort => none

/-- The byte counts of the lines whose header `hexdata_load` parses, in the order of the
lines, the line on which it returns included. -/
def hexdata_load_counts (junk : Nat → Nat) :
    Nat → hexdata → Nat → Nat → List Char → List Char → List Nat
  | 0, _, _, _, _, _ => []
  | fuel + 1, hdata, base_addr, line, buff, file =>
    match fgets buff 256 file with
    | none => []
    | some (buff, file) =>
      (match scan_header buff with
        | none => []
        | some (count, _, _) => [count])
      ++ (match hexdata_load_line (junk line) hdata base_addr buff with
        | .stop _ _ => []
        | .next hdata base_addr =>
          hexdata_load_counts junk fuel hdata base_addr ((line + 1) % 2 ^ 32) buff file
        | .abort => [])

/-! ## The checksum of `write_record` -/

theorem write_record_sum_eq (data : Nat → Nat) (n : Nat) :
    ∀ i checksum, write_record_sum data i n checksum % 256
      = (checksum + ((List.range' i n).map data).sum) % 256 := by
  induction n with
  | zero => intro i checksum; simp [write_record_sum]
  | succ n ih =>
    intro i checksum
    simp only [write_record_sum, ih, List.range'_succ, List.map_cons, List.sum_cons]
    omega

theorem write_record_sum_lt (data : Nat → Nat) (n : Nat) :
    ∀ i checksum, checksum < 256 → write_record_sum data i n checksum < 256 := by
  induction n with
  | zero => intro i checksum h; simpa [write_record_sum] using h
  | succ n ih =>
    intro i checksum _
    simp only [write_record_sum]
    exact ih _ _ (Nat.mod_lt _ (by norm_num))

theorem write_record_data_eq (data : Nat → Nat) (n : Nat) :
    ∀ i file, write_record_data data i n file
      = file ++ ((List.range' i n).map data).flatMap hex2 := by
  induction n with
  | zero => intro i file; simp [write_record_data]
  | succ n ih =>
    intro i file
    simp [write_record_data, ih, List.range'_succ, List.append_assoc]

theorem write_record_eq (file : List Char) (c : Call) :
    write_record file c.count c.addr c.type c.data
      = file ++ record_line c.record (write_record_checksum c.count c.addr c.type c.data) := by
  simp [write_record, record_line, Call.record, Call.payload, write_record_data_eq,
    List.range_eq_range', List.append_assoc]

theorem write_record_checksum_lt (count addr type : Nat) (data : Nat → Nat) :
    write_record_checksum count addr type data < 256 := by
  unfold write_record_checksum
  exact Nat.mod_lt _ (by norm_num)

theorem write_record_checksum_sum (c : Call) :
    record_sum c.record (write_record_checksum c.count c.addr c.type c.data) % 256 = 0 := by
  have h := write_record_sum_eq c.data c.count 0 ((c.count + c.addr + (c.addr >>> 8) + c.type) % 256)
  have h2 := write_record_sum_lt c.data c.count 0
    ((c.count + c.addr + (c.addr >>> 8) + c.type) % 256) (Nat.mod_lt _ (by norm_num))
  simp only [record_sum, Call.record, Call.payload, write_record_checksum,
    List.range_eq_range', Nat.shiftRight_eq_div_pow] at h h2 ⊢
  omega

theorem write_records_eq (calls : List Call) :
    ∀ file, write_records file calls
      = file ++ calls.flatMap
          (fun c => record_line c.record (write_record_checksum c.count c.addr c.type c.data)) := by
  induction calls with
  | nil => intro file; simp [write_records]
  | cons c cs ih =>
    intro file
    have h := ih (write_record file c.count c.addr c.type c.data)
    simp only [write_records, List.foldl_cons] at h ⊢
    rw [h, write_record_eq]
    simp [List.append_assoc]

/-! ## The records of `hexdata_dump` -/

theorem Image.size_le_pow (h : hexdata) (hi : Image h) : h.size ≤ 2 ^ 31 := by
  obtain ⟨k, hk, hc⟩ := hi.capacity_pow
  have : (2:Nat) ^ k ≤ 2 ^ 31 := Nat.pow_le_pow_right (by norm_num) (by omega)
  have := hi.size_le
  omega

theorem and_ffff (a : Nat) : a &&& 0x0000ffff = a % 65536 :=
  Nat.and_pow_two_sub_one_eq_mod a 16

theorem hexdata_dump_body_eq (h : hexdata) (addr : Nat) (hw : 1 ≤ h.width)
    (hw2 : h.width ≤ 255) (ha : addr < h.size) (hs : h.size + h.width ≤ 2 ^ 32) :
    (hexdata_dump_body h addr).1.map Call.record = spec_bank addr ++ [spec_data h h.width addr]
    ∧ (hexdata_dump_body h addr).2 = addr + min h.width (h.size - addr) := by
  have hlt : addr + h.width < 2 ^ 32 := by omega
  have e1 : (addr + h.width) % 2 ^ 32 = addr + h.width := Nat.mod_eq_of_lt hlt
  have e2 : (if (addr + h.width) % 2 ^ 32 > h.size
      then (h.size + 2 ^ 32 - addr) % 2 ^ 32 % 256 else h.width) = min h.width (h.size - addr) := by
    rw [e1]
    split <;> omega
  have e3 : (addr + min h.width (h.size - addr)) % 2 ^ 32 = addr + min h.width (h.size - addr) :=
    Nat.mod_eq_of_lt (by omega)
  have hb1 : ((addr >>> 12) &&& 0xf0) % 256 = (addr >>> 12) &&& 0xf0 :=
    Nat.mod_eq_of_lt (lt_of_le_of_lt Nat.and_le_right (by norm_num))
  have hb2 : (addr >>> 24) % 256 = addr >>> 24 := by
    apply Nat.mod_eq_of_lt
    rw [Nat.shiftRight_eq_div_pow]
    omega
  have hb3 : ((addr >>> 16) &&& 0xff) % 256 = (addr >>> 16) &&& 0xff :=
    Nat.mod_eq_of_lt (lt_of_le_of_lt Nat.and_le_right (by norm_num))
  unfold hexdata_dump_body
  simp only [e2, e3, and_ffff, and_true]
  unfold spec_bank
  by_cases h0 : addr % 65536 = 0
  · by_cases h1 : addr < 0x100000
    · simp [h0, h1, Call.record, Call.payload, array2, spec_data, List.range_succ, hb1, and_ffff]
    · have h2 : addr ≠ 0 := by omega
      simp [h0, h1, h2, Call.record, Call.payload, array2, spec_data, List.range_succ, hb2, hb3,
        and_ffff]
  · simp [h0, Call.record, Call.payload, spec_data, and_ffff]

theorem chunks_zero (w : Nat) (hw : 0 < w) : chunks 0 w = 0 := by
  unfold chunks
  exact Nat.div_eq_of_lt (by omega)

theorem chunks_add (s w : Nat) (hw : 0 < w) : chunks (s + w) w = chunks s w + 1 := by
  unfold chunks
  have : s + w + w - 1 = (s + w - 1) + w := by omega
  rw [this, Nat.add_div_right _ hw]

theorem chunks_small (s w : Nat) (hs : 0 < s) (hsw : s ≤ w) : chunks s w = 1 := by
  unfold chunks
  exact Nat.div_eq_of_lt_le (by omega) (by omega)

theorem hexdata_dump_loop_eq (h : hexdata) (hw : 1 ≤ h.width) (hw2 : h.width ≤ 255)
    (hs : h.size + h.width ≤ 2 ^ 32) :
    ∀ fuel addr, addr ≤ h.size → h.size - addr < fuel →
      ∃ calls, hexdata_dump_loop h fuel addr = some calls ∧
        calls.map Call.record
          = (List.range (chunks (h.size - addr) h.width)).flatMap
              (fun k => spec_bank (addr + k * h.width)
                          ++ [spec_data h h.width (addr + k * h.width)])
            ++ [spec_eof] := by
  intro fuel
  induction fuel with
  | zero => intro addr _ hf; omega
  | succ fuel ih =>
    intro addr ha hf
    unfold hexdata_dump_loop
    by_cases hlt : addr < h.size
    · obtain ⟨hb1, hb2⟩ := hexdata_dump_body_eq h addr hw hw2 hlt hs
      simp only [hlt, if_true, hb2]
      obtain ⟨rest, hr1, hr2⟩ := ih (addr + min h.width (h.size - addr)) (by omega) (by omega)
      refine ⟨_, by rw [hr1], ?_⟩
      rw [List.map_append, hb1, hr2]
      by_cases hfull : h.width ≤ h.size - addr
      · have e1 : min h.width (h.size - addr) = h.width := by omega
        have e2 : h.size - addr = (h.size - (addr + h.width)) + h.width := by omega
        rw [e1]
        conv_rhs => rw [e2, chunks_add _ _ hw, List.range_succ_eq_map]
        simp only [List.flatMap_cons, List.flatMap_map, Nat.zero_mul, Nat.add_zero,
          List.append_assoc, Nat.succ_eq_add_one, Function.comp]
        congr 3
        apply List.flatMap_congr
        intro k _
        have : addr + h.width + k * h.width = addr + (k + 1) * h.width := by ring
        rw [this]
      · have e1 : min h.width (h.size - addr) = h.size - addr := by omega
        have e2 : h.size - (addr + (h.size - addr)) = 0 := by omega
        rw [e1, e2, chunks_zero _ hw, chunks_small _ _ (by omega) (by omega)]
        simp [List.range_succ]
    · have e : h.size - addr = 0 := by omega
      simp [hlt, e, chunks_zero _ hw, Call.record, Call.payload, spec_eof]

theorem chunks_lt_iff (size w k : Nat) (hw : 0 < w) : k < chunks size w ↔ k * w < size := by
  unfold chunks
  rw [Nat.lt_iff_add_one_le, Nat.le_div_iff_mul_le hw]
  constructor
  · intro h
    have : (k + 1) * w = k * w + w := by ring
    omega
  · intro h
    have : (k + 1) * w = k * w + w := by ring
    omega

theorem hexdata_dump_calls_eq (h : hexdata) (w : Nat) (hi : Image h) (hw : 1 ≤ w)
    (hw2 : w ≤ 255) (fuel : Nat) (hf : h.size < fuel) :
    ∃ calls, hexdata_dump_calls { h with width := w } fuel = some calls ∧
      calls.map Call.record
        = (List.range (chunks h.size w)).flatMap (fun k => spec_chunk h w (k * w))
          ++ [spec_eof] := by
  have hs := Image.size_le_pow h hi
  obtain ⟨calls, h1, h2⟩ := hexdata_dump_loop_eq { h with width := w } hw hw2
    (by show h.size + w ≤ 2 ^ 32; omega) fuel 0 (Nat.zero_le _) (by show h.size - 0 < fuel; omega)
  refine ⟨calls, h1, ?_⟩
  rw [h2]
  simp [spec_chunk, spec_data]

theorem spec_chunk_data (h : hexdata) (w addr : Nat) :
    (spec_chunk h w addr).filter (fun r => decide (r.type = 0x00)) = [spec_data h w addr] := by
  unfold spec_chunk spec_bank
  split
  · split <;> simp [spec_data]
  · simp [spec_data]

theorem spec_chunks_data (h : hexdata) (w m : Nat) :
    ((List.range m).flatMap (fun k => spec_chunk h w (k * w))).filter
        (fun r => decide (r.type = 0x00))
      = (List.range m).map (fun k => spec_data h w (k * w)) := by
  induction m with
  | zero => simp
  | succ m ih =>
    rw [List.range_succ, List.flatMap_append, List.filter_append, ih]
    simp [spec_chunk_data]

theorem spec_data_count_sum (h : hexdata) (w : Nat) :
    ∀ k, k * w ≤ h.size →
      (((List.range k).map (fun k => spec_data h w (k * w))).map Record.count).sum = k * w := by
  intro k
  induction k with
  | zero => simp
  | succ k ih =>
    intro hk
    have e : (k + 1) * w = k * w + w := by ring
    rw [List.range_succ, List.map_append, List.map_append, List.sum_append, ih (by omega)]
    simp [spec_data]
    omega

theorem spec_data_payload (h : hexdata) (w : Nat) :
    ∀ m, m * w ≤ h.size + w →
      ((List.range m).map (fun k => spec_data h w (k * w))).flatMap Record.payload
        = (List.range (min (m * w) h.size)).map h.data := by
  intro m
  induction m with
  | zero => simp
  | succ m ih =>
    intro hm
    have e : (m + 1) * w = m * w + w := by ring
    have e2 : min ((m + 1) * w) h.size = min (m * w) h.size + min w (h.size - m * w) := by omega
    have e3 : min (m * w) h.size = m * w := by omega
    rw [List.range_succ, List.map_append, List.flatMap_append, ih (by omega), e2,
      List.range_add, List.map_append, e3]
    simp [spec_data, Function.comp]


theorem hexdata_dump_calls_split (h : hexdata) (w : Nat) (hi : Image h) (hw : 1 ≤ w)
    (hw2 : w ≤ 255) (fuel : Nat) (hf : h.size < fuel) (k : Nat) (hk : k * w < h.size) :
    ∃ calls pre post, hexdata_dump_calls { h with width := w } fuel = some calls ∧
      calls.map Call.record = pre ++ spec_chunk h w (k * w) ++ post ∧
      ((pre.filter (fun r => decide (r.type = 0x00))).map Record.count).sum = k * w := by
  obtain ⟨calls, h1, h2⟩ := hexdata_dump_calls_eq h w hi hw hw2 fuel hf
  have hlt : k < chunks h.size w := (chunks_lt_iff h.size w k hw).2 hk
  obtain ⟨m, hm⟩ : ∃ m, chunks h.size w = k + (m + 1) := ⟨chunks h.size w - k - 1, by omega⟩
  refine ⟨calls, (List.range k).flatMap (fun j => spec_chunk h w (j * w)),
    ((List.range m).map Nat.succ).flatMap (fun j => spec_chunk h w ((k + j) * w)) ++ [spec_eof],
    h1, ?_, ?_⟩
  · rw [h2, hm, List.range_add, List.range_succ_eq_map]
    simp [List.flatMap_append, List.flatMap_map, Function.comp, List.append_assoc]
  · rw [spec_chunks_data, spec_data_count_sum h w k (by omega)]

theorem image20_valid : Image image20 :=
  ⟨⟨16, by norm_num, rfl⟩, by decide, fun i => Nat.mod_lt i (by norm_num)⟩

theorem spec_chunk_types (h : hexdata) (w addr : Nat) :
    ∀ r ∈ spec_chunk h w addr, r.type ≠ 0x01 := by
  intro r hr
  unfold spec_chunk spec_bank at hr
  split at hr
  · split at hr <;> simp [spec_data] at hr <;> rcases hr with rfl | rfl <;> simp
  · simp [spec_data] at hr
    subst hr
    simp

theorem image1M_valid : Image image1M :=
  ⟨⟨21, by norm_num, rfl⟩, by decide, fun _ => by show 0 < 256; norm_num⟩

theorem hexdata_dump_calls_at (h : hexdata) (w : Nat) (hi : Image h) (hw : 1 ≤ w)
    (hw2 : w ≤ 255) (fuel : Nat) (hf : h.size < fuel) (addr : Nat) (hd : addr % w = 0)
    (ha : addr < h.size) :
    ∃ calls pre post, hexdata_dump_calls { h with width := w } fuel = some calls ∧
      calls.map Call.record = pre ++ (spec_bank addr ++ [spec_data h w addr]) ++ post ∧
      ((pre.filter (fun r => decide (r.type = 0x00))).map Record.count).sum = addr := by
  have e : addr / w * w = addr := Nat.div_mul_cancel (Nat.dvd_of_mod_eq_zero hd)
  have := hexdata_dump_calls_split h w hi hw hw2 fuel hf (addr / w) (by omega)
  rw [e] at this
  exact this

theorem hexdata_dump_eof (h : hexdata) (w : Nat) (hi : Image h) (hw : 1 ≤ w)
    (hw2 : w ≤ 255) (fuel : Nat) (hf : h.size < fuel) :
    ∃ calls last, hexdata_dump_calls { h with width := w } fuel = some (calls ++ [last]) ∧
      last.record = spec_eof ∧ (∀ c ∈ calls, c.type ≠ 0x01) ∧
      calls.map Call.record
        = (List.range (chunks h.size w)).flatMap (fun k => spec_chunk h w (k * w)) := by
  obtain ⟨all, h1, h2⟩ := hexdata_dump_calls_eq h w hi hw hw2 fuel hf
  obtain ⟨calls, l2, h3, h4, h5⟩ := List.map_eq_append_iff.1 h2
  obtain ⟨last, rfl, h6⟩ : ∃ last, l2 = [last] ∧ last.record = spec_eof := by
    cases l2 with
    | nil => simp at h5
    | cons c t =>
      cases t with
      | nil => exact ⟨c, rfl, by simpa using h5⟩
      | cons d t => simp at h5
  refine ⟨calls, last, by rw [h1, h3], h6, ?_, h4⟩
  intro c hc
  have hm : c.record ∈ calls.map Call.record := List.mem_map_of_mem _ hc
  rw [h4, List.mem_flatMap] at hm
  obtain ⟨k, _, hk⟩ := hm
  exact spec_chunk_types h w _ _ hk

theorem record_line_eof (c : Call) (hc : c.record = spec_eof) :
    record_line c.record (write_record_checksum c.count c.addr c.type c.data)
      = ":00000001FF\n".toList := by
  have h1 : c.count = 0 := congrArg Record.count hc
  have h2 : c.addr = 0 := congrArg Record.addr hc
  have h3 : c.type = 1 := congrArg Record.type hc
  rw [hc]
  simp only [h1, h2, h3, write_record_checksum, write_record_sum]
  decide

/-! ## Reading hexadecimal text -/

theorem hexDigitVal_some (c : Char) (a : Nat) (h : hexDigitVal c = some a) :
    a < 16 ∧ isspace c = false ∧ c.toNat ≠ 43 ∧ c.toNat ≠ 45 ∧ c.toNat ≠ 120 ∧ c.toNat ≠ 88
      ∧ c.toNat ≠ 10 := by
  simp only [hexDigitVal] at h
  simp only [isspace]
  split_ifs at h with h1 h2 h3
  · simp only [Option.some.injEq] at h
    refine ⟨by omega, ?_, by omega, by omega, by omega, by omega, by omega⟩
    simp; omega
  · simp only [Option.some.injEq] at h
    refine ⟨by omega, ?_, by omega, by omega, by omega, by omega, by omega⟩
    simp; omega
  · simp only [Option.some.injEq] at h
    refine ⟨by omega, ?_, by omega, by omega, by omega, by omega, by omega⟩
    simp; omega

theorem hexDigitVal_ne_newline (c : Char) (a : Nat) (h : hexDigitVal c = some a) : c ≠ '\n' := by
  intro hc
  have := (hexDigitVal_some c a h).2.2.2.2.2.2
  rw [hc] at this
  exact this rfl

theorem hexDigitVal_hexDigit (d : Nat) (hd : d < 16) : hexDigitVal (hexDigit d) = some d := by
  interval_cases d <;> rfl

theorem scanX_two (c1 c2 : Char) (s : List Char) (a b : Nat) (h1 : hexDigitVal c1 = some a)
    (h2 : hexDigitVal c2 = some b) : scanX 2 (c1 :: c2 :: s) = some (16 * a + b, s) := by
  obtain ⟨a16, hs1, p1, m1, _, _, _⟩ := hexDigitVal_some c1 a h1
  obtain ⟨b16, _, _, _, x2, X2, _⟩ := hexDigitVal_some c2 b h2
  simp only [scanX, List.dropWhile, hs1, p1, m1, x2, X2, or_self, and_false, if_false,
    scanDigits, h1, h2]
  simp
  omega

theorem scanX_four (c1 c2 c3 c4 : Char) (s : List Char) (a b c d : Nat)
    (h1 : hexDigitVal c1 = some a) (h2 : hexDigitVal c2 = some b)
    (h3 : hexDigitVal c3 = some c) (h4 : hexDigitVal c4 = some d) :
    scanX 4 (c1 :: c2 :: c3 :: c4 :: s) = some (256 * (16 * a + b) + (16 * c + d), s) := by
  obtain ⟨a16, hs1, p1, m1, _, _, _⟩ := hexDigitVal_some c1 a h1
  obtain ⟨b16, _, _, _, x2, X2, _⟩ := hexDigitVal_some c2 b h2
  obtain ⟨c16, _⟩ := hexDigitVal_some c3 c h3
  obtain ⟨d16, _⟩ := hexDigitVal_some c4 d h4
  simp only [scanX, List.dropWhile, hs1, p1, m1, x2, X2, or_self, and_false, if_false,
    scanDigits, h1, h2, h3, h4]
  simp
  omega


theorem hexBytes_cons_inv (s : List Char) (v : Nat) (bs : List Nat)
    (h : hexBytes s = some (v :: bs)) :
    ∃ c1 c2 s' a b, s = c1 :: c2 :: s' ∧ hexDigitVal c1 = some a ∧ hexDigitVal c2 = some b
      ∧ v = 16 * a + b ∧ hexBytes s' = some bs := by
  match s, h with
  | c1 :: c2 :: s', h =>
    simp only [hexBytes] at h
    split at h
    · rename_i a b bs' h1 h2 h3
      simp only [Option.some.injEq, List.cons.injEq] at h
      exact ⟨c1, c2, s', a, b, rfl, h1, h2, h.1.symm, by rw [h3, h.2]⟩
    · simp at h

theorem hexBytes_nil_inv (s : List Char) (h : hexBytes s = some []) : s = [] := by
  match s, h with
  | [], _ => rfl
  | c1 :: c2 :: s', h =>
    simp only [hexBytes] at h
    split at h <;> simp at h

theorem hexBytes_append (s t : List Char) (bs bt : List Nat) (hs : hexBytes s = some bs)
    (ht : hexBytes t = some bt) : hexBytes (s ++ t) = some (bs ++ bt) := by
  induction bs generalizing s with
  | nil => rw [hexBytes_nil_inv s hs]; simpa using ht
  | cons v bs ih =>
    obtain ⟨c1, c2, s', a, b, rfl, h1, h2, rfl, h3⟩ := hexBytes_cons_inv s v bs hs
    simp [hexBytes, h1, h2, ih s' h3]

theorem hexBytes_append_inv (bs bt : List Nat) :
    ∀ s, hexBytes s = some (bs ++ bt) →
      ∃ s1 s2, s = s1 ++ s2 ∧ hexBytes s1 = some bs ∧ hexBytes s2 = some bt := by
  induction bs with
  | nil => intro s hs; exact ⟨[], s, rfl, rfl, by simpa using hs⟩
  | cons v bs ih =>
    intro s hs
    obtain ⟨c1, c2, s', a, b, rfl, h1, h2, rfl, h3⟩ := hexBytes_cons_inv s v (bs ++ bt) hs
    obtain ⟨s1, s2, rfl, h4, h5⟩ := ih s' h3
    exact ⟨c1 :: c2 :: s1, s2, rfl, by simp [hexBytes, h1, h2, h4], h5⟩

theorem hexBytes_length (bs : List Nat) :
    ∀ s, hexBytes s = some bs → s.length = 2 * bs.length := by
  induction bs with
  | nil => intro s hs; rw [hexBytes_nil_inv s hs]; rfl
  | cons v bs ih =>
    intro s hs
    obtain ⟨c1, c2, s', a, b, rfl, h1, h2, rfl, h3⟩ := hexBytes_cons_inv s v bs hs
    simp [ih s' h3]
    omega

theorem hexBytes_ne_newline (bs : List Nat) :
    ∀ s, hexBytes s = some bs → ∀ c ∈ s, c ≠ '\n' := by
  induction bs with
  | nil => intro s hs; rw [hexBytes_nil_inv s hs]; simp
  | cons v bs ih =>
    intro s hs
    obtain ⟨c1, c2, s', a, b, rfl, h1, h2, rfl, h3⟩ := hexBytes_cons_inv s v bs hs
    intro c hc
    simp only [List.mem_cons] at hc
    rcases hc with rfl | rfl | hc
    · exact hexDigitVal_ne_newline _ _ h1
    · exact hexDigitVal_ne_newline _ _ h2
    · exact ih s' h3 c hc

theorem hexBytes_lt (bs : List Nat) :
    ∀ s, hexBytes s = some bs → ∀ v ∈ bs, v < 256 := by
  induction bs with
  | nil => intro s _ v hv; simp at hv
  | cons v bs ih =>
    intro s hs
    obtain ⟨c1, c2, s', a, b, rfl, h1, h2, rfl, h3⟩ := hexBytes_cons_inv s v bs hs
    intro x hx
    simp only [List.mem_cons] at hx
    rcases hx with rfl | hx
    · have := (hexDigitVal_some _ _ h1).1
      have := (hexDigitVal_some _ _ h2).1
      omega
    · exact ih s' h3 x hx

theorem hexBytes_hex2 (v : Nat) (hv : v < 256) : hexBytes (hex2 v) = some [v] := by
  have h1 := hexDigitVal_hexDigit (v / 16 % 16) (Nat.mod_lt _ (by norm_num))
  have h2 := hexDigitVal_hexDigit (v % 16) (Nat.mod_lt _ (by norm_num))
  simp only [hex2, hexBytes, h1, h2]
  simp
  omega

theorem hexBytes_hex4 (v : Nat) (hv : v < 65536) : hexBytes (hex4 v) = some [v / 256, v % 256] := by
  have h1 := hexDigitVal_hexDigit (v / 4096 % 16) (Nat.mod_lt _ (by norm_num))
  have h2 := hexDigitVal_hexDigit (v / 256 % 16) (Nat.mod_lt _ (by norm_num))
  have h3 := hexDigitVal_hexDigit (v / 16 % 16) (Nat.mod_lt _ (by norm_num))
  have h4 := hexDigitVal_hexDigit (v % 16) (Nat.mod_lt _ (by norm_num))
  simp only [hex4, hexBytes, h1, h2, h3, h4]
  simp
  omega

theorem hexBytes_flatMap_hex2 (bs : List Nat) (hb : ∀ v ∈ bs, v < 256) :
    hexBytes (bs.flatMap hex2) = some bs := by
  induction bs with
  | nil => rfl
  | cons v bs ih =>
    have h1 := hexBytes_hex2 v (hb v (List.mem_cons_self _ _))
    have h2 := ih (fun x hx => hb x (List.mem_cons_of_mem _ hx))
    simpa using hexBytes_append _ _ _ _ h1 h2

theorem fgets_read_line (line rest : List Char) (hnl : ∀ c ∈ line, c ≠ '\n') :
    ∀ n, line.length < n → fgets_read n (line ++ '\n' :: rest) = (line ++ ['\n'], rest) := by
  induction line with
  | nil =>
    intro n hn
    match n, hn with
    | n + 1, _ => simp [fgets_read]
  | cons c line ih =>
    intro n hn
    match n, hn with
    | n + 1, hn =>
      have hc : c ≠ '\n' := hnl c (List.mem_cons_self _ _)
      have := ih (fun x hx => hnl x (List.mem_cons_of_mem _ hx)) n
        (by simp only [List.length_cons] at hn; omega)
      simp [fgets_read, hc, this]

theorem fgets_line (buff line rest : List Char) (hnl : ∀ c ∈ line, c ≠ '\n')
    (hlen : line.length + 1 ≤ 255) :
    fgets buff 256 (line ++ '\n' :: rest)
      = some (line ++ '\n' :: Char.ofNat 0 :: buff.drop (line.length + 2), rest) := by
  have h := fgets_read_line line rest hnl 255 (by omega)
  unfold fgets
  cases hl : line ++ '\n' :: rest with
  | nil => simp at hl
  | cons c t =>
    simp only []
    rw [← hl]
    simp only [show 256 - 1 = 255 by norm_num, h]
    simp [List.append_assoc]

theorem scanX_two_bytes (s2 t : List Char) (v : Nat) (h : hexBytes s2 = some [v]) :
    scanX 2 (s2 ++ t) = some (v, t) := by
  obtain ⟨c1, c2, s', a, b, rfl, h1, h2, rfl, h3⟩ := hexBytes_cons_inv s2 v [] h
  rw [hexBytes_nil_inv s' h3]
  exact scanX_two c1 c2 t a b h1 h2

theorem scanX_four_bytes (s4 t : List Char) (hi lo : Nat) (h : hexBytes s4 = some [hi, lo]) :
    scanX 4 (s4 ++ t) = some (256 * hi + lo, t) := by
  obtain ⟨c1, c2, s', a, b, rfl, h1, h2, rfl, h3⟩ := hexBytes_cons_inv s4 hi [lo] h
  obtain ⟨c3, c4, s'', c, d, rfl, h4, h5, rfl, h6⟩ := hexBytes_cons_inv s' lo [] h3
  rw [hexBytes_nil_inv s'' h6]
  exact scanX_four c1 c2 c3 c4 t a b c d h1 h2 h4 h5

theorem scan_header_eq (hdr t : List Char) (n ahi alo typ : Nat)
    (h : hexBytes hdr = some [n, ahi, alo, typ]) :
    scan_header (':' :: hdr ++ t) = some (n, 256 * ahi + alo, typ) ∧ hdr.length = 8 := by
  obtain ⟨s1, s2, rfl, h1, h2⟩ := hexBytes_append_inv [n] [ahi, alo, typ] hdr h
  obtain ⟨s3, s4, rfl, h3, h4⟩ := hexBytes_append_inv [ahi, alo] [typ] s2 h2
  have l1 := hexBytes_length _ _ h1
  have l3 := hexBytes_length _ _ h3
  have l4 := hexBytes_length _ _ h4
  constructor
  · simp only [scan_header, List.cons_append, List.append_assoc, if_true,
      scanX_two_bytes s1 _ n h1, scanX_four_bytes s3 _ ahi alo h3, scanX_two_bytes s4 _ typ h4]
  · simp [l1, l3, l4]

theorem sscanf_val_two (buff s2 t : List Char) (i val v : Nat) (hd : buff.drop i = s2 ++ t)
    (h : hexBytes s2 = some [v]) : sscanf_val 2 buff i val = v := by
  simp [sscanf_val, hd, scanX_two_bytes s2 t v h]

theorem sscanf_val_four (buff s4 t : List Char) (i val hi lo : Nat)
    (hd : buff.drop i = s4 ++ t) (h : hexBytes s4 = some [hi, lo]) :
    sscanf_val 4 buff i val = 256 * hi + lo := by
  simp [sscanf_val, hd, scanX_four_bytes s4 t hi lo h]

theorem hexdata_load_data_eq (buff : List Char) (d : List Nat) :
    ∀ (pay t : List Char) (st : DataLoop), buff.drop st.i = pay ++ t → hexBytes pay = some d →
      st.i + 2 * d.length ≤ 255 →
      (write_bytes st.hdata st.addr d = none → hexdata_load_data buff d.length st = none)
      ∧ ∀ w, write_bytes st.hdata st.addr d = some w →
          ∃ st', hexdata_load_data buff d.length st = some st'
            ∧ st'.hdata = w
            ∧ st'.i = st.i + 2 * d.length
            ∧ st'.checksum % 256 = (st.checksum + d.sum) % 256
            ∧ buff.drop st'.i = t := by
  induction d with
  | nil =>
    intro pay t st hd hp _
    rw [hexBytes_nil_inv pay hp] at hd
    refine ⟨fun hw => by simp [write_bytes] at hw, fun w hw => ?_⟩
    simp only [write_bytes, Option.some.injEq] at hw
    exact ⟨st, rfl, hw, by simp, by simp, by simpa using hd⟩
  | cons v d ih =>
    intro pay t st hd hp hi
    obtain ⟨s1, s2, rfl, h1, h2⟩ := hexBytes_append_inv [v] d pay hp
    have hv : v < 256 := hexBytes_lt _ _ h1 v (List.mem_singleton_self v)
    have e1 : sscanf_val 2 buff st.i st.val = v :=
      sscanf_val_two buff s1 (s2 ++ t) st.i st.val v (by rw [hd, List.append_assoc]) h1
    have l1 : s1.length = 2 := by simpa using hexBytes_length _ _ h1
    simp only [List.length_cons] at hi
    have e2 : (st.i + 2) % 256 = st.i + 2 := Nat.mod_eq_of_lt (by omega)
    have e3 : buff.drop (st.i + 2) = s2 ++ t := by
      rw [← List.drop_drop, hd, List.append_assoc, ← l1, List.drop_left]
    simp only [List.length_cons, hexdata_load_data, write_bytes, e1, e2, Nat.mod_eq_of_lt hv]
    cases hw1 : hexdata_write st.hdata st.addr v with
    | none => exact ⟨fun _ => rfl, fun w hw => by simp at hw⟩
    | some h1 =>
      obtain ⟨r0, r⟩ := ih s2 t
        { hdata := h1, addr := (st.addr + 1) % 2 ^ 32, val := v,
          checksum := (st.checksum + v) % 256, i := st.i + 2 } e3 h2 (by simp only []; omega)
      refine ⟨r0, fun w hw => ?_⟩
      obtain ⟨st', r1, r2, r3, r4, r5⟩ := r w hw
      refine ⟨st', r1, r2, by rw [r3]; simp only []; omega, ?_, r5⟩
      rw [r4]
      simp only [List.sum_cons]
      omega

theorem hexdata_load_test_eq (h : hexdata) (B : Nat) (buff s2 t : List Char)
    (i val checksum cs : Nat) (hd : buff.drop i = s2 ++ t) (hx : hexBytes s2 = some [cs]) :
    hexdata_load_test h B buff i val checksum
      = if (cs + checksum) % 256 = 0 then Step.next h B else Step.stop 1 h := by
  have e : ((cs + checksum) % 2 ^ 32) &&& 0xff = (cs + checksum) % 256 := by
    have := Nat.and_pow_two_sub_one_eq_mod ((cs + checksum) % 2 ^ 32) 8
    simp only [show (2:Nat) ^ 8 - 1 = 0xff by norm_num] at this
    rw [this]
    omega
  simp only [hexdata_load_test, sscanf_val_two buff s2 t i val cs hd hx, e]
  split <;> simp_all


theorem track_width_eq (h : hexdata) (n : Nat) (hn : n < 256) :
    (if n > h.width ∧ n ≤ 256 then { h with width := n % 256 } else h) = track_width h n := by
  unfold track_width
  have : n ≤ 256 := by omega
  simp [this, Nat.mod_eq_of_lt hn]

theorem header_split (body : List Char) (n ahi alo typ : Nat) (more : List Nat)
    (hx : hexBytes body = some (n :: ahi :: alo :: typ :: more)) :
    ∃ hdr s, body = hdr ++ s ∧ hexBytes hdr = some [n, ahi, alo, typ] ∧ hexBytes s = some more
      ∧ hdr.length = 8 ∧ n < 256 ∧ ahi < 256 ∧ alo < 256 := by
  obtain ⟨hdr, s, rfl, h1, h2⟩ := hexBytes_append_inv [n, ahi, alo, typ] more body hx
  have hl := hexBytes_lt _ _ h1
  refine ⟨hdr, s, rfl, h1, h2, (scan_header_eq hdr [] n ahi alo typ h1).2,
    hl n (by simp), hl ahi (by simp), hl alo (by simp)⟩

/-- A data line that is in the buffer whole. -/
theorem hexdata_load_line_data (junk : Nat) (h : hexdata) (B : Nat) (body t : List Char)
    (n ahi alo cs : Nat) (d : List Nat)
    (hx : hexBytes body = some (n :: ahi :: alo :: 0x00 :: (d ++ [cs]))) (hn : d.length = n)
    (hn2 : n ≤ 122) :
    hexdata_load_line junk h B (':' :: body ++ t)
      = match write_bytes (track_width h n) ((256 * ahi + alo + B) % 2 ^ 32) d with
        | none => Step.abort
        | some w =>
          if (n + ahi + alo + 0x00 + d.sum + cs) % 256 = 0 then Step.next w B
          else Step.stop 1 w := by
  obtain ⟨hdr, s, rfl, h1, h2, hl, n256, _, _⟩ := header_split body n ahi alo 0 _ hx
  obtain ⟨pay, s2, rfl, h3, h4⟩ := hexBytes_append_inv d [cs] s h2
  have hh := (scan_header_eq hdr (pay ++ s2 ++ t) n ahi alo 0 h1).1
  simp only [List.cons_append, List.append_assoc] at hh ⊢
  have hd9 : (':' :: (hdr ++ (pay ++ (s2 ++ t)))).drop 9 = pay ++ (s2 ++ t) := by
    have : 9 = (':' :: hdr).length := by simp [hl]
    rw [this, ← List.cons_append, List.drop_left]
  simp only [hexdata_load_line, List.append_assoc, hh, track_width_eq h n n256, if_true]
  subst hn
  obtain ⟨r0, r⟩ := hexdata_load_data_eq (':' :: (hdr ++ (pay ++ (s2 ++ t)))) d pay
    (s2 ++ t) ⟨track_width h d.length, (256 * ahi + alo + B) % 2 ^ 32, junk,
      (d.length + (256 * ahi + alo) + (256 * ahi + alo) >>> 8 + 0) % 256, 9⟩ hd9 h3
    (by simp only []; omega)
  cases hw : write_bytes (track_width h d.length) ((256 * ahi + alo + B) % 2 ^ 32) d with
  | none => rw [r0 hw]
  | some w =>
    obtain ⟨st', r1, r2, _, r3, r4⟩ := r w hw
    rw [r1]
    simp only []
    rw [hexdata_load_test_eq _ B _ s2 t _ _ _ cs r4 h4, r2]
    simp only [Nat.shiftRight_eq_div_pow] at r3 ⊢
    have e : (cs + st'.checksum) % 256 = (d.length + ahi + alo + 0 + d.sum + cs) % 256 := by
      omega
    rw [e]

/-- An end-of-file line. -/
theorem hexdata_load_line_eof (junk : Nat) (h : hexdata) (B : Nat) (hdr t : List Char)
    (n ahi alo : Nat) (hx : hexBytes hdr = some [n, ahi, alo, 0x01]) :
    hexdata_load_line junk h B (':' :: hdr ++ t) = Step.stop 0 (track_width h n) := by
  have hh := (scan_header_eq hdr t n ahi alo 1 hx).1
  have n256 : n < 256 := hexBytes_lt _ _ hx n (by simp)
  simp only [hexdata_load_line, hh, track_width_eq h n n256]
  simp

/-- An extended segment address line. -/
theorem hexdata_load_line_segment (junk : Nat) (h : hexdata) (B : Nat) (body t : List Char)
    (n ahi alo vhi vlo cs : Nat)
    (hx : hexBytes body = some [n, ahi, alo, 0x02, vhi, vlo, cs]) :
    hexdata_load_line junk h B (':' :: body ++ t)
      = if (n + ahi + alo + 0x02 + vhi + vlo + cs) % 256 = 0
        then Step.next (track_width h n) (((256 * vhi + vlo) <<< 4) % 2 ^ 32)
        else Step.stop 1 (track_width h n) := by
  obtain ⟨hdr, s, rfl, h1, h2, hl, n256, _, _⟩ := header_split body n ahi alo 2 _ hx
  obtain ⟨s4, s2, rfl, h3, h4⟩ := hexBytes_append_inv [vhi, vlo] [cs] s h2
  have hh := (scan_header_eq hdr (s4 ++ s2 ++ t) n ahi alo 2 h1).1
  have l4 : s4.length = 4 := by simpa using hexBytes_length _ _ h3
  have hl3 := hexBytes_lt _ _ h3
  have := hl3 vhi (by simp)
  have := hl3 vlo (by simp)
  simp only [List.cons_append, List.append_assoc] at hh ⊢
  have hd9 : (':' :: (hdr ++ (s4 ++ (s2 ++ t)))).drop 9 = s4 ++ (s2 ++ t) := by
    have : 9 = (':' :: hdr).length := by simp [hl]
    rw [this, ← List.cons_append, List.drop_left]
  have hd13 : (':' :: (hdr ++ (s4 ++ (s2 ++ t)))).drop 13 = s2 ++ t := by
    have : 13 = 9 + 4 := rfl
    rw [this, ← List.drop_drop, hd9, ← l4, List.drop_left]
  simp only [hexdata_load_line, List.append_assoc, hh, track_width_eq h n n256,
    sscanf_val_four _ s4 (s2 ++ t) 9 junk vhi vlo hd9 h3]
  simp only [show (2:Nat) = 0 ↔ False by decide, show (2:Nat) = 1 ↔ False by decide, if_false,
    if_true, show (9 + 4) % 256 = 13 by norm_num]
  rw [hexdata_load_test_eq _ _ _ s2 t _ _ _ cs hd13 h4]
  simp only [Nat.shiftRight_eq_div_pow]
  have e : (cs + (((n + (256 * ahi + alo) + (256 * ahi + alo) / 2 ^ 8 + 2) % 256
        + (256 * vhi + vlo + (256 * vhi + vlo) / 2 ^ 8)) % 256)) % 256
      = (n + ahi + alo + 2 + vhi + vlo + cs) % 256 := by omega
  rw [e]

/-- An extended linear address line. -/
theorem hexdata_load_line_linear (junk : Nat) (h : hexdata) (B : Nat) (body t : List Char)
    (n ahi alo vhi vlo cs : Nat)
    (hx : hexBytes body = some [n, ahi, alo, 0x04, vhi, vlo, cs]) :
    hexdata_load_line junk h B (':' :: body ++ t)
      = if (n + ahi + alo + 0x04 + vhi + vlo + cs) % 256 = 0
        then Step.next (track_width h n)
          ((B &&& 0xffff0000) ||| (((256 * vhi + vlo) <<< 16) % 2 ^ 32))
        else Step.stop 1 (track_width h n) := by
  obtain ⟨hdr, s, rfl, h1, h2, hl, n256, _, _⟩ := header_split body n ahi alo 4 _ hx
  obtain ⟨s4, s2, rfl, h3, h4⟩ := hexBytes_append_inv [vhi, vlo] [cs] s h2
  have hh := (scan_header_eq hdr (s4 ++ s2 ++ t) n ahi alo 4 h1).1
  have l4 : s4.length = 4 := by simpa using hexBytes_length _ _ h3
  have hl3 := hexBytes_lt _ _ h3
  have := hl3 vhi (by simp)
  have := hl3 vlo (by simp)
  simp only [List.cons_append, List.append_assoc] at hh ⊢
  have hd9 : (':' :: (hdr ++ (s4 ++ (s2 ++ t)))).drop 9 = s4 ++ (s2 ++ t) := by
    have : 9 = (':' :: hdr).length := by simp [hl]
    rw [this, ← List.cons_append, List.drop_left]
  have hd13 : (':' :: (hdr ++ (s4 ++ (s2 ++ t)))).drop 13 = s2 ++ t := by
    have : 13 = 9 + 4 := rfl
    rw [this, ← List.drop_drop, hd9, ← l4, List.drop_left]
  simp only [hexdata_load_line, List.append_assoc, hh, track_width_eq h n n256,
    sscanf_val_four _ s4 (s2 ++ t) 9 junk vhi vlo hd9 h3]
  simp only [show (4:Nat) = 0 ↔ False by decide, show (4:Nat) = 1 ↔ False by decide,
    show (4:Nat) = 2 ↔ False by decide, show (4:Nat) = 3 ↔ False by decide, if_false,
    if_true, show (9 + 4) % 256 = 13 by norm_num]
  rw [hexdata_load_test_eq _ _ _ s2 t _ _ _ cs hd13 h4]
  simp only [Nat.shiftRight_eq_div_pow]
  have e : (cs + (((n + (256 * ahi + alo) + (256 * ahi + alo) / 2 ^ 8 + 4) % 256
        + (256 * vhi + vlo + (256 * vhi + vlo) / 2 ^ 8)) % 256)) % 256
      = (n + ahi + alo + 4 + vhi + vlo + cs) % 256 := by omega
  rw [e]

/-! ## Growth and writes of the byte image -/


theorem le_or_shift (x k : Nat) : x ≤ x ||| x >>> k :=
  Nat.le_of_testBit (fun i hi => by simp [Nat.testBit_or, hi])

theorem or_shift_lt (x k n : Nat) (hx : x < 2 ^ n) : x ||| x >>> k < 2 ^ n := by
  refine Nat.or_lt_two_pow hx (lt_of_le_of_lt ?_ hx)
  rw [Nat.shiftRight_eq_div_pow]
  exact Nat.div_le_self _ _

theorem hexdata_resize_round_bounds (d : Nat) (hd : d ≤ 2 ^ 31) :
    d ≤ hexdata_resize_round d ∧ hexdata_resize_round d ≤ 2 ^ 31 := by
  unfold hexdata_resize_round
  split
  · rename_i hne
    have hlt : d < 2 ^ 31 := by
      rcases Nat.lt_or_ge d (2 ^ 31) with h | h
      · exact h
      · have : d = 2 ^ 31 := le_antisymm hd h
        subst this
        exact absurd (by decide) hne
    have a1 := le_or_shift d 16
    have b1 := or_shift_lt d 16 31 hlt
    have b2 := or_shift_lt _ 8 31 b1
    have a2 := le_or_shift (d ||| d >>> 16) 8
    have b3 := or_shift_lt _ 4 31 b2
    have a3 := le_or_shift (d ||| d >>> 16 ||| (d ||| d >>> 16) >>> 8) 4
    have b4 := or_shift_lt _ 2 31 b3
    have a4 := le_or_shift (d ||| d >>> 16 ||| (d ||| d >>> 16) >>> 8
      ||| (d ||| d >>> 16 ||| (d ||| d >>> 16) >>> 8) >>> 4) 2
    have b5 := or_shift_lt _ 1 31 b4
    have a5 := le_or_shift (d ||| d >>> 16 ||| (d ||| d >>> 16) >>> 8
      ||| (d ||| d >>> 16 ||| (d ||| d >>> 16) >>> 8) >>> 4
      ||| (d ||| d >>> 16 ||| (d ||| d >>> 16) >>> 8
        ||| (d ||| d >>> 16 ||| (d ||| d >>> 16) >>> 8) >>> 4) >>> 2) 1
    simp only []
    constructor <;> omega
  · exact ⟨le_refl _, hd⟩

/-- What `hexdata_resize` does when the desired capacity is at most `2 ^ 31`. -/
theorem hexdata_resize_spec (h : hexdata) (d : Nat) (hd : d ≤ 2 ^ 31) :
    ∃ r, hexdata_resize h d = some r
      ∧ d ≤ r.capacity ∧ h.capacity ≤ r.capacity
      ∧ r.capacity ≤ max h.capacity (2 ^ 31)
      ∧ r.size = h.size ∧ r.empty = h.empty ∧ r.width = h.width
      ∧ ∀ j, r.data j
          = if h.capacity ≤ j ∧ j < r.capacity then h.empty % 256 else h.data j := by
  obtain ⟨r1, r2⟩ := hexdata_resize_round_bounds d hd
  unfold hexdata_resize
  by_cases hgt : d > h.capacity
  · rw [if_pos hgt]
    simp only []
    rw [if_neg (by omega)]
    refine ⟨_, rfl, r1, by simp only []; omega, by simp only []; omega, rfl, rfl, rfl, ?_⟩
    intro j
    simp only [memset]
    have e : (hexdata_resize_round d + 2 ^ 32 - h.capacity) % 2 ^ 32
        = hexdata_resize_round d - h.capacity := by omega
    rw [e]
    have e2 : h.capacity + (hexdata_resize_round d - h.capacity) = hexdata_resize_round d := by
      omega
    rw [e2]
  · rw [if_neg hgt]
    refine ⟨_, rfl, by omega, le_refl _, by omega, rfl, rfl, rfl, ?_⟩
    intro j
    have : ¬ (h.capacity ≤ j ∧ j < h.capacity) := by omega
    simp [this]

/-- What `hexdata_write` does at an address below the capacity. -/
theorem hexdata_write_inside (h : hexdata) (addr val : Nat) (ha : addr < h.capacity)
    (hc : addr + 1 < 2 ^ 32) :
    ∃ w, hexdata_write h addr val = some w
      ∧ w.capacity = h.capacity ∧ w.size = max h.size (addr + 1)
      ∧ w.empty = h.empty ∧ w.width = h.width
      ∧ ∀ j, w.data j = if j = addr then val else h.data j := by
  have e : (addr + 1) % 2 ^ 32 = addr + 1 := Nat.mod_eq_of_lt hc
  unfold hexdata_write
  rw [if_neg (by omega)]
  simp only [e]
  rw [if_pos ha]
  by_cases hsz : h.size ≤ addr
  · rw [if_pos hsz]
    exact ⟨_, rfl, rfl, by show addr + 1 = _; omega, rfl, rfl, fun j => rfl⟩
  · rw [if_neg hsz]
    exact ⟨_, rfl, rfl, by show h.size = _; omega, rfl, rfl, fun j => rfl⟩

/-- What `hexdata_write` does at an address below `2 ^ 31`. -/
theorem hexdata_write_spec (h : hexdata) (addr val : Nat) (ha : addr < 2 ^ 31) :
    ∃ w, hexdata_write h addr val = some w
      ∧ addr < w.capacity
      ∧ h.capacity ≤ w.capacity
      ∧ w.capacity ≤ max h.capacity (2 ^ 31)
      ∧ w.size = max h.size (addr + 1)
      ∧ w.empty = h.empty
      ∧ w.width = h.width
      ∧ ∀ j, w.data j
          = if j = addr then val
            else if h.capacity ≤ j ∧ j < w.capacity then h.empty % 256
            else h.data j := by
  have e : (addr + 1) % 2 ^ 32 = addr + 1 := Nat.mod_eq_of_lt (by omega)
  by_cases hge : addr ≥ h.capacity
  · obtain ⟨r, s0, s1, s2, s3, s4, s5, s6, s7⟩ := hexdata_resize_spec h (addr + 1) (by omega)
    unfold hexdata_write
    rw [if_pos hge, e, s0]
    simp only []
    rw [if_pos (by omega)]
    by_cases hsz : r.size ≤ addr
    · rw [if_pos hsz]
      refine ⟨_, rfl, by show addr < r.capacity; omega, s2, s3,
        by rw [s4] at hsz; show addr + 1 = _; omega, s5, s6, ?_⟩
      intro j
      show (if j = addr then val else r.data j) = _
      rw [s7]
    · rw [if_neg hsz]
      refine ⟨_, rfl, by show addr < r.capacity; omega, s2, s3,
        by rw [s4] at hsz; show r.size = _; omega, s5, s6, ?_⟩
      intro j
      show (if j = addr then val else r.data j) = _
      rw [s7]
  · obtain ⟨w, w0, w1, w2, w3, w4, w5⟩ := hexdata_write_inside h addr val (by omega) (by omega)
    refine ⟨w, w0, by omega, by omega, by omega, w2, w3, w4, ?_⟩
    intro j
    rw [w5, w1]
    have hno : ¬ (h.capacity ≤ j ∧ j < h.capacity) := by omega
    rw [if_neg hno]

theorem write_bytes_spec (bs : List Nat) :
    ∀ (h : hexdata) (addr : Nat), addr + bs.length ≤ 2 ^ 31 →
      ∃ w, write_bytes h addr bs = some w
        ∧ h.capacity ≤ w.capacity
        ∧ w.capacity ≤ max h.capacity (2 ^ 31)
        ∧ (bs ≠ [] → addr + bs.length ≤ w.capacity)
        ∧ w.size = (if bs = [] then h.size else max h.size (addr + bs.length))
        ∧ w.empty = h.empty
        ∧ w.width = h.width
        ∧ ∀ j, w.data j
            = if addr ≤ j ∧ j < addr + bs.length then bs.getD (j - addr) 0
              else if h.capacity ≤ j ∧ j < w.capacity then h.empty % 256
              else h.data j := by
  induction bs with
  | nil =>
    intro h addr _
    refine ⟨h, rfl, le_refl _, by omega, by simp, by simp, rfl, rfl, ?_⟩
    intro j
    have h1 : ¬ (addr ≤ j ∧ j < addr + ([] : List Nat).length) := by simp
    have h2 : ¬ (h.capacity ≤ j ∧ j < h.capacity) := by omega
    rw [if_neg h1, if_neg h2]
  | cons b bs ih =>
    intro h addr ha
    simp only [List.length_cons] at ha
    obtain ⟨h1, w0, w1, w2, w3, w4, w5, w6, w7⟩ := hexdata_write_spec h addr b (by omega)
    have e : (addr + 1) % 2 ^ 32 = addr + 1 := Nat.mod_eq_of_lt (by omega)
    obtain ⟨w, i0, i1, i2, i3, i4, i5, i6, i7⟩ := ih h1 (addr + 1) (by omega)
    have hc : write_bytes h addr (b :: bs) = some w := by
      simp only [write_bytes, w0, e, i0]
    refine ⟨w, hc, ?_⟩
    simp only [List.length_cons]
    have hcap : addr + (bs.length + 1) ≤ w.capacity := by
      by_cases hb : bs = []
      · subst hb
        simp only [List.length_nil]
        omega
      · have := i3 hb
        omega
    refine ⟨by omega, by omega, fun _ => hcap, ?_, by rw [i5, w5], by rw [i6, w6], ?_⟩
    · rw [i4, w4]
      simp only [reduceCtorEq, if_false]
      split
      · rename_i hb
        subst hb
        simp
      · omega
    · intro j
      rw [i7, w7, w5]
      by_cases hj : j = addr
      · subst hj
        have c1 : ¬ (j + 1 ≤ j ∧ j < j + 1 + bs.length) := by omega
        have c2 : ¬ (h1.capacity ≤ j ∧ j < w.capacity) := by omega
        have c3 : j ≤ j ∧ j < j + (bs.length + 1) := by omega
        rw [if_neg c1, if_neg c2, if_pos rfl, if_pos c3]
        simp
      · by_cases hin : addr + 1 ≤ j ∧ j < addr + 1 + bs.length
        · have c3 : addr ≤ j ∧ j < addr + (bs.length + 1) := by omega
          rw [if_pos hin, if_pos c3]
          have : j - addr = (j - (addr + 1)) + 1 := by omega
          rw [this, List.getD_cons_succ]
        · have c3 : ¬ (addr ≤ j ∧ j < addr + (bs.length + 1)) := by omega
          rw [if_neg hin, if_neg c3, if_neg hj]
          split_ifs <;> first | rfl | omega

/-! ## The capacity is a power of two -/


/-- One step of the smearing: `x` has a bit at `i` exactly when `d` has one at `i + j` for a
multiple `j` of `2 * s` below 32; afterwards the same holds for the multiples of `s`. -/
theorem smear_step (d x s : Nat) (hs : 0 < s) (h32 : 32 % (2 * s) = 0)
    (hx : ∀ i, x.testBit i = true ↔ ∃ j, j % (2 * s) = 0 ∧ j < 32 ∧ d.testBit (i + j) = true) :
    ∀ i, (x ||| x >>> s).testBit i = true
      ↔ ∃ j, j % s = 0 ∧ j < 32 ∧ d.testBit (i + j) = true := by
  intro i
  have hm : ∀ j, j % (2 * s) = 0 → j % s = 0 := by
    intro j hj
    obtain ⟨q, hq⟩ := Nat.dvd_of_mod_eq_zero hj
    rw [hq, Nat.mul_assoc, Nat.mul_comm 2, Nat.mul_assoc]
    exact Nat.mul_mod_right _ _
  have hlt : ∀ j, j % (2 * s) = 0 → j < 32 → j + s < 32 := by
    intro j hj hj32
    obtain ⟨q, hq⟩ := Nat.dvd_of_mod_eq_zero hj
    obtain ⟨p, hp⟩ := Nat.dvd_of_mod_eq_zero h32
    have : q < p := by
      by_contra hc
      have : 2 * s * p ≤ 2 * s * q := Nat.mul_le_mul_left _ (by omega)
      omega
    have : 2 * s * (q + 1) ≤ 2 * s * p := Nat.mul_le_mul_left _ (by omega)
    rw [Nat.mul_add] at this
    omega
  rw [Nat.testBit_or, Nat.testBit_shiftRight, Bool.or_eq_true, hx, hx]
  constructor
  · rintro (⟨j, h1, h2, h3⟩ | ⟨j, h1, h2, h3⟩)
    · exact ⟨j, hm j h1, h2, h3⟩
    · refine ⟨j + s, ?_, hlt j h1 h2, ?_⟩
      · rw [Nat.add_mod, hm j h1]
        simp
      · rw [show i + (j + s) = s + i + j by omega]
        exact h3
  · rintro ⟨j, h1, h2, h3⟩
    obtain ⟨q, hq⟩ := Nat.dvd_of_mod_eq_zero h1
    rcases Nat.even_or_odd' q with ⟨r, hr | hr⟩
    · left
      refine ⟨j, ?_, h2, h3⟩
      rw [hq, hr, ← Nat.mul_assoc, Nat.mul_comm s 2]
      exact Nat.mul_mod_right _ _
    · right
      refine ⟨j - s, ?_, by omega, ?_⟩
      · have : j - s = 2 * s * r := by
          rw [hq, hr, Nat.mul_add, Nat.mul_one, Nat.add_sub_cancel, ← Nat.mul_assoc,
            Nat.mul_comm s 2]
        rw [this]
        exact Nat.mul_mod_right _ _
      · have hsj : s ≤ j := by
          rw [hq, hr, Nat.mul_add, Nat.mul_one]
          omega
        rw [show s + i + (j - s) = i + j by omega]
        exact h3

/-- The smearing of `hexdata_resize` sets every bit up to the highest bit of `d`. -/
theorem smear_eq (d : Nat) (h0 : d ≠ 0) (hd : d < 2 ^ 32) :
    (d ||| d >>> 16 ||| (d ||| d >>> 16) >>> 8
      ||| (d ||| d >>> 16 ||| (d ||| d >>> 16) >>> 8) >>> 4
      ||| (d ||| d >>> 16 ||| (d ||| d >>> 16) >>> 8
        ||| (d ||| d >>> 16 ||| (d ||| d >>> 16) >>> 8) >>> 4) >>> 2
      ||| (d ||| d >>> 16 ||| (d ||| d >>> 16) >>> 8
        ||| (d ||| d >>> 16 ||| (d ||| d >>> 16) >>> 8) >>> 4
        ||| (d ||| d >>> 16 ||| (d ||| d >>> 16) >>> 8
          ||| (d ||| d >>> 16 ||| (d ||| d >>> 16) >>> 8) >>> 4) >>> 2) >>> 1)
      = 2 ^ (d.log2 + 1) - 1 := by
  have s0 : ∀ i, d.testBit i = true ↔ ∃ j, j % (2 * 16) = 0 ∧ j < 32 ∧ d.testBit (i + j) = true := by
    intro i
    constructor
    · intro h
      exact ⟨0, by norm_num, by norm_num, by simpa using h⟩
    · rintro ⟨j, h1, h2, h3⟩
      have : j = 0 := by omega
      subst this
      simpa using h3
  have s1 := smear_step d _ 16 (by norm_num) (by norm_num) s0
  have s2 := smear_step d _ 8 (by norm_num) (by norm_num) s1
  have s3 := smear_step d _ 4 (by norm_num) (by norm_num) s2
  have s4 := smear_step d _ 2 (by norm_num) (by norm_num) s3
  have s5 := smear_step d _ 1 (by norm_num) (by norm_num) s4
  apply Nat.eq_of_testBit_eq
  intro i
  rw [Nat.testBit_two_pow_sub_one]
  have hlog := Nat.log2_self_le h0
  have hlog2 := @Nat.lt_log2_self d
  by_cases hi : i < d.log2 + 1
  · rw [decide_eq_true hi, s5]
    by_contra hc
    have hall : ∀ i', i' ≥ i → d.testBit i' = false := by
      intro i' hi'
      by_cases h32 : i' < i + 32
      · by_contra hb
        exact hc ⟨i' - i, Nat.mod_one _, by omega,
          by rw [show i + (i' - i) = i' by omega]; simpa using hb⟩
      · exact Nat.testBit_lt_two_pow (lt_of_lt_of_le hd
          (Nat.pow_le_pow_right (by norm_num) (by omega)))
    have := Nat.lt_pow_two_of_testBit d hall
    have : 2 ^ i ≤ 2 ^ d.log2 := Nat.pow_le_pow_right (by norm_num) (by omega)
    omega
  · rw [decide_eq_false hi]
    by_contra hc
    rw [Bool.not_eq_false, s5] at hc
    obtain ⟨j, _, _, h3⟩ := hc
    have := Nat.testBit_implies_ge h3
    have : 2 ^ (d.log2 + 1) ≤ 2 ^ (i + j) := Nat.pow_le_pow_right (by norm_num) (by omega)
    omega

theorem testBit_top (x t : Nat) (h1 : 2 ^ t ≤ x) (h2 : x < 2 ^ (t + 1)) :
    x.testBit t = true := by
  rw [Nat.testBit_to_div_mod]
  have : x / 2 ^ t = 1 := Nat.div_eq_of_lt_le (by omega) (by rw [Nat.pow_succ] at h2; omega)
  simp [this]

theorem and_pred_two_pow (t : Nat) : 2 ^ t &&& (2 ^ t - 1) = 0 := by
  apply Nat.eq_of_testBit_eq
  intro i
  rw [Nat.testBit_and, Nat.testBit_two_pow_sub_one, Nat.testBit_two_pow]
  by_cases h : t = i
  · subst h
    simp
  · simp [h]

theorem and_pred_ne_zero (d : Nat) (h0 : d ≠ 0) (hne : d ≠ 2 ^ d.log2) : d &&& (d - 1) ≠ 0 := by
  have hlog := Nat.log2_self_le h0
  have hlog2 := @Nat.lt_log2_self d
  intro hz
  have h1 := testBit_top d d.log2 hlog hlog2
  have h2 := testBit_top (d - 1) d.log2 (by omega) (by omega)
  have : (d &&& (d - 1)).testBit d.log2 = true := by
    rw [Nat.testBit_and, h1, h2]
    rfl
  rw [hz] at this
  simp at this

/-- The rounding of `hexdata_resize` gives the least power of two that is at least `d`, for
`d` from 1 to `2 ^ 31`. -/
theorem hexdata_resize_round_pow (d : Nat) (h0 : d ≠ 0) (hd : d ≤ 2 ^ 31) :
    ∃ k, k ≤ 31 ∧ hexdata_resize_round d = 2 ^ k ∧ d ≤ 2 ^ k ∧ ∀ j, d ≤ 2 ^ j → 2 ^ k ≤ 2 ^ j := by
  have hlog := Nat.log2_self_le h0
  have hlog2 := @Nat.lt_log2_self d
  have e : (d + 2 ^ 32 - 1) % 2 ^ 32 = d - 1 := by omega
  unfold hexdata_resize_round
  rw [e]
  by_cases hp : d = 2 ^ d.log2
  · have hz : d &&& (d - 1) = 0 := by
      have := and_pred_two_pow d.log2
      rwa [← hp] at this
    rw [if_neg (by simp [hz])]
    have hk : d.log2 ≤ 31 := by
      by_contra hc
      have : (2:Nat) ^ 32 ≤ 2 ^ d.log2 := Nat.pow_le_pow_right (by norm_num) (by omega)
      omega
    exact ⟨d.log2, hk, hp, by omega, fun j hj => by omega⟩
  · have hnz := and_pred_ne_zero d h0 hp
    rw [if_pos hnz]
    have hlt : d < 2 ^ 31 := by
      rcases Nat.lt_or_ge d (2 ^ 31) with h | h
      · exact h
      · have h31 : d = 2 ^ 31 := le_antisymm hd h
        have hl : d.log2 = 31 := by
          have a1 : d.log2 < 32 := (Nat.log2_lt h0).2 (by omega)
          have a2 : ¬ d.log2 < 31 := fun hc => by
            have := (Nat.log2_lt h0).1 hc
            omega
          omega
        exact absurd (by rw [hl]; exact h31) hp
    have hk : d.log2 + 1 ≤ 31 := by
      have := (Nat.log2_lt h0).2 hlt
      omega
    have hpow : (2:Nat) ^ (d.log2 + 1) ≤ 2 ^ 31 := Nat.pow_le_pow_right (by norm_num) hk
    have hpos : 0 < 2 ^ (d.log2 + 1) := Nat.pos_pow_of_pos _ (by norm_num)
    simp only []
    rw [smear_eq d h0 (by omega)]
    refine ⟨d.log2 + 1, hk, ?_, by omega, ?_⟩
    · rw [Nat.sub_add_cancel hpos]
      exact Nat.mod_eq_of_lt (by omega)
    · intro j hj
      apply Nat.pow_le_pow_right (by norm_num)
      by_contra hc
      have : (2:Nat) ^ j ≤ 2 ^ d.log2 := Nat.pow_le_pow_right (by norm_num) (by omega)
      omega

/-- The rounding of `hexdata_resize` wraps to 0 above `2 ^ 31`. -/
theorem hexdata_resize_round_wraps (d : Nat) (h1 : 2 ^ 31 < d) (h2 : d < 2 ^ 32) :
    hexdata_resize_round d = 0 := by
  have h0 : d ≠ 0 := by omega
  have hl1 : d.log2 < 32 := (Nat.log2_lt h0).2 h2
  have hl2 : 31 ≤ d.log2 := by
    by_contra hc
    have hlt := @Nat.lt_log2_self d
    have : (2:Nat) ^ (d.log2 + 1) ≤ 2 ^ 31 := Nat.pow_le_pow_right (by norm_num) (by omega)
    omega
  have hl : d.log2 = 31 := by omega
  have hne : d ≠ 2 ^ d.log2 := by
    rw [hl]
    omega
  have hnz := and_pred_ne_zero d h0 hne
  have e : (d + 2 ^ 32 - 1) % 2 ^ 32 = d - 1 := by omega
  unfold hexdata_resize_round
  rw [e, if_pos hnz]
  simp only []
  rw [smear_eq d h0 h2, hl]
  norm_num

/-- The capacity after a resize that grows the block, for a desired capacity up to
`2 ^ 31`: the least power of two that is at least the desired capacity. -/
theorem hexdata_resize_capacity (h : hexdata) (d : Nat) (hgt : h.capacity < d)
    (hd : d ≤ 2 ^ 31) :
    ∃ r k, hexdata_resize h d = some r ∧ r.capacity = 2 ^ k ∧ k ≤ 31 ∧ d ≤ 2 ^ k
      ∧ ∀ j, d ≤ 2 ^ j → 2 ^ k ≤ 2 ^ j := by
  obtain ⟨k, k1, k2, k3, k4⟩ := hexdata_resize_round_pow d (by omega) hd
  have hpos : 0 < 2 ^ k := Nat.pos_pow_of_pos k (by norm_num)
  unfold hexdata_resize
  rw [if_pos hgt]
  simp only []
  rw [if_neg (by omega)]
  exact ⟨_, k, rfl, k2, k1, k3, k4⟩

theorem hexdata_write_capacity (h : hexdata) (addr val : Nat) (ha : addr < 2 ^ 31)
    (hp : ∃ k, h.capacity = 2 ^ k) (w : hexdata) (hw : hexdata_write h addr val = some w) :
    ∃ k, w.capacity = 2 ^ k := by
  have e : (addr + 1) % 2 ^ 32 = addr + 1 := Nat.mod_eq_of_lt (by omega)
  unfold hexdata_write at hw
  by_cases hge : addr ≥ h.capacity
  · obtain ⟨r, k, r0, r1, _, r2, _⟩ := hexdata_resize_capacity h (addr + 1) (by omega) (by omega)
    rw [if_pos hge, e, r0] at hw
    simp only [] at hw
    rw [if_pos (by omega)] at hw
    have hw' := Option.some.inj hw
    refine ⟨k, ?_⟩
    rw [← hw', ← r1]
    split <;> rfl
  · rw [if_neg hge] at hw
    simp only [] at hw
    rw [if_pos (by omega)] at hw
    have hw' := Option.some.inj hw
    obtain ⟨k, hk⟩ := hp
    refine ⟨k, ?_⟩
    rw [← hw', ← hk]
    split <;> rfl

/-- The growth invariant for writes below `2 ^ 31`: the calls return, and the invariant holds
after them. -/
theorem hexdata_writes_invariant (fill : Nat) (hfill : fill < 256) (ws : List (Nat × Nat)) :
    ∀ (h : hexdata) (written : Nat → Prop), (∀ p ∈ ws, p.1 < 2 ^ 31) →
      (∃ k, h.capacity = 2 ^ k) → h.size ≤ h.capacity → h.empty = fill →
      (∀ j, j < h.capacity → ¬ written j → h.data j = fill) →
      ∃ w, hexdata_writes h ws = some w
        ∧ (∃ k, w.capacity = 2 ^ k)
        ∧ w.size ≤ w.capacity
        ∧ ∀ j, j < w.capacity → ¬ written j → (∀ p ∈ ws, p.1 ≠ j) → w.data j = fill := by
  induction ws with
  | nil =>
    intro h written _ hp hs _ hd
    exact ⟨h, rfl, hp, hs, fun j hj hw _ => hd j hj hw⟩
  | cons p ws ih =>
    intro h written hws hp hs he hd
    have hp1 : p.1 < 2 ^ 31 := hws p (List.mem_cons_self _ _)
    obtain ⟨h1, w0, w1, w2, _, w4, w5, _, w7⟩ := hexdata_write_spec h p.1 p.2 hp1
    have := ih h1 (fun j => written j ∨ j = p.1)
      (fun q hq => hws q (List.mem_cons_of_mem _ hq))
      (hexdata_write_capacity h p.1 p.2 hp1 hp h1 w0) (by rw [w4]; omega) (by rw [w5, he])
      (by
        intro j hj hnw
        rw [w7, if_neg (fun hjp => hnw (Or.inr hjp))]
        split
        · rw [he]
          exact Nat.mod_eq_of_lt hfill
        · exact hd j (by omega) (fun hw => hnw (Or.inl hw)))
    obtain ⟨w, i0, i1, i2, i3⟩ := this
    refine ⟨w, by simp only [hexdata_writes, w0, i0], i1, i2, ?_⟩
    intro j hj hnw hall
    exact i3 j hj (fun hw => hw.elim hnw (fun hjp => hall p (List.mem_cons_self _ _) hjp.symm))
      (fun q hq => hall q (List.mem_cons_of_mem _ hq))

/-- The growth invariant from a fresh image on, for writes below `2 ^ 31`: the calls return,
the capacity is a power of two, it is at least the size, and the offsets below it that were
never written hold the fill value. -/
theorem hexdata_new_writes_invariant (heap : Nat → Nat) (fill : Nat) (hfill : fill < 256)
    (ws : List (Nat × Nat)) (hws : ∀ p ∈ ws, p.1 < 2 ^ 31) :
    ∃ w, hexdata_writes (hexdata_new heap fill) ws = some w
      ∧ (∃ k, w.capacity = 2 ^ k)
      ∧ w.size ≤ w.capacity
      ∧ ∀ j, j < w.capacity → (∀ p ∈ ws, p.1 ≠ j) → w.data j = fill := by
  obtain ⟨w, i0, i1, i2, i3⟩ := hexdata_writes_invariant fill hfill ws (hexdata_new heap fill)
    (fun _ => False) hws ⟨16, rfl⟩ (by simp [hexdata_new]) rfl (by
      intro j hj _
      have hj' : j < 64 * 1024 := hj
      show memset heap 0 fill (64 * 1024) j = fill
      simp only [memset]
      rw [if_pos (by omega)]
      exact Nat.mod_eq_of_lt hfill)
  exact ⟨w, i0, i1, i2, fun j hj hall => i3 j hj (fun hf => hf) hall⟩

/-- A write from `2 ^ 31` on that is not below the capacity does not return: the rounding of
`hexdata_resize` wraps to 0 and `xrealloc` leaves through `exit(1)`. -/
theorem hexdata_write_exits (h : hexdata) (addr val : Nat) (h1 : h.capacity ≤ addr)
    (h2 : 2 ^ 31 ≤ addr) (h3 : addr + 1 < 2 ^ 32) : hexdata_write h addr val = none := by
  have e : (addr + 1) % 2 ^ 32 = addr + 1 := Nat.mod_eq_of_lt h3
  have hr : hexdata_resize h (addr + 1) = none := by
    unfold hexdata_resize
    rw [if_pos (by omega)]
    simp only []
    rw [if_pos (hexdata_resize_round_wraps (addr + 1) (by omega) h3)]
  unfold hexdata_write
  rw [if_pos h1, e, hr]

/-- A write at `0xFFFFFFFF` does not return either: `addr + 1` wraps to 0, `hexdata_resize`
does nothing, and the store is outside the allocated block. -/
theorem hexdata_write_outside (h : hexdata) (val : Nat) (hc : h.capacity < 2 ^ 32) :
    hexdata_write h 0xFFFFFFFF val = none := by
  unfold hexdata_write
  rw [if_pos (by omega)]
  have hr : hexdata_resize h ((0xFFFFFFFF + 1) % 2 ^ 32) = some h := by
    unfold hexdata_resize
    rw [if_neg (by norm_num)]
  rw [hr]
  simp only []
  rw [if_neg (by omega)]

/-! ## Lines read by `hexdata_load` -/

theorem hexdata_load_loop_line (junk : Nat → Nat) (fuel : Nat) (h : hexdata) (B ln : Nat)
    (buff line rest : List Char) (hnl : ∀ c ∈ line, c ≠ '\n') (hlen : line.length + 1 ≤ 255) :
    hexdata_load_loop junk (fuel + 1) h B ln buff (line ++ '\n' :: rest)
      = match hexdata_load_line (junk ln) h B
            (line ++ '\n' :: Char.ofNat 0 :: buff.drop (line.length + 2)) with
        | .stop code hdata => some (some (code, hdata))
        | .next hdata base_addr =>
          hexdata_load_loop junk fuel hdata base_addr ((ln + 1) % 2 ^ 32)
            (line ++ '\n' :: Char.ofNat 0 :: buff.drop (line.length + 2)) rest
        | .abort => some none := by
  simp only [hexdata_load_loop, fgets_line buff line rest hnl hlen]

theorem line_ok (body trail : List Char) (bs : List Nat) (hx : hexBytes body = some bs)
    (ht : ∀ c ∈ trail, c ≠ '\n') (hfit : body.length + trail.length + 2 ≤ 255) :
    (∀ c ∈ ':' :: body ++ trail, c ≠ '\n') ∧ (':' :: body ++ trail).length + 1 ≤ 255 := by
  constructor
  · intro c hc
    simp only [List.cons_append, List.mem_cons, List.mem_append] at hc
    rcases hc with rfl | hc | hc
    · decide
    · exact hexBytes_ne_newline bs body hx c hc
    · exact ht c hc
  · simp only [List.cons_append, List.length_cons, List.length_append]
    omega

theorem track_width_fields (h : hexdata) (n : Nat) :
    (track_width h n).data = h.data ∧ (track_width h n).size = h.size
      ∧ (track_width h n).capacity = h.capacity ∧ (track_width h n).empty = h.empty := by
  unfold track_width
  split <;> exact ⟨rfl, rfl, rfl, rfl⟩

/-- What `hexdata_load` does with a line that fits the buffer, given what its loop body does
with the buffer. -/
theorem hexdata_load_loop_step (junk : Nat → Nat) (h : hexdata) (B ln : Nat)
    (buff body trail rest : List Char) (bs : List Nat) (hx : hexBytes body = some bs)
    (ht : ∀ c ∈ trail, c ≠ '\n') (hfit : body.length + trail.length + 2 ≤ 255) (s : Step)
    (hs : ∀ t, hexdata_load_line (junk ln) h B (':' :: body ++ t) = s) :
    ∃ buff', fgets buff 256 (':' :: body ++ trail ++ '\n' :: rest) = some (buff', rest)
      ∧ hexdata_load_line (junk ln) h B buff' = s
      ∧ ∀ fuel, hexdata_load_loop junk (fuel + 1) h B ln buff
            (':' :: body ++ trail ++ '\n' :: rest)
          = match s with
            | .stop code hdata => some (some (code, hdata))
            | .next hdata base_addr =>
              hexdata_load_loop junk fuel hdata base_addr ((ln + 1) % 2 ^ 32) buff' rest
            | .abort => some none := by
  obtain ⟨k1, k2⟩ := line_ok body trail bs hx ht hfit
  have hf := fgets_line buff (':' :: body ++ trail) rest k1 k2
  have hl := hs (trail ++ '\n' :: Char.ofNat 0 :: buff.drop ((':' :: body ++ trail).length + 2))
  rw [← List.append_assoc] at hl
  refine ⟨_, hf, hl, ?_⟩
  intro fuel
  rw [hexdata_load_loop_line junk fuel h B ln buff (':' :: body ++ trail) rest k1 k2, hl]
  cases s <;> rfl

/-- A data line with a balancing checksum that fits the buffer, when the writes of its bytes
return. -/
theorem hexdata_load_loop_data (junk : Nat → Nat) (h : hexdata) (B ln : Nat)
    (buff body trail rest : List Char) (n ahi alo cs : Nat) (d : List Nat)
    (hx : hexBytes body = some (n :: ahi :: alo :: 0x00 :: (d ++ [cs]))) (hn : d.length = n)
    (ht : ∀ c ∈ trail, c ≠ '\n') (hfit : body.length + trail.length + 2 ≤ 255)
    (hcs : (n + ahi + alo + 0x00 + d.sum + cs) % 256 = 0) (w : hexdata)
    (hw : write_bytes (track_width h n) ((256 * ahi + alo + B) % 2 ^ 32) d = some w) :
    ∃ buff', fgets buff 256 (':' :: body ++ trail ++ '\n' :: rest) = some (buff', rest)
      ∧ hexdata_load_line (junk ln) h B buff' = Step.next w B
      ∧ ∀ fuel, hexdata_load_loop junk (fuel + 1) h B ln buff
            (':' :: body ++ trail ++ '\n' :: rest)
          = hexdata_load_loop junk fuel w B ((ln + 1) % 2 ^ 32) buff' rest := by
  have hlen := hexBytes_length _ _ hx
  simp only [List.length_cons, List.length_append, List.length_nil] at hlen
  exact hexdata_load_loop_step junk h B ln buff body trail rest _ hx ht hfit _ (fun t => by
    rw [hexdata_load_line_data (junk ln) h B body t n ahi alo cs d hx hn (by omega), hw]
    simp only []
    rw [if_pos hcs])

/-- An extended segment address line with a balancing checksum. -/
theorem hexdata_load_loop_segment (junk : Nat → Nat) (h : hexdata) (B ln : Nat)
    (buff body trail rest : List Char) (n ahi alo vhi vlo cs : Nat)
    (hx : hexBytes body = some [n, ahi, alo, 0x02, vhi, vlo, cs])
    (ht : ∀ c ∈ trail, c ≠ '\n') (hfit : trail.length ≤ 239)
    (hcs : (n + ahi + alo + 0x02 + vhi + vlo + cs) % 256 = 0) :
    ∃ buff', fgets buff 256 (':' :: body ++ trail ++ '\n' :: rest) = some (buff', rest)
      ∧ hexdata_load_line (junk ln) h B buff'
          = Step.next (track_width h n) (((256 * vhi + vlo) <<< 4) % 2 ^ 32)
      ∧ ∀ fuel, hexdata_load_loop junk (fuel + 1) h B ln buff
            (':' :: body ++ trail ++ '\n' :: rest)
          = hexdata_load_loop junk fuel (track_width h n) (((256 * vhi + vlo) <<< 4) % 2 ^ 32)
              ((ln + 1) % 2 ^ 32) buff' rest := by
  have hlen := hexBytes_length _ _ hx
  simp only [List.length_cons, List.length_nil] at hlen
  exact hexdata_load_loop_step junk h B ln buff body trail rest _ hx ht (by omega) _ (fun t => by
    rw [hexdata_load_line_segment (junk ln) h B body t n ahi alo vhi vlo cs hx, if_pos hcs])

/-- An extended linear address line with a balancing checksum. -/
theorem hexdata_load_loop_linear (junk : Nat → Nat) (h : hexdata) (B ln : Nat)
    (buff body trail rest : List Char) (n ahi alo vhi vlo cs : Nat)
    (hx : hexBytes body = some [n, ahi, alo, 0x04, vhi, vlo, cs])
    (ht : ∀ c ∈ trail, c ≠ '\n') (hfit : trail.length ≤ 239)
    (hcs : (n + ahi + alo + 0x04 + vhi + vlo + cs) % 256 = 0) :
    ∃ buff', fgets buff 256 (':' :: body ++ trail ++ '\n' :: rest) = some (buff', rest)
      ∧ hexdata_load_line (junk ln) h B buff'
          = Step.next (track_width h n)
              ((B &&& 0xffff0000) ||| (((256 * vhi + vlo) <<< 16) % 2 ^ 32))
      ∧ ∀ fuel, hexdata_load_loop junk (fuel + 1) h B ln buff
            (':' :: body ++ trail ++ '\n' :: rest)
          = hexdata_load_loop junk fuel (track_width h n)
              ((B &&& 0xffff0000) ||| (((256 * vhi + vlo) <<< 16) % 2 ^ 32))
              ((ln + 1) % 2 ^ 32) buff' rest := by
  have hlen := hexBytes_length _ _ hx
  simp only [List.length_cons, List.length_nil] at hlen
  exact hexdata_load_loop_step junk h B ln buff body trail rest _ hx ht (by omega) _ (fun t => by
    rw [hexdata_load_line_linear (junk ln) h B body t n ahi alo vhi vlo cs hx, if_pos hcs])

/-- An end-of-file line. -/
theorem hexdata_load_loop_eof (junk : Nat → Nat) (fuel : Nat) (h : hexdata) (B ln : Nat)
    (buff body trail rest : List Char) (n ahi alo : Nat) (more : List Nat)
    (hx : hexBytes body = some (n :: ahi :: alo :: 0x01 :: more))
    (ht : ∀ c ∈ trail, c ≠ '\n') (hfit : body.length + trail.length + 2 ≤ 255) :
    hexdata_load_loop junk (fuel + 1) h B ln buff (':' :: body ++ trail ++ '\n' :: rest)
      = some (some (0, track_width h n)) := by
  obtain ⟨hdr, s, rfl, h1, h2, _⟩ := header_split body n ahi alo 1 more hx
  obtain ⟨_, _, _, h3⟩ := hexdata_load_loop_step junk h B ln buff (hdr ++ s) trail rest _ hx ht
    hfit (Step.stop 0 (track_width h n)) (fun t => by
      have := hexdata_load_line_eof (junk ln) h B hdr (s ++ t) n ahi alo h1
      simp only [List.cons_append, List.append_assoc] at this ⊢
      exact this)
  exact h3 fuel


theorem fgets_read_prefix (pre tail : List Char) (hnl : ∀ c ∈ pre, c ≠ '\n') :
    ∀ n, pre.length ≤ n → ∃ x, (fgets_read n (pre ++ tail)).1 = pre ++ x := by
  induction pre with
  | nil => intro n _; exact ⟨_, rfl⟩
  | cons c pre ih =>
    intro n hn
    match n, hn with
    | n + 1, hn =>
      have hc : c ≠ '\n' := hnl c (List.mem_cons_self _ _)
      obtain ⟨x, hx⟩ := ih (fun y hy => hnl y (List.mem_cons_of_mem _ hy)) n
        (by simp only [List.length_cons] at hn; omega)
      exact ⟨x, by simp [fgets_read, hc, hx]⟩

/-- The buffer after `fgets` begins with the characters of the file up to the first line feed,
when they are at most 255. -/
theorem fgets_prefix (buff pre tail : List Char) (hnl : ∀ c ∈ pre, c ≠ '\n')
    (hne : pre ≠ []) (hlen : pre.length ≤ 255) :
    ∃ t rest, fgets buff 256 (pre ++ tail) = some (pre ++ t, rest) := by
  obtain ⟨x, hx⟩ := fgets_read_prefix pre tail hnl 255 hlen
  unfold fgets
  cases hl : pre ++ tail with
  | nil =>
    simp only [List.append_eq_nil] at hl
    exact absurd hl.1 hne
  | cons c s =>
    simp only []
    rw [← hl]
    simp only [show 256 - 1 = 255 by norm_num, hx]
    exact ⟨_, _, by rw [List.append_assoc]⟩

/-- What `hexdata_load` does with a file that begins with a colon and hexadecimal digits, 255
characters at most, given what its loop body does with a buffer that begins so. -/
theorem hexdata_load_loop_prefix (junk : Nat → Nat) (h : hexdata) (B ln : Nat)
    (buff body tail : List Char) (bs : List Nat) (hx : hexBytes body = some bs)
    (hfit : body.length ≤ 254) (s : Step)
    (hs : ∀ t, hexdata_load_line (junk ln) h B (':' :: body ++ t) = s) :
    ∃ buff' rest, fgets buff 256 (':' :: body ++ tail) = some (buff', rest)
      ∧ hexdata_load_line (junk ln) h B buff' = s
      ∧ ∀ fuel, hexdata_load_loop junk (fuel + 1) h B ln buff (':' :: body ++ tail)
          = match s with
            | .stop code hdata => some (some (code, hdata))
            | .next hdata base_addr =>
              hexdata_load_loop junk fuel hdata base_addr ((ln + 1) % 2 ^ 32) buff' rest
            | .abort => some none := by
  obtain ⟨t, rest, hf⟩ := fgets_prefix buff (':' :: body) tail (by
      intro c hc
      simp only [List.mem_cons] at hc
      rcases hc with rfl | hc
      · decide
      · exact hexBytes_ne_newline bs body hx c hc) (by simp)
    (by simp only [List.length_cons]; omega)
  refine ⟨_, rest, hf, hs t, ?_⟩
  intro fuel
  rw [hexdata_load_loop, hf]
  simp only [hs t]
  cases s <;> rfl

/-- A line of an unsupported type. -/
theorem hexdata_load_line_unsupported (junk : Nat) (h : hexdata) (B : Nat) (hdr t : List Char)
    (n ahi alo typ : Nat) (hx : hexBytes hdr = some [n, ahi, alo, typ]) (ht : 0x05 ≤ typ) :
    hexdata_load_line junk h B (':' :: hdr ++ t) = Step.stop 1 (track_width h n) := by
  have hh := (scan_header_eq hdr t n ahi alo typ hx).1
  have n256 : n < 256 := hexBytes_lt _ _ hx n (by simp)
  simp only [hexdata_load_line, hh, track_width_eq h n n256]
  rw [if_neg (by omega), if_neg (by omega), if_neg (by omega), if_neg (by omega),
    if_neg (by omega)]

/-- A start segment address line: the checksum test reads the first data byte. -/
theorem hexdata_load_line_start_segment (junk : Nat) (h : hexdata) (B : Nat)
    (body t : List Char) (n ahi alo d0 : Nat) (more : List Nat)
    (hx : hexBytes body = some (n :: ahi :: alo :: 0x03 :: d0 :: more)) :
    hexdata_load_line junk h B (':' :: body ++ t)
      = if (n + ahi + alo + 0x03 + d0) % 256 = 0 then Step.next (track_width h n) B
        else Step.stop 1 (track_width h n) := by
  obtain ⟨hdr, s, rfl, h1, h2, hl, n256, _, _⟩ := header_split body n ahi alo 3 _ hx
  obtain ⟨s2, s3, rfl, h3, h4⟩ := hexBytes_append_inv [d0] more s h2
  have hh := (scan_header_eq hdr (s2 ++ s3 ++ t) n ahi alo 3 h1).1
  simp only [List.cons_append, List.append_assoc] at hh ⊢
  have hd9 : (':' :: (hdr ++ (s2 ++ (s3 ++ t)))).drop 9 = s2 ++ (s3 ++ t) := by
    have : 9 = (':' :: hdr).length := by simp [hl]
    rw [this, ← List.cons_append, List.drop_left]
  simp only [hexdata_load_line, hh, track_width_eq h n n256]
  simp only [show (3:Nat) = 0 ↔ False by decide, show (3:Nat) = 1 ↔ False by decide,
    show (3:Nat) = 2 ↔ False by decide, if_false, if_true]
  rw [hexdata_load_test_eq _ _ _ s2 (s3 ++ t) _ _ _ d0 hd9 h3]
  simp only [Nat.shiftRight_eq_div_pow]
  have e : (d0 + (n + (256 * ahi + alo) + (256 * ahi + alo) / 2 ^ 8 + 3) % 256) % 256
      = (n + ahi + alo + 3 + d0) % 256 := by omega
  rw [e]

/-- What `fgets` takes from a text of complete lines does not depend on what follows the
text, and what it leaves is again a text of complete lines. -/
theorem fgets_read_append (S : List Char) : ∀ (P : List Char) (n : Nat),
    P.getLast? = some '\n' →
      fgets_read n (P ++ S) = ((fgets_read n P).1, (fgets_read n P).2 ++ S)
      ∧ ((fgets_read n P).2 = [] ∨ (fgets_read n P).2.getLast? = some '\n') := by
  intro P
  induction P with
  | nil => intro n h; simp at h
  | cons c P ih =>
    intro n h
    cases n with
    | zero => exact ⟨by simp [fgets_read], Or.inr (by simpa [fgets_read] using h)⟩
    | succ n =>
      by_cases hc : c = '\n'
      · subst hc
        refine ⟨by simp [fgets_read], ?_⟩
        simp only [fgets_read, if_true]
        cases P with
        | nil => exact Or.inl rfl
        | cons d P => exact Or.inr (by simpa [List.getLast?_cons_cons] using h)
      · cases P with
        | nil =>
          simp only [List.getLast?_singleton, Option.some.injEq] at h
          exact absurd h hc
        | cons d P =>
          rw [List.getLast?_cons_cons] at h
          obtain ⟨i1, i2⟩ := ih n h
          simp only [List.cons_append] at i1 ⊢
          simp only [fgets_read, if_neg hc]
          rw [i1]
          exact ⟨rfl, i2⟩

/-- The call of `fgets` on a text of complete lines that is followed by more text. -/
theorem fgets_append (buff P S : List Char) (hP : P.getLast? = some '\n') :
    ∃ buff' rest, fgets buff 256 P = some (buff', rest)
      ∧ fgets buff 256 (P ++ S) = some (buff', rest ++ S)
      ∧ (rest = [] ∨ rest.getLast? = some '\n') := by
  obtain ⟨a1, a2⟩ := fgets_read_append S P 255 hP
  cases P with
  | nil => simp at hP
  | cons c P =>
    refine ⟨_, _, rfl, ?_, a2⟩
    simp only [List.cons_append] at a1 ⊢
    simp only [fgets]
    rw [show 256 - 1 = 255 from rfl, a1]

/-- Decoding a text of complete lines that returns 0 is not changed by an end-of-file line
after the text, whatever follows that line. -/
theorem hexdata_load_loop_eof_after (junk : Nat → Nat) (hdr R : List Char) (n ahi alo : Nat)
    (hx : hexBytes hdr = some [n, ahi, alo, 0x01]) :
    ∀ (fuel : Nat) (h : hexdata) (B ln : Nat) (buff P : List Char) (hP : hexdata),
      (P = [] ∨ P.getLast? = some '\n') →
      hexdata_load_loop junk fuel h B ln buff P = some (some (0, hP)) →
      ∃ h', hexdata_load_loop junk (fuel + 1) h B ln buff (P ++ (':' :: hdr ++ R))
          = some (some (0, h'))
        ∧ (h' = hP ∨ h' = track_width hP n) := by
  intro fuel
  induction fuel with
  | zero => intro h B ln buff P hP _ hl; simp [hexdata_load_loop] at hl
  | succ fuel ih =>
    intro h B ln buff P hP hnl hl
    have hl8 := hexBytes_length _ _ hx
    simp only [List.length_cons, List.length_nil] at hl8
    rcases hnl with rfl | hnl
    · have e : hP = h := by
        simp only [hexdata_load_loop, fgets, Option.some.injEq, Prod.mk.injEq, true_and] at hl
        exact hl.symm
      subst e
      obtain ⟨buff', rest, _, _, f3⟩ := hexdata_load_loop_prefix junk hP B ln buff hdr R _ hx
        (by omega) (Step.stop 0 (track_width hP n))
        (fun t => hexdata_load_line_eof (junk ln) hP B hdr t n ahi alo hx)
      exact ⟨_, by simpa using f3 (fuel + 1), Or.inr rfl⟩
    · obtain ⟨buff', rest, g1, g2, g3⟩ := fgets_append buff P (':' :: hdr ++ R) hnl
      rw [hexdata_load_loop, g1] at hl
      rw [hexdata_load_loop, g2]
      simp only at hl ⊢
      cases hs : hexdata_load_line (junk ln) h B buff' with
      | stop code hd =>
        rw [hs] at hl
        simp only [Option.some.injEq, Prod.mk.injEq] at hl
        obtain ⟨rfl, rfl⟩ := hl
        exact ⟨_, rfl, Or.inl rfl⟩
      | next h1 B1 =>
        rw [hs] at hl
        exact ih h1 B1 _ buff' rest hP g3 hl
      | abort =>
        rw [hs] at hl
        simp at hl

/-! ## The record width -/

theorem hexdata_resize_width (h : hexdata) (d : Nat) (r : hexdata)
    (hr : hexdata_resize h d = some r) : r.width = h.width := by
  unfold hexdata_resize at hr
  split at hr
  · simp only [] at hr
    split at hr
    · simp at hr
    · rw [← Option.some.inj hr]
  · rw [← Option.some.inj hr]

theorem hexdata_write_width (h : hexdata) (addr val : Nat) (w : hexdata)
    (hw : hexdata_write h addr val = some w) : w.width = h.width := by
  unfold hexdata_write at hw
  cases hr : (if addr ≥ h.capacity then hexdata_resize h ((addr + 1) % 2 ^ 32)
      else some h) with
  | none =>
    rw [hr] at hw
    simp at hw
  | some r =>
    rw [hr] at hw
    simp only [] at hw
    have hrw : r.width = h.width := by
      split at hr
      · exact hexdata_resize_width _ _ _ hr
      · rw [← Option.some.inj hr]
    split at hw
    · rw [← Option.some.inj hw, ← hrw]
      split <;> rfl
    · simp at hw

theorem hexdata_load_data_width (buff : List Char) :
    ∀ (count : Nat) (st st' : DataLoop), hexdata_load_data buff count st = some st' →
      st'.hdata.width = st.hdata.width := by
  intro count
  induction count with
  | zero =>
    intro st st' hs
    simp only [hexdata_load_data, Option.some.injEq] at hs
    rw [hs]
  | succ count ih =>
    intro st st' hs
    rw [hexdata_load_data] at hs
    cases hw : hexdata_write st.hdata st.addr (sscanf_val 2 buff st.i st.val % 256) with
    | none => simp [hw] at hs
    | some w =>
      simp only [hw] at hs
      rw [ih _ st' hs]
      exact hexdata_write_width _ _ _ w hw

theorem hexdata_load_test_image (h : hexdata) (B : Nat) (buff : List Char) (i val cs : Nat) :
    (hexdata_load_test h B buff i val cs).image = some h := by
  unfold hexdata_load_test
  simp only []
  split <;> rfl

/-- The record width after a line whose header is parsed, when the process comes back from
the line. -/
theorem hexdata_load_line_width (junk : Nat) (h : hexdata) (B : Nat) (buff : List Char)
    (count addr type : Nat) (hs : scan_header buff = some (count, addr, type))
    (hc : count ≤ 255) (h2 : hexdata) (hi : (hexdata_load_line junk h B buff).image = some h2) :
    h2.width = max h.width count := by
  have hw : (if count > h.width ∧ count ≤ 256 then { h with width := count % 256 } else h).width
      = max h.width count := by
    split
    · show count % 256 = _
      omega
    · show h.width = _
      omega
  unfold hexdata_load_line at hi
  rw [hs] at hi
  simp only [] at hi
  split at hi
  · split at hi
    · simp [Step.image] at hi
    · rename_i st hst
      rw [hexdata_load_test_image] at hi
      rw [← Option.some.inj hi, hexdata_load_data_width _ _ _ st hst]
      exact hw
  · split at hi
    · rw [← Option.some.inj hi]
      exact hw
    · split at hi
      · rw [hexdata_load_test_image] at hi
        rw [← Option.some.inj hi]
        exact hw
      · split at hi
        · rw [hexdata_load_test_image] at hi
          rw [← Option.some.inj hi]
          exact hw
        · split at hi
          · rw [hexdata_load_test_image] at hi
            rw [← Option.some.inj hi]
            exact hw
          · rw [← Option.some.inj hi]
            exact hw

theorem hexdata_load_line_malformed (junk : Nat) (h : hexdata) (B : Nat) (buff : List Char)
    (hs : scan_header buff = none) : hexdata_load_line junk h B buff = Step.stop 1 h := by
  unfold hexdata_load_line
  rw [hs]

theorem fgets_read_length : ∀ (n : Nat) (file : List Char),
    (fgets_read n file).2.length ≤ file.length
      ∧ (0 < n → file ≠ [] → (fgets_read n file).2.length < file.length) := by
  intro n
  induction n with
  | zero => intro file; exact ⟨le_refl _, fun h => absurd h (by decide)⟩
  | succ n ih =>
    intro file
    cases file with
    | nil => exact ⟨le_refl _, fun _ h => absurd rfl h⟩
    | cons c file =>
      simp only [fgets_read]
      split
      · exact ⟨by simp, fun _ _ => by simp⟩
      · have := (ih file).1
        exact ⟨by simp only [List.length_cons]; omega,
          fun _ _ => by simp only [List.length_cons]; omega⟩

theorem fgets_length (buff file buff' rest : List Char)
    (h : fgets buff 256 file = some (buff', rest)) : rest.length < file.length := by
  cases file with
  | nil => simp [fgets] at h
  | cons c file =>
    simp only [fgets, Option.some.injEq, Prod.mk.injEq] at h
    rw [← h.2]
    exact (fgets_read_length 255 (c :: file)).2 (by decide) (by simp)

/-- With fuel for every character of the file, `hexdata_load` comes to an end, and when it
returns the record width is the maximum of the width before and the byte counts of the lines
whose header was parsed. -/
theorem hexdata_load_loop_width (junk : Nat → Nat) :
    ∀ (fuel : Nat) (h : hexdata) (B ln : Nat) (buff file : List Char),
      file.length < fuel →
      (∀ c ∈ hexdata_load_counts junk fuel h B ln buff file, c ≤ 255) →
      ∃ r, hexdata_load_loop junk fuel h B ln buff file = some r
        ∧ ∀ code h', r = some (code, h') →
            h'.width = (hexdata_load_counts junk fuel h B ln buff file).foldl max h.width := by
  intro fuel
  induction fuel with
  | zero => intro h B ln buff file hf; omega
  | succ fuel ih =>
    intro h B ln buff file hf hc
    rw [hexdata_load_loop]
    rw [hexdata_load_counts] at hc ⊢
    cases hg : fgets buff 256 file with
    | none =>
      refine ⟨_, rfl, ?_⟩
      intro code h' he
      simp only [Option.some.injEq, Prod.mk.injEq] at he
      rw [← he.2]
      rfl
    | some p =>
      obtain ⟨buff', rest⟩ := p
      have hlen := fgets_length buff file buff' rest hg
      rw [hg] at hc
      simp only at hc ⊢
      cases hsc : scan_header buff' with
      | none =>
        rw [hexdata_load_line_malformed (junk ln) h B buff' hsc]
        refine ⟨_, rfl, ?_⟩
        intro code h' he
        simp only [Option.some.injEq, Prod.mk.injEq] at he
        rw [← he.2]
        rfl
      | some q =>
        obtain ⟨count, addr, type⟩ := q
        rw [hsc] at hc
        simp only at hc ⊢
        have hcount : count ≤ 255 := hc count (by simp)
        have hw := hexdata_load_line_width (junk ln) h B buff' count addr type hsc hcount
        cases hst : hexdata_load_line (junk ln) h B buff' with
        | stop code hd =>
          rw [hst] at hw
          refine ⟨_, rfl, ?_⟩
          intro code' h' he
          simp only [Option.some.injEq, Prod.mk.injEq] at he
          rw [← he.2]
          simpa using hw hd rfl
        | next h1 B1 =>
          rw [hst] at hw hc
          simp only at hc ⊢
          obtain ⟨r, e1, e2⟩ := ih h1 B1 ((ln + 1) % 2 ^ 32) buff' rest (by omega)
            (fun c hcm => hc c (List.mem_append_right _ hcm))
          refine ⟨r, e1, ?_⟩
          intro code h' he
          rw [e2 code h' he, hw h1 rfl]
          simp
        | abort =>
          refine ⟨_, rfl, ?_⟩
          intro code h' he
          simp at he

/-- A line of type 0x02 or 0x04 writes nothing to the image, whatever else the line holds. -/
theorem hexdata_load_line_address_image (junk : Nat) (h : hexdata) (B : Nat) (buff : List Char)
    (count addr typ : Nat) (hs : scan_header buff = some (count, addr, typ))
    (ht : typ = 0x02 ∨ typ = 0x04) :
    ∃ h2, (hexdata_load_line junk h B buff).image = some h2
      ∧ h2.data = h.data ∧ h2.size = h.size ∧ h2.capacity = h.capacity
      ∧ h2.empty = h.empty := by
  have hw : ∀ c : Prop, [Decidable c] →
      (if c then { h with width := count % 256 } else h).data = h.data
      ∧ (if c then { h with width := count % 256 } else h).size = h.size
      ∧ (if c then { h with width := count % 256 } else h).capacity = h.capacity
      ∧ (if c then { h with width := count % 256 } else h).empty = h.empty := by
    intro c _
    split <;> exact ⟨rfl, rfl, rfl, rfl⟩
  unfold hexdata_load_line
  rw [hs]
  rcases ht with rfl | rfl
  · simp only [show ¬ (2 = 0) by decide, show ¬ (2 = 1) by decide, if_false, if_true,
      hexdata_load_test_image]
    exact ⟨_, rfl, hw _⟩
  · simp only [show ¬ (4 = 0) by decide, show ¬ (4 = 1) by decide, show ¬ (4 = 2) by decide,
      show ¬ (4 = 3) by decide, if_false, if_true, hexdata_load_test_image]
    exact ⟨_, rfl, hw _⟩

/-! ## Reading back what `hexdata_dump` wrote -/

theorem record_line_eq (r : Record) (cs : Nat) (rest : List Char) :
    record_line r cs ++ rest = ':' :: record_body r cs ++ '\n' :: rest := by
  simp [record_line, record_body, List.append_assoc]

theorem hexBytes_record_body (r : Record) (cs : Nat) (hc : r.count < 256) (ha : r.addr < 65536)
    (ht : r.type < 256) (hp : ∀ v ∈ r.payload, v < 256) (hcs : cs < 256) :
    hexBytes (record_body r cs)
      = some (r.count :: r.addr / 256 :: r.addr % 256 :: r.type :: (r.payload ++ [cs])) := by
  unfold record_body
  have h1 := hexBytes_hex2 r.count hc
  have h2 := hexBytes_hex4 r.addr ha
  have h3 := hexBytes_hex2 r.type ht
  have h4 := hexBytes_flatMap_hex2 r.payload hp
  have h5 := hexBytes_hex2 cs hcs
  have := hexBytes_append _ _ _ _ (hexBytes_append _ _ _ _ (hexBytes_append _ _ _ _
    (hexBytes_append _ _ _ _ h1 h2) h3) h4) h5
  simpa using this

theorem record_checksum_lt (r : Record) : record_checksum r < 256 :=
  Nat.mod_lt _ (by norm_num)

theorem record_checksum_balances (r : Record) :
    (r.count + r.addr / 256 + r.addr % 256 + r.type + r.payload.sum + record_checksum r) % 256
      = 0 := by
  unfold record_checksum
  omega

theorem write_record_checksum_eq (c : Call) :
    write_record_checksum c.count c.addr c.type c.data = record_checksum c.record := by
  have h := write_record_sum_eq c.data c.count 0 ((c.count + c.addr + (c.addr >>> 8) + c.type) % 256)
  have h2 := write_record_sum_lt c.data c.count 0
    ((c.count + c.addr + (c.addr >>> 8) + c.type) % 256) (Nat.mod_lt _ (by norm_num))
  simp only [record_checksum, Call.record, Call.payload, write_record_checksum,
    List.range_eq_range', Nat.shiftRight_eq_div_pow] at h h2 ⊢
  omega

theorem segment_base (addr : Nat) (h0 : addr % 65536 = 0) (h1 : addr < 0x100000) :
    ((256 * ((addr >>> 12) &&& 0xf0) + 0) <<< 4) % 2 ^ 32 = addr := by
  obtain ⟨m, rfl⟩ : ∃ m, addr = 65536 * m := ⟨addr / 65536, by omega⟩
  have : m < 16 := by omega
  interval_cases m <;> rfl

theorem bank_of_previous (w k size : Nat) (hw : 1 ≤ w) (hk : k * w < size)
    (hb : 65536 % w = 0 ∨ size ≤ 65536) (h0 : (k * w) % 65536 ≠ 0) :
    (k - 1) * w / 65536 * 65536 = k * w / 65536 * 65536 := by
  have hk1 : 1 ≤ k := by
    rcases Nat.eq_zero_or_pos k with rfl | h
    · simp at h0
    · exact h
  have e : (k - 1) * w = k * w - w := by
    rw [Nat.sub_mul, Nat.one_mul]
  have hle : w ≤ k * w := Nat.le_mul_of_pos_left w hk1
  rcases hb with hb | hb
  · obtain ⟨q, hq⟩ : ∃ q, 65536 = w * q := ⟨65536 / w, by
      have := Nat.div_add_mod 65536 w
      omega⟩
    have hr : (k * w) % 65536 = w * (k % q) := by
      rw [hq, Nat.mul_comm k w, Nat.mul_mod_mul_left]
    have hkq : 1 ≤ k % q := by
      rcases Nat.eq_zero_or_pos (k % q) with hz | hp
      · rw [hr, hz] at h0
        simp at h0
      · exact hp
    have hwr : w ≤ (k * w) % 65536 := by
      rw [hr]
      exact Nat.le_mul_of_pos_right w hkq
    rw [e]
    omega
  · have : k * w < 65536 := by omega
    rw [e]
    omega

theorem getD_map_range (f : Nat → Nat) (c i : Nat) (hi : i < c) :
    ((List.range c).map f).getD i 0 = f i := by
  simp [List.getD_eq_getElem?_getD, List.getElem?_range hi]


theorem load_segment_record (junk : Nat → Nat) (fuel : Nat) (L : hexdata) (B ln : Nat)
    (buff rest : List Char) (addr : Nat) (h0 : addr % 65536 = 0) (h1 : addr < 0x100000) :
    ∃ L1 ln1 buff1,
      hexdata_load_loop junk (fuel + 1) L B ln buff
          (record_text ⟨2, 0, 0x02, [(addr >>> 12) &&& 0xf0, 0]⟩ ++ rest)
        = hexdata_load_loop junk fuel L1 addr ln1 buff1 rest
      ∧ L1.data = L.data ∧ L1.size = L.size ∧ L1.capacity = L.capacity := by
  have hx256 : (addr >>> 12) &&& 0xf0 < 256 := lt_of_le_of_lt Nat.and_le_right (by norm_num)
  have hb := hexBytes_record_body ⟨2, 0, 0x02, [(addr >>> 12) &&& 0xf0, 0]⟩
    (record_checksum ⟨2, 0, 0x02, [(addr >>> 12) &&& 0xf0, 0]⟩) (by norm_num) (by norm_num)
    (by norm_num) (by
      intro v hv
      simp only [List.mem_cons, List.mem_singleton, List.not_mem_nil, or_false] at hv
      rcases hv with rfl | rfl
      · exact hx256
      · norm_num) (record_checksum_lt _)
  have hbal := record_checksum_balances ⟨2, 0, 0x02, [(addr >>> 12) &&& 0xf0, 0]⟩
  simp only [Nat.zero_div, Nat.zero_mod, List.cons_append, List.nil_append, List.sum_cons,
    List.sum_nil] at hb hbal
  obtain ⟨buff1, _, _, f3⟩ := hexdata_load_loop_segment junk L B ln buff _ [] rest 2 0 0
    ((addr >>> 12) &&& 0xf0) 0 _ hb (by simp) (by simp) (by omega)
  have f3 := f3 fuel
  rw [segment_base addr h0 h1, List.append_nil] at f3
  obtain ⟨t1, t2, t3, _⟩ := track_width_fields L 2
  exact ⟨_, _, buff1, by rw [record_text, record_line_eq]; exact f3, t1, t2, t3⟩

theorem load_data_record (junk : Nat → Nat) (fuel : Nat) (L : hexdata) (B ln : Nat)
    (buff rest : List Char) (r : Record) (hc : r.count ≤ 121) (hlen : r.payload.length = r.count)
    (ha : r.addr < 65536) (ht : r.type = 0x00) (hp : ∀ v ∈ r.payload, v < 256)
    (hB : B + r.addr + r.count ≤ 2 ^ 31) :
    ∃ W ln1 buff1,
      write_bytes (track_width L r.count) (B + r.addr) r.payload = some W
      ∧ hexdata_load_loop junk (fuel + 1) L B ln buff (record_text r ++ rest)
        = hexdata_load_loop junk fuel W B ln1 buff1 rest := by
  have hb := hexBytes_record_body r (record_checksum r) (by omega) ha (by omega) hp
    (record_checksum_lt _)
  have hbal := record_checksum_balances r
  rw [ht] at hb hbal
  have hbl := hexBytes_length _ _ hb
  simp only [List.length_cons, List.length_append, List.length_nil] at hbl
  have e : (256 * (r.addr / 256) + r.addr % 256 + B) % 2 ^ 32 = B + r.addr := by omega
  obtain ⟨W, hW, _⟩ := write_bytes_spec r.payload (track_width L r.count) (B + r.addr)
    (by rw [hlen]; exact hB)
  obtain ⟨buff1, _, _, f3⟩ := hexdata_load_loop_data junk L B ln buff _ [] rest r.count
    (r.addr / 256) (r.addr % 256) (record_checksum r) r.payload hb hlen (by simp)
    (by simp only [List.length_nil]; omega) hbal W (by rw [e]; exact hW)
  have f3 := f3 fuel
  rw [List.append_nil] at f3
  exact ⟨W, _, buff1, hW, by rw [record_text, record_line_eq]; exact f3⟩


theorem record_text_length (r : Record) : 1 ≤ (record_text r).length := by
  simp [record_text, record_line]

/-- Writing the chunk that starts at `addr` extends an image that agrees with `h` below
`addr`. -/
theorem write_chunk_agrees (h : hexdata) (w addr : Nat) (hw : 1 ≤ w) (ha : addr < h.size)
    (hs : h.size ≤ 2 ^ 31) (L1 : hexdata) (hL1 : L1.size = addr) (hL2 : L1.size ≤ L1.capacity)
    (hL3 : ∀ j, j < L1.size → L1.data j = h.data j) (n : Nat) :
    ∃ W, write_bytes (track_width L1 n) addr (spec_data h w addr).payload = some W
      ∧ W.size = min (addr + w) h.size
      ∧ W.size ≤ W.capacity
      ∧ ∀ j, j < W.size → W.data j = h.data j := by
  obtain ⟨t1, t2, t3, _⟩ := track_width_fields L1 n
  have hlen : (spec_data h w addr).payload.length = min w (h.size - addr) := by
    simp [spec_data]
  have hne : (spec_data h w addr).payload ≠ [] := by
    intro hnil
    rw [hnil] at hlen
    simp only [List.length_nil] at hlen
    omega
  obtain ⟨W, hW, _, _, w3, w4, _, _, w7⟩ := write_bytes_spec (spec_data h w addr).payload
    (track_width L1 n) addr (by rw [hlen]; omega)
  have hsize : W.size = min (addr + w) h.size := by
    rw [w4, if_neg hne, hlen, t2, hL1]
    omega
  refine ⟨W, hW, hsize, ?_, ?_⟩
  · have := w3 hne
    rw [hlen] at this
    omega
  · intro j hj
    rw [hsize] at hj
    rw [w7, hlen]
    by_cases hin : addr ≤ j ∧ j < addr + min w (h.size - addr)
    · rw [if_pos hin]
      have e : (spec_data h w addr).payload
          = (List.range (min w (h.size - addr))).map (fun i => h.data (addr + i)) := rfl
      rw [e, getD_map_range _ _ _ (by omega)]
      congr 1
      omega
    · rw [if_neg hin, t3, if_neg (by omega), t1]
      exact hL3 j (by omega)

theorem load_chunks (h : hexdata) (w : Nat) (hi : Image h) (hw : 1 ≤ w) (hw2 : w ≤ 121)
    (hs : h.size ≤ 0x100000) (hb : 65536 % w = 0 ∨ h.size ≤ 65536) (junk : Nat → Nat)
    (rest : List Char) :
    ∀ (m k : Nat) (L : hexdata) (B ln : Nat) (buff : List Char) (fuel : Nat),
      k + m = chunks h.size w →
      L.size = min (k * w) h.size → L.size ≤ L.capacity →
      (∀ j, j < L.size → L.data j = h.data j) →
      B = (k - 1) * w / 65536 * 65536 →
      ((List.range' k m).flatMap (fun k => (spec_chunk h w (k * w)).flatMap record_text)
          ++ record_text spec_eof).length < fuel →
      ∃ L', hexdata_load_loop junk fuel L B ln buff
            ((List.range' k m).flatMap (fun k => (spec_chunk h w (k * w)).flatMap record_text)
              ++ (record_text spec_eof ++ rest))
          = some (some (0, L'))
        ∧ L'.size = h.size ∧ ∀ j, j < h.size → L'.data j = h.data j := by
  intro m
  induction m with
  | zero =>
    intro k L B ln buff fuel hk hL1 hL2 hL3 _ hf
    simp only [List.range'_zero, List.flatMap_nil, List.nil_append] at hf ⊢
    obtain ⟨f, rfl⟩ : ∃ f, fuel = f + 1 := ⟨fuel - 1, by omega⟩
    have hx := hexBytes_record_body spec_eof (record_checksum spec_eof) (by decide) (by decide)
      (by decide) (by simp [spec_eof]) (record_checksum_lt _)
    have := hexdata_load_loop_eof junk f L B ln buff _ [] rest 0 0 0 _ hx (by simp)
      (by rw [hexBytes_length _ _ hx]; decide)
    rw [List.append_nil] at this
    rw [record_text, record_line_eq, this]
    obtain ⟨t1, t2, _, _⟩ := track_width_fields L 0
    have hge : h.size ≤ k * w := by
      by_contra hc
      have := (chunks_lt_iff h.size w k hw).2 (by omega)
      omega
    refine ⟨_, rfl, by rw [t2, hL1]; omega, ?_⟩
    intro j hj
    rw [t1]
    exact hL3 j (by rw [hL1]; omega)
  | succ m ih =>
    intro k L B ln buff fuel hk hL1 hL2 hL3 hB hf
    have hkw : k * w < h.size := (chunks_lt_iff h.size w k hw).1 (by omega)
    have hsize := Image.size_le_pow h hi
    have hLk : L.size = k * w := by omega
    have e1 : (k + 1) * w = k * w + w := by ring
    -- the data record of the chunk
    have hd_count : (spec_data h w (k * w)).count ≤ 121 := by
      show min w (h.size - k * w) ≤ 121
      omega
    have hd_len : (spec_data h w (k * w)).payload.length = (spec_data h w (k * w)).count := by
      simp [spec_data]
    have hd_addr : (spec_data h w (k * w)).addr = k * w % 65536 := and_ffff _
    have hd_bytes : ∀ v ∈ (spec_data h w (k * w)).payload, v < 256 := by
      intro v hv
      simp only [spec_data, List.mem_map] at hv
      obtain ⟨i, _, rfl⟩ := hv
      exact hi.bytes _
    have hbase : k * w / 65536 * 65536 + (spec_data h w (k * w)).addr = k * w := by
      rw [hd_addr]
      omega
    simp only [List.range'_succ, List.flatMap_cons, List.append_assoc, List.length_append]
      at hf ⊢
    -- after the extended address record, if there is one
    have key : ∃ L1 ln1 buff1 f1,
        hexdata_load_loop junk fuel L B ln buff
            ((spec_chunk h w (k * w)).flatMap record_text
              ++ ((List.range' (k + 1) m).flatMap
                    (fun k => (spec_chunk h w (k * w)).flatMap record_text)
                  ++ (record_text spec_eof ++ rest)))
          = hexdata_load_loop junk (f1 + 1) L1 (k * w / 65536 * 65536) ln1 buff1
              (record_text (spec_data h w (k * w))
                ++ ((List.range' (k + 1) m).flatMap
                      (fun k => (spec_chunk h w (k * w)).flatMap record_text)
                    ++ (record_text spec_eof ++ rest)))
        ∧ ((List.range' (k + 1) m).flatMap
              (fun k => (spec_chunk h w (k * w)).flatMap record_text)).length
            + (record_text spec_eof).length < f1
        ∧ L1.data = L.data ∧ L1.size = L.size ∧ L1.capacity = L.capacity := by
      have hlen_d := record_text_length (spec_data h w (k * w))
      by_cases h0 : k * w % 65536 = 0
      · have hbank : spec_bank (k * w) = [⟨2, 0, 0x02, [((k * w) >>> 12) &&& 0xf0, 0]⟩] := by
          have : k * w < 0x100000 := by omega
          simp [spec_bank, h0, this]
        have hlen_b := record_text_length ⟨2, 0, 0x02, [((k * w) >>> 12) &&& 0xf0, 0]⟩
        have hchunk : (spec_chunk h w (k * w)).flatMap record_text
            = record_text ⟨2, 0, 0x02, [((k * w) >>> 12) &&& 0xf0, 0]⟩
              ++ record_text (spec_data h w (k * w)) := by
          simp [spec_chunk, hbank]
        rw [hchunk] at hf ⊢
        simp only [List.append_assoc, List.length_append] at hf ⊢
        obtain ⟨f, rfl⟩ : ∃ f, fuel = f + 1 + 1 := ⟨fuel - 2, by omega⟩
        obtain ⟨L1, ln1, buff1, q1, q2, q3, q4⟩ := load_segment_record junk (f + 1) L B ln buff
          (record_text (spec_data h w (k * w))
            ++ ((List.range' (k + 1) m).flatMap
                  (fun k => (spec_chunk h w (k * w)).flatMap record_text)
                ++ (record_text spec_eof ++ rest))) (k * w) h0 (by omega)
        have e : k * w / 65536 * 65536 = k * w := by omega
        rw [e]
        exact ⟨L1, ln1, buff1, f, q1, by omega, q2, q3, q4⟩
      · have hbank : spec_bank (k * w) = [] := by simp [spec_bank, h0]
        have hchunk : (spec_chunk h w (k * w)).flatMap record_text
            = record_text (spec_data h w (k * w)) := by
          simp [spec_chunk, hbank]
        rw [hchunk] at hf ⊢
        obtain ⟨f, rfl⟩ : ∃ f, fuel = f + 1 := ⟨fuel - 1, by omega⟩
        rw [hB, bank_of_previous w k h.size hw hkw hb h0]
        exact ⟨L, ln, buff, f, rfl, by omega, rfl, rfl, rfl⟩
    obtain ⟨L1, ln1, buff1, f1, g1, g2, g3, g4, g5⟩ := key
    rw [g1]
    have hd_type : (spec_data h w (k * w)).type = 0x00 := rfl
    have hd_lt : (spec_data h w (k * w)).addr < 65536 := by rw [hd_addr]; omega
    have hd_le : (spec_data h w (k * w)).count ≤ h.size - k * w := Nat.min_le_right _ _
    have hd_B : k * w / 65536 * 65536 + (spec_data h w (k * w)).addr
        + (spec_data h w (k * w)).count ≤ 2 ^ 31 := by
      rw [hbase]
      omega
    obtain ⟨W, ln2, buff2, gw, g6⟩ := load_data_record junk f1 L1 (k * w / 65536 * 65536) ln1
      buff1
      ((List.range' (k + 1) m).flatMap (fun k => (spec_chunk h w (k * w)).flatMap record_text)
        ++ (record_text spec_eof ++ rest))
      (spec_data h w (k * w)) hd_count hd_len hd_lt hd_type hd_bytes hd_B
    rw [g6]
    rw [hbase] at gw
    obtain ⟨W2, gw2, a1, a2, a3⟩ := write_chunk_agrees h w (k * w) hw hkw hsize L1
      (by rw [g4, hLk])
      (by rw [g4, g5]; exact hL2) (by intro j hj; rw [g3]; exact hL3 j (by rw [← g4]; exact hj))
      (spec_data h w (k * w)).count
    have hWW : W2 = W := Option.some.inj (gw2.symm.trans gw)
    subst hWW
    exact ih (k + 1) _ (k * w / 65536 * 65536) ln2 buff2 f1 (by omega)
      (by rw [a1, e1]) a2 a3 (by simp) (by rw [List.length_append]; exact g2)

theorem hexdata_dump_text (h : hexdata) (w : Nat) (hi : Image h) (hw : 1 ≤ w) (hw2 : w ≤ 255)
    (fuel : Nat) (hf : h.size < fuel) :
    hexdata_dump { h with width := w } fuel
      = some ((List.range' 0 (chunks h.size w)).flatMap
            (fun k => (spec_chunk h w (k * w)).flatMap record_text)
          ++ (record_text spec_eof ++ [])) := by
  obtain ⟨calls, h1, h2⟩ := hexdata_dump_calls_eq h w hi hw hw2 fuel hf
  unfold hexdata_dump
  rw [h1, Option.map_some', write_records_eq]
  have e : (fun c : Call => record_line c.record
      (write_record_checksum c.count c.addr c.type c.data))
      = fun c => record_text c.record := by
    funext c
    rw [write_record_checksum_eq, record_text]
  rw [e, List.nil_append, ← List.flatMap_map Call.record record_text, h2, List.flatMap_append,
    List.flatMap_assoc, List.range_eq_range']
  simp

/-- The round trip for the widths and sizes for which it holds. -/
theorem hexdata_load_dump (h : hexdata) (w : Nat) (hi : Image h) (hw : 1 ≤ w) (hw2 : w ≤ 121)
    (hs : h.size ≤ 0x100000) (hb : 65536 % w = 0 ∨ h.size ≤ 65536) (junk : Nat → Nat)
    (buff : List Char) (heap : Nat → Nat) (fill fuel : Nat) (hf : h.size < fuel) :
    ∃ text, hexdata_dump { h with width := w } fuel = some text ∧
      ∀ fuel2, text.length < fuel2 →
        ∃ L, hexdata_load junk buff (hexdata_new heap fill) text fuel2 = some (some (0, L))
          ∧ L.size = h.size ∧ ∀ j, j < h.size → L.data j = h.data j := by
  refine ⟨_, hexdata_dump_text h w hi hw (by omega) fuel hf, ?_⟩
  intro fuel2 hf2
  have := load_chunks h w hi hw hw2 hs hb junk [] (chunks h.size w) 0 (hexdata_new heap fill)
    0 1 buff fuel2 (by omega) (by simp [hexdata_new]) (by simp [hexdata_new])
    (by intro j hj; simp [hexdata_new] at hj) (by simp)
    (by simpa using hf2)
  exact this

/-! ## The claims -/

set_option maxRecDepth 100000 in
/-- Counterexample to C1: the image of 124 bytes `0, 1, ..., 123` is written with width 124 and
read back into a fresh image. The data line has 260 characters and does not fit the line
buffer: the image read back has the same size, but its offset 123 holds 122 and not 123 (and
`hexdata_load` returns 1). -/
theorem hexdata_load_dump_counterexample :
    (1 ≤ image124.width ∧ image124.width ≤ 255) ∧ image124.size = 124 ∧ image124.data 123 = 123
    ∧ ((hexdata_dump image124 125).bind
        (fun text => hexdata_load (fun _ => 0) [] (hexdata_new (fun _ => 0) 0xff) text 4)).map
          (Option.map (fun r => (r.1, r.2.size, r.2.data 123))) = some (some (1, 124, 122)) := by
  decide

/-- C1, amended. Round trip within the line buffer and the segment banks: for every image with
size at most `0x100000` and every width in [1,121] that divides 65536 or, failing that, when
the size is at most 65536, `hexdata_dump` returns, and `hexdata_load` applied to its output,
into a fresh image of any fill value, returns 0 and yields an image with the same size and the
same bytes at every offset in `[0, size)`. -/
theorem hexdata_load_dump_round_trip (h : hexdata) (w : Nat) (hi : Image h)
    (hw : 1 ≤ w ∧ w ≤ 121) (hs : h.size ≤ 0x100000) (hb : 65536 % w = 0 ∨ h.size ≤ 65536)
    (junk : Nat → Nat) (buff : List Char) (heap : Nat → Nat) (fill fuel : Nat)
    (hf : h.size < fuel) :
    ∃ text, hexdata_dump { h with width := w } fuel = some text ∧
      ∀ fuel2, text.length < fuel2 →
        ∃ L, hexdata_load junk buff (hexdata_new heap fill) text fuel2
            = some (some (0, L))
          ∧ L.size = h.size ∧ ∀ j, j < h.size → L.data j = h.data j :=
  hexdata_load_dump h w hi hw.1 hw.2 hs hb junk buff heap fill fuel hf

/-- Witness of C1 as amended: the image of twenty bytes with width 16. -/
theorem hexdata_load_dump_round_trip_witness :
    Image image20 ∧ (1 ≤ 16 ∧ 16 ≤ 121) ∧ image20.size ≤ 0x100000
    ∧ (65536 % 16 = 0 ∨ image20.size ≤ 65536) ∧ image20.size < 21
    ∧ ∃ text, hexdata_dump { image20 with width := 16 } 21 = some text ∧
      ∀ fuel2, text.length < fuel2 →
        ∃ L, hexdata_load (fun _ => 0) [] (hexdata_new (fun _ => 0) 0xff) text fuel2
            = some (some (0, L))
          ∧ L.size = image20.size ∧ ∀ j, j < image20.size → L.data j = image20.data j :=
  ⟨image20_valid, by decide, by decide, by decide, by decide,
    hexdata_load_dump_round_trip image20 16 image20_valid (by decide) (by decide) (by decide)
      (fun _ => 0) [] (fun _ => 0) 0xff 21 (by decide)⟩

/-- C2. Checksum law: the checksum byte that `write_record` prints makes the sum of byte
count, address high byte, address low byte, type, payload bytes and checksum a multiple of
256, for every byte count, address, type and payload; and the output of `hexdata_dump` consists
of the lines of its `write_record` calls, each with that checksum. -/
theorem write_record_checksum_law (file : List Char) (count addr type : Nat) (data : Nat → Nat)
    (hdata : hexdata) (fuel : Nat) :
    write_record file count addr type data
        = file ++ record_line ⟨count, addr, type, (List.range count).map data⟩
            (write_record_checksum count addr type data)
      ∧ write_record_checksum count addr type data < 256
      ∧ (count + addr / 256 + addr % 256 + type + ((List.range count).map data).sum
          + write_record_checksum count addr type data) % 256 = 0
      ∧ hexdata_dump hdata fuel
          = (hexdata_dump_calls hdata fuel).map (fun calls => calls.flatMap
              (fun c => record_line c.record
                (write_record_checksum c.count c.addr c.type c.data))) := by
  refine ⟨write_record_eq file ⟨count, addr, type, data⟩, write_record_checksum_lt _ _ _ _,
    write_record_checksum_sum ⟨count, addr, type, data⟩, ?_⟩
  unfold hexdata_dump
  congr 1
  funext calls
  simpa using write_records_eq calls []

/-- Counterexample to C3: a single `hexdata_write` at the 32-bit address `0x80000000` into a
fresh image. The rounding of `hexdata_resize` wraps `0x80000001` to 0 and `xrealloc` leaves
through `exit(1)`: the call does not return, and there is no image after it of which the
invariant could hold. -/
theorem hexdata_writes_growth_counterexample :
    0x80000000 < 2 ^ 32
    ∧ hexdata_resize_round 0x80000001 = 0
    ∧ ¬ ∃ w, hexdata_writes (hexdata_new (fun _ => 0) 0xff) [(0x80000000, 0x55)] = some w
        ∧ (∃ k, w.capacity = 2 ^ k) ∧ w.size ≤ w.capacity := by
  refine ⟨by decide, rfl, ?_⟩
  rintro ⟨w, hw, _⟩
  have e : hexdata_writes (hexdata_new (fun _ => 0) 0xff) [(0x80000000, 0x55)] = none := rfl
  rw [e] at hw
  cases hw

/-- C3, amended. Growth invariant below `2 ^ 31`: starting from `hexdata_new(fill)`, after any
finite sequence of `hexdata_write(addr, val)` calls with every `addr` below `2 ^ 31`, the calls
have all returned, the capacity is a power of two, the capacity is at least the size, and
every offset in `[0, capacity)` that was never the target of a write holds the fill value. -/
theorem hexdata_writes_growth (heap : Nat → Nat) (fill : Nat) (hfill : fill < 256)
    (ws : List (Nat × Nat)) (hws : ∀ p ∈ ws, p.1 < 2 ^ 31) :
    ∃ w, hexdata_writes (hexdata_new heap fill) ws = some w
      ∧ (∃ k, w.capacity = 2 ^ k)
      ∧ w.capacity ≥ w.size
      ∧ ∀ j, j < w.capacity → (∀ p ∈ ws, p.1 ≠ j) → w.data j = fill :=
  hexdata_new_writes_invariant heap fill hfill ws hws

/-- Witness of C3 as amended: writes at `0x20000`, at 5 and at `0x7FFFFFFF` into a fresh image
with fill value `0xff`. -/
theorem hexdata_writes_growth_witness :
    0xff < 256 ∧ (∀ p ∈ [(0x20000, 1), (5, 2), (0x7FFFFFFF, 3)], p.1 < 2 ^ 31)
    ∧ ∃ w, hexdata_writes (hexdata_new (fun _ => 0) 0xff)
          [(0x20000, 1), (5, 2), (0x7FFFFFFF, 3)] = some w
      ∧ (∃ k, w.capacity = 2 ^ k)
      ∧ w.capacity ≥ w.size
      ∧ ∀ j, j < w.capacity → (∀ p ∈ [(0x20000, 1), (5, 2), (0x7FFFFFFF, 3)], p.1 ≠ j) →
          w.data j = 0xff :=
  ⟨by decide, by decide,
    hexdata_writes_growth (fun _ => 0) 0xff (by decide) [(0x20000, 1), (5, 2), (0x7FFFFFFF, 3)]
      (by decide)⟩

/-- C4. Flattening without gaps: for every image and every width in [1,255], `hexdata_dump`
returns, and its Data records, taken in order, each have the byte count
`min(width, size - addr)` and the address field `addr & 0xffff`, where `addr` is the sum of the
counts of the preceding Data records; every Data record but the last has exactly `width`
bytes, and the payloads together are the image bytes `[0, size)`. -/
theorem hexdata_dump_data_records (h : hexdata) (w fuel : Nat) (hi : Image h)
    (hw : 1 ≤ w ∧ w ≤ 255) (hf : h.size < fuel) :
    ∃ calls, hexdata_dump_calls { h with width := w } fuel = some calls ∧
      (∀ k r, ((calls.map Call.record).filter (fun r => decide (r.type = 0x00)))[k]? = some r →
        r.count = min w (h.size - ((((calls.map Call.record).filter
            (fun r => decide (r.type = 0x00))).take k).map Record.count).sum)
        ∧ r.addr = ((((calls.map Call.record).filter
            (fun r => decide (r.type = 0x00))).take k).map Record.count).sum &&& 0xffff
        ∧ (k + 1 < ((calls.map Call.record).filter (fun r => decide (r.type = 0x00))).length →
            r.count = w))
      ∧ ((calls.map Call.record).filter (fun r => decide (r.type = 0x00))).flatMap Record.payload
          = (List.range h.size).map h.data := by
  obtain ⟨calls, h1, h2⟩ := hexdata_dump_calls_eq h w hi hw.1 hw.2 fuel hf
  refine ⟨calls, h1, ?_⟩
  have hds : (calls.map Call.record).filter (fun r => decide (r.type = 0x00))
      = (List.range (chunks h.size w)).map (fun k => spec_data h w (k * w)) := by
    rw [h2, List.filter_append, spec_chunks_data]
    simp [spec_eof]
  rw [hds]
  constructor
  · intro k r hr
    have hk : k < chunks h.size w := by
      have := (List.getElem?_eq_some_iff.1 hr).1
      simpa using this
    have hkw : k * w < h.size := (chunks_lt_iff h.size w k hw.1).1 hk
    have hr2 : r = spec_data h w (k * w) := by
      rw [List.getElem?_map, List.getElem?_range hk] at hr
      simpa using hr.symm
    have htake : ((List.range (chunks h.size w)).map (fun k => spec_data h w (k * w))).take k
        = (List.range k).map (fun k => spec_data h w (k * w)) := by
      rw [← List.map_take, List.take_range, Nat.min_eq_left (le_of_lt hk)]
    rw [htake, spec_data_count_sum h w k (le_of_lt hkw), hr2]
    refine ⟨rfl, rfl, ?_⟩
    intro hk1
    have hk1 : k + 1 < chunks h.size w := by simpa using hk1
    have := (chunks_lt_iff h.size w (k + 1) hw.1).1 hk1
    have e : (k + 1) * w = k * w + w := by ring
    show min w (h.size - k * w) = w
    omega
  · have hge : h.size ≤ chunks h.size w * w := by
      by_contra hc
      have := (chunks_lt_iff h.size w (chunks h.size w) hw.1).2 (by omega)
      omega
    have hle : chunks h.size w * w ≤ h.size + w := by
      by_cases h0 : chunks h.size w = 0
      · simp [h0]
      · have := (chunks_lt_iff h.size w (chunks h.size w - 1) hw.1).1 (by omega)
        have e : chunks h.size w * w = (chunks h.size w - 1) * w + w := by
          conv_lhs => rw [show chunks h.size w = (chunks h.size w - 1) + 1 by omega]
          ring
        omega
    rw [spec_data_payload h w _ hle, Nat.min_eq_right hge]

/-- Witness of C4: the image of twenty bytes with width 16. -/
theorem hexdata_dump_data_records_witness :
    Image image20 ∧ (1 ≤ 16 ∧ 16 ≤ 255) ∧ image20.size < 21 ∧
    ∃ calls, hexdata_dump_calls { image20 with width := 16 } 21 = some calls ∧
      ((calls.map Call.record).filter (fun r => decide (r.type = 0x00))).flatMap Record.payload
        = (List.range image20.size).map image20.data :=
  ⟨image20_valid, by decide, by decide,
    (hexdata_dump_data_records image20 16 21 image20_valid (by decide) (by decide)).imp
      (fun _ hc => ⟨hc.1, hc.2.2⟩)⟩

/-- C5. Bank-record emission: for every image and every width in [1,255], `hexdata_dump`
returns, the chunk start addresses that its loop visits are the multiples `k * width` below
the size, and the records emitted are, for each of these addresses `addr` in order, the
extended-address records `spec_bank addr` followed by the Data record at `addr`, and then the
end-of-file record: one extended-address record exactly when `addr mod 65536 = 0`, of type 0x02
with address 0 and payload `[(addr >> 12) & 0xf0, 0]` when `addr < 0x100000`, of type 0x04 with
address 0 and payload `[addr >> 24, (addr >> 16) & 0xff]` otherwise. -/
theorem hexdata_dump_bank_records (h : hexdata) (w fuel : Nat) (hi : Image h)
    (hw : 1 ≤ w ∧ w ≤ 255) (hf : h.size < fuel) :
    ∃ calls, hexdata_dump_calls { h with width := w } fuel = some calls ∧
      calls.map Call.record
        = (List.range (chunks h.size w)).flatMap
            (fun k => spec_bank (k * w) ++ [spec_data h w (k * w)])
          ++ [spec_eof]
      ∧ (∀ k, k < chunks h.size w ↔ k * w < h.size)
      ∧ (∀ addr, spec_bank addr =
          if addr % 65536 = 0 then
            [if addr < 0x100000 then ⟨2, 0, 0x02, [(addr >>> 12) &&& 0xf0, 0]⟩
             else ⟨2, 0, 0x04, [addr >>> 24, (addr >>> 16) &&& 0xff]⟩]
          else []) := by
  obtain ⟨calls, h1, h2⟩ := hexdata_dump_calls_eq h w hi hw.1 hw.2 fuel hf
  refine ⟨calls, h1, h2, fun k => chunks_lt_iff h.size w k hw.1, ?_⟩
  intro addr
  unfold spec_bank
  split
  · split <;> rfl
  · rfl

/-- Witness of C5: the image of twenty bytes with width 16. -/
theorem hexdata_dump_bank_records_witness :
    Image image20 ∧ (1 ≤ 16 ∧ 16 ≤ 255) ∧ image20.size < 21 ∧
    ∃ calls, hexdata_dump_calls { image20 with width := 16 } 21 = some calls ∧
      calls.map Call.record
        = (List.range (chunks image20.size 16)).flatMap
            (fun k => spec_bank (k * 16) ++ [spec_data image20 16 (k * 16)])
          ++ [spec_eof] :=
  ⟨image20_valid, by decide, by decide,
    (hexdata_dump_bank_records image20 16 21 image20_valid (by decide) (by decide)).imp
      (fun _ hc => ⟨hc.1, hc.2.1⟩)⟩

/-- Counterexample to C6: the image of 0x100001 zero bytes, which exceeds 0x100000, is encoded
with width 128, so that the loop visits 0x10000. The record emitted immediately before the
Data record that starts at 0x10000 (the Data records before it hold 0x10000 bytes) is an
ExtendedSegmentAddress record, of type 0x02 and not 0x04. -/
theorem hexdata_dump_boundary_counterexample :
    0x100000 < image1M.size ∧
    ∃ calls pre post b d, hexdata_dump_calls image1M 0x100002 = some calls ∧
      calls.map Call.record = pre ++ [b, d] ++ post ∧
      ((pre.filter (fun r => decide (r.type = 0x00))).map Record.count).sum = 0x10000 ∧
      d.type = 0x00 ∧ b = ⟨2, 0, 0x02, [0x10, 0]⟩ ∧ b.type ≠ 0x04 := by
  refine ⟨by decide, ?_⟩
  obtain ⟨calls, pre, post, h1, h2, h3⟩ := hexdata_dump_calls_at image1M 128 image1M_valid
    (by decide) (by decide) 0x100002 (by decide) 0x10000 (by decide) (by decide)
  exact ⟨calls, pre, post, ⟨2, 0, 0x02, [0x10, 0]⟩, spec_data image1M 128 0x10000, h1, h2, h3,
    rfl, rfl, by decide⟩

/-- C6, amended. When `hexdata_dump` encodes an image whose size exceeds 0x10000 with a width
in [1,255] that divides 0x10000, the record emitted immediately before the Data record that
starts at 0x10000 is an ExtendedSegmentAddress record (type 0x02) with payload `[0x10, 0x00]`,
whatever the size of the image; when the size exceeds 0x100000, the record emitted immediately
before the Data record that starts at 0x100000 is an ExtendedLinearAddress record (type 0x04)
with payload `[0x00, 0x10]`. -/
theorem hexdata_dump_boundary (h : hexdata) (w fuel : Nat) (hi : Image h)
    (hw : 1 ≤ w ∧ w ≤ 255) (hf : h.size < fuel) (hd : 0x10000 % w = 0)
    (hs : 0x10000 < h.size) :
    ∃ calls, hexdata_dump_calls { h with width := w } fuel = some calls ∧
      (∃ pre post, calls.map Call.record
          = pre ++ [⟨2, 0, 0x02, [0x10, 0x00]⟩, spec_data h w 0x10000] ++ post ∧
        ((pre.filter (fun r => decide (r.type = 0x00))).map Record.count).sum = 0x10000) ∧
      (0x100000 < h.size →
        ∃ pre post, calls.map Call.record
          = pre ++ [⟨2, 0, 0x04, [0x00, 0x10]⟩, spec_data h w 0x100000] ++ post ∧
        ((pre.filter (fun r => decide (r.type = 0x00))).map Record.count).sum = 0x100000) := by
  obtain ⟨calls, pre, post, h1, h2, h3⟩ := hexdata_dump_calls_at h w hi hw.1 hw.2 fuel hf
    0x10000 hd hs
  refine ⟨calls, h1, ⟨pre, post, h2, h3⟩, ?_⟩
  intro hs2
  have hd2 : 0x100000 % w = 0 := by
    have : (0x100000 : Nat) = 0x10000 * 16 := by norm_num
    rw [this, Nat.mul_mod, hd]
    simp
  obtain ⟨calls2, pre2, post2, h4, h5, h6⟩ := hexdata_dump_calls_at h w hi hw.1 hw.2 fuel hf
    0x100000 hd2 hs2
  rw [h1] at h4
  cases h4
  exact ⟨pre2, post2, h5, h6⟩

/-- Witness of C6 as amended: the image of 0x100001 zero bytes with width 128. -/
theorem hexdata_dump_boundary_witness :
    Image image1M ∧ (1 ≤ 128 ∧ 128 ≤ 255) ∧ image1M.size < 0x100002 ∧ 0x10000 % 128 = 0 ∧
    0x10000 < image1M.size ∧
    ∃ calls, hexdata_dump_calls { image1M with width := 128 } 0x100002 = some calls ∧
      (∃ pre post, calls.map Call.record
          = pre ++ [⟨2, 0, 0x02, [0x10, 0x00]⟩, spec_data image1M 128 0x10000] ++ post ∧
        ((pre.filter (fun r => decide (r.type = 0x00))).map Record.count).sum = 0x10000) :=
  ⟨image1M_valid, by decide, by decide, by decide, by decide,
    (hexdata_dump_boundary image1M 128 0x100002 image1M_valid (by decide) (by decide)
      (by decide) (by decide)).imp (fun _ hc => ⟨hc.1, hc.2.1⟩)⟩

/-- C7. For every image and every width in [1,255], `hexdata_dump` returns; its last
`write_record` call prints the EndOfFile record (byte count 0, address 0, type 0x01), no call
before it prints a record of type 0x01, and the output is the lines of the calls before it
followed by the line `:00000001FF`. -/
theorem hexdata_dump_end_of_file (h : hexdata) (w fuel : Nat) (hi : Image h)
    (hw : 1 ≤ w ∧ w ≤ 255) (hf : h.size < fuel) :
    ∃ calls last, hexdata_dump_calls { h with width := w } fuel = some (calls ++ [last]) ∧
      last.record = ⟨0, 0, 0x01, []⟩ ∧ (∀ c ∈ calls, c.type ≠ 0x01) ∧
      hexdata_dump { h with width := w } fuel
        = some (calls.flatMap (fun c => record_line c.record
              (write_record_checksum c.count c.addr c.type c.data))
            ++ ":00000001FF\n".toList) := by
  obtain ⟨calls, last, h1, h2, h3, _⟩ := hexdata_dump_eof h w hi hw.1 hw.2 fuel hf
  refine ⟨calls, last, h1, h2, h3, ?_⟩
  unfold hexdata_dump
  rw [h1, Option.map_some', write_records_eq, List.flatMap_append]
  simp only [List.nil_append, List.flatMap_cons, List.flatMap_nil, List.append_nil]
  rw [record_line_eof last h2]

/-- Witness of C7: the image of twenty bytes with width 16. -/
theorem hexdata_dump_end_of_file_witness :
    Image image20 ∧ (1 ≤ 16 ∧ 16 ≤ 255) ∧ image20.size < 21 ∧
    ∃ calls last, hexdata_dump_calls { image20 with width := 16 } 21 = some (calls ++ [last]) ∧
      last.record = ⟨0, 0, 0x01, []⟩ ∧ (∀ c ∈ calls, c.type ≠ 0x01) ∧
      hexdata_dump { image20 with width := 16 } 21
        = some (calls.flatMap (fun c => record_line c.record
              (write_record_checksum c.count c.addr c.type c.data))
            ++ ":00000001FF\n".toList) :=
  ⟨image20_valid, by decide, by decide,
    hexdata_dump_end_of_file image20 16 21 image20_valid (by decide) (by decide)⟩

set_option maxRecDepth 100000 in
/-- Counterexample to C8: a well-formed Data line with byte count 124, address field 0 and
payload `d[k] = k` with its balancing checksum, read into a fresh image at base address 0.
The line does not fit the line buffer of 256 characters: offset 123 receives 122, the value
of `d[122]`, and not `d[123] = 123`. -/
theorem hexdata_load_data_record_counterexample :
    hexBytes ((record_text ⟨124, 0, 0x00, List.range 124⟩).tail.dropLast)
      = some (124 :: 0 :: 0 :: 0x00 :: (List.range 124 ++ [186]))
    ∧ (124 + 0 + 0 + 0x00 + (List.range 124).sum + 186) % 256 = 0
    ∧ 0 + 0 + 124 ≤ 2 ^ 31
    ∧ (hexdata_load (fun _ => 0) [] (hexdata_new (fun _ => 0) 0xff)
        (record_text ⟨124, 0, 0x00, List.range 124⟩) 3).map (Option.map (fun r => r.2.data 123))
        = some (some 122)
    ∧ (List.range 124).getD 123 0 = 123 := by
  decide

/-- C8, amended. Decoding a Data record that fits the line buffer: for every image, every base
address `B` and every well-formed Data line (type 0x00) with byte count `n`, address field `A`
and payload `d` with a balancing checksum, where the line and its terminator have at most 255
characters (so `n ≤ 121`) and `B + A + n ≤ 2 ^ 31`, `hexdata_load` reads the line whole, writes
`d[k]` to offset `B + A + k` for `k` in `[0, n)` in order, leaves every other offset below the
old capacity unchanged (the offsets that growth adds hold the fill value), and goes on to the
next line with the base address unchanged. -/
theorem hexdata_load_data_record (junk : Nat → Nat) (h : hexdata) (B ln : Nat)
    (buff body trail rest : List Char) (n ahi alo cs : Nat) (d : List Nat)
    (hx : hexBytes body = some (n :: ahi :: alo :: 0x00 :: (d ++ [cs]))) (hn : d.length = n)
    (ht : ∀ c ∈ trail, c ≠ '\n') (hfit : body.length + trail.length + 2 ≤ 255)
    (hcs : (n + ahi + alo + 0x00 + d.sum + cs) % 256 = 0)
    (hB : B + (256 * ahi + alo) + n ≤ 2 ^ 31) :
    ∃ buff' h', fgets buff 256 (':' :: body ++ trail ++ '\n' :: rest) = some (buff', rest)
      ∧ hexdata_load_line (junk ln) h B buff' = Step.next h' B
      ∧ (∀ fuel, hexdata_load_loop junk (fuel + 1) h B ln buff
            (':' :: body ++ trail ++ '\n' :: rest)
          = hexdata_load_loop junk fuel h' B ((ln + 1) % 2 ^ 32) buff' rest)
      ∧ write_bytes (track_width h n) (B + (256 * ahi + alo)) d = some h'
      ∧ n ≤ 121
      ∧ (∀ k, k < n → h'.data (B + (256 * ahi + alo) + k) = d.getD k 0)
      ∧ (∀ j, ¬ (B + (256 * ahi + alo) ≤ j ∧ j < B + (256 * ahi + alo) + n) →
          j < h.capacity → h'.data j = h.data j)
      ∧ (∀ j, ¬ (B + (256 * ahi + alo) ≤ j ∧ j < B + (256 * ahi + alo) + n) →
          h.capacity ≤ j → j < h'.capacity → h'.data j = h.empty % 256) := by
  have hlen := hexBytes_length _ _ hx
  simp only [List.length_cons, List.length_append, List.length_nil] at hlen
  have e : (256 * ahi + alo + B) % 2 ^ 32 = B + (256 * ahi + alo) := by
    rw [Nat.mod_eq_of_lt (by omega)]
    omega
  subst hn
  obtain ⟨h', hw, _, _, _, _, _, _, w7⟩ := write_bytes_spec d (track_width h d.length)
    (B + (256 * ahi + alo)) hB
  obtain ⟨buff', f1, f2, f3⟩ := hexdata_load_loop_data junk h B ln buff body trail rest
    d.length ahi alo cs d hx rfl ht hfit hcs h' (by rw [e]; exact hw)
  obtain ⟨t1, _, t3, t4⟩ := track_width_fields h d.length
  refine ⟨buff', h', f1, f2, f3, hw, by omega, ?_, ?_, ?_⟩
  · intro k hk
    rw [w7, if_pos (by omega)]
    congr 1
    omega
  · intro j hj hc
    rw [w7, if_neg hj, t3, if_neg (by omega), t1]
  · intro j hj hc hc'
    rw [w7, if_neg hj, t3, if_pos ⟨hc, hc'⟩, t4]

/-- Witness of C8 as amended: the line `:03001000AABBCCBC`, ended by a carriage return and a
line feed, read at base address `0x20000` into the image of twenty bytes. -/
theorem hexdata_load_data_record_witness :
    hexBytes "03001000AABBCCBC".toList
        = some (3 :: 0 :: 0x10 :: 0x00 :: ([0xAA, 0xBB, 0xCC] ++ [0xBC]))
    ∧ [0xAA, 0xBB, 0xCC].length = 3 ∧ (∀ c ∈ ['\r'], c ≠ '\n')
    ∧ "03001000AABBCCBC".toList.length + ['\r'].length + 2 ≤ 255
    ∧ (3 + 0 + 0x10 + 0x00 + [0xAA, 0xBB, 0xCC].sum + 0xBC) % 256 = 0
    ∧ 0x20000 + (256 * 0 + 0x10) + 3 ≤ 2 ^ 31
    ∧ ∃ buff' h',
      fgets [] 256 (':' :: "03001000AABBCCBC".toList ++ ['\r'] ++ '\n' :: []) = some (buff', [])
      ∧ hexdata_load_line 0 image20 0x20000 buff' = Step.next h' 0x20000
      ∧ write_bytes (track_width image20 3) (0x20000 + (256 * 0 + 0x10)) [0xAA, 0xBB, 0xCC]
          = some h'
      ∧ (∀ k, k < 3 → h'.data (0x20000 + (256 * 0 + 0x10) + k) = [0xAA, 0xBB, 0xCC].getD k 0) :=
  ⟨by decide, by decide, by decide, by decide, by decide, by decide,
    (hexdata_load_data_record (fun _ => 0) image20 0x20000 1 [] "03001000AABBCCBC".toList
      ['\r'] [] 3 0 0x10 0xBC [0xAA, 0xBB, 0xCC] (by decide) (by decide) (by decide) (by decide)
      (by decide) (by decide)).imp
      (fun _ hb => hb.imp (fun _ hc => ⟨hc.1, hc.2.1, hc.2.2.2.1, hc.2.2.2.2.2.1⟩))⟩

set_option maxRecDepth 100000 in
/-- C9. Two ExtendedLinearAddress lines, carrying 0x0001 and then 0x0002, followed by one
data byte at address field 0 and the end-of-file line: the second line leaves the base address
at `0x30000 = (0x10000 & 0xffff0000) | (0x0002 << 16)`, not at `0x20000`, so the byte is written
to offset `0x30000` and offset `0x20000` keeps the fill value. -/
theorem hexdata_load_linear_address_merges :
    (hexdata_load (fun _ => 0) [] (hexdata_new (fun _ => 0) 0xff)
        ":020000040001F9\n:020000040002F8\n:0100000055AA\n:00000001FF\n".toList 5).map
      (Option.map (fun r => (r.1, r.2.size, r.2.data 0x30000, r.2.data 0x20000)))
        = some (some (0, 0x30001, 0x55, 0xff))
    ∧ (0x10000 &&& 0xffff0000) ||| (0x0002 <<< 16) = 0x30000
    ∧ (0x0002 <<< 16) ||| (0x10000 &&& 0xffff) = 0x20000 := by
  decide

/-- C10. Decoding an ExtendedSegmentAddress record: for every image, every base address `B` and
every well-formed line of type 0x02 (byte count 2) that carries the 16-bit value `V` with a
balancing checksum, `hexdata_load` reads the line and goes on to the next line with the base
address `V << 4`, whatever `B` was; the bytes, size, capacity and fill value of the image are
unchanged. -/
theorem hexdata_load_segment_address (junk : Nat → Nat) (h : hexdata) (B ln : Nat)
    (buff body trail rest : List Char) (ahi alo vhi vlo cs : Nat)
    (hx : hexBytes body = some [2, ahi, alo, 0x02, vhi, vlo, cs])
    (ht : ∀ c ∈ trail, c ≠ '\n') (hfit : trail.length ≤ 239)
    (hcs : (2 + ahi + alo + 0x02 + vhi + vlo + cs) % 256 = 0) :
    ∃ buff' h', fgets buff 256 (':' :: body ++ trail ++ '\n' :: rest) = some (buff', rest)
      ∧ hexdata_load_line (junk ln) h B buff' = Step.next h' ((256 * vhi + vlo) <<< 4)
      ∧ (∀ fuel, hexdata_load_loop junk (fuel + 1) h B ln buff
            (':' :: body ++ trail ++ '\n' :: rest)
          = hexdata_load_loop junk fuel h' ((256 * vhi + vlo) <<< 4) ((ln + 1) % 2 ^ 32) buff'
              rest)
      ∧ h'.data = h.data ∧ h'.size = h.size ∧ h'.capacity = h.capacity ∧ h'.empty = h.empty := by
  obtain ⟨buff', f1, f2, f3⟩ := hexdata_load_loop_segment junk h B ln buff body trail rest 2 ahi
    alo vhi vlo cs hx ht hfit hcs
  have hl := hexBytes_lt _ _ hx
  have : vhi < 256 := hl vhi (by simp)
  have : vlo < 256 := hl vlo (by simp)
  have e : ((256 * vhi + vlo) <<< 4) % 2 ^ 32 = (256 * vhi + vlo) <<< 4 := by
    rw [Nat.shiftLeft_eq]
    omega
  rw [e] at f2 f3
  exact ⟨buff', _, f1, f2, f3, track_width_fields h 2⟩

/-- Witness of C10: the line `:020000021000EC` read at base address `0x30000` into the image
of twenty bytes. -/
theorem hexdata_load_segment_address_witness :
    hexBytes "020000021000EC".toList = some [2, 0, 0, 0x02, 0x10, 0, 0xEC]
    ∧ (∀ c ∈ ([] : List Char), c ≠ '\n') ∧ ([] : List Char).length ≤ 239
    ∧ (2 + 0 + 0 + 0x02 + 0x10 + 0 + 0xEC) % 256 = 0
    ∧ ∃ buff' h',
      fgets [] 256 (':' :: "020000021000EC".toList ++ [] ++ '\n' :: []) = some (buff', [])
      ∧ hexdata_load_line 0 image20 0x30000 buff' = Step.next h' ((256 * 0x10 + 0) <<< 4)
      ∧ h'.data = image20.data ∧ h'.size = image20.size :=
  ⟨by decide, by decide, by decide, by decide,
    (hexdata_load_segment_address (fun _ => 0) image20 0x30000 1 [] "020000021000EC".toList []
      [] 0 0 0x10 0 0xEC (by decide) (by decide) (by decide) (by decide)).imp
      (fun _ hb => hb.imp (fun _ hc => ⟨hc.1, hc.2.1, hc.2.2.2.1, hc.2.2.2.2.1⟩))⟩

set_option maxRecDepth 100000 in
/-- C11. The StartSegmentAddress line `:0400000300003800C1` is well formed (byte count 4, four
data bytes, balancing checksum `C1`), yet `hexdata_load` returns 1 at it: case 0x03 leaves the
index at 9, so the checksum test reads the first data byte `00` in place of the checksum byte
and finds `0x00 + 0x04 + 0x03 = 7`. The end-of-file line after it is never read. -/
theorem hexdata_load_start_segment_rejected :
    hexBytes "0400000300003800C1".toList = some [4, 0, 0, 0x03, 0x00, 0x00, 0x38, 0x00, 0xC1]
    ∧ (4 + 0 + 0 + 0x03 + 0x00 + 0x00 + 0x38 + 0x00 + 0xC1) % 256 = 0
    ∧ (hexdata_load (fun _ => 0) [] (hexdata_new (fun _ => 0) 0xff)
        ":0400000300003800C1\n:00000001FF\n".toList 1).map (Option.map (fun r => r.1))
        = some (some 1)
    ∧ (hexdata_load (fun _ => 0) [] (hexdata_new (fun _ => 0) 0xff)
        ":0400000300003800C1\n:00000001FF\n".toList 3).map (Option.map (fun r => r.1))
        = some (some 1) := by
  decide

/-- C12. Unsupported record types: for every image, every base address and every line whose
header is well formed and has a record type from 0x05 to 0xFF, whatever follows the header,
`hexdata_load` returns 1 at that line, and the bytes, size, capacity and fill value of the image
are what they were before the line. -/
theorem hexdata_load_unsupported_type (junk : Nat → Nat) (h : hexdata) (B ln fuel : Nat)
    (buff hdr tail : List Char) (n ahi alo typ : Nat)
    (hx : hexBytes hdr = some [n, ahi, alo, typ]) (ht : 0x05 ≤ typ) :
    typ ≤ 0xFF
    ∧ ∃ buff' rest h', fgets buff 256 (':' :: hdr ++ tail) = some (buff', rest)
      ∧ hexdata_load_line (junk ln) h B buff' = Step.stop 1 h'
      ∧ hexdata_load_loop junk (fuel + 1) h B ln buff (':' :: hdr ++ tail)
          = some (some (1, h'))
      ∧ h'.data = h.data ∧ h'.size = h.size ∧ h'.capacity = h.capacity ∧ h'.empty = h.empty := by
  have hl := hexBytes_length _ _ hx
  simp only [List.length_cons, List.length_nil] at hl
  have ht256 : typ < 256 := hexBytes_lt _ _ hx typ (by simp)
  obtain ⟨buff', rest, f1, f2, f3⟩ := hexdata_load_loop_prefix junk h B ln buff hdr tail _ hx
    (by omega) (Step.stop 1 (track_width h n))
    (fun t => hexdata_load_line_unsupported (junk ln) h B hdr t n ahi alo typ hx ht)
  exact ⟨by omega, buff', rest, _, f1, f2, f3 fuel, track_width_fields h n⟩

/-- Witness of C12: the line `:0400000500000000F7` of type 0x05, followed by an end-of-file
line, read into the image of twenty bytes. -/
theorem hexdata_load_unsupported_type_witness :
    hexBytes "04000005".toList = some [4, 0, 0, 0x05] ∧ 0x05 ≤ 0x05
    ∧ ∃ buff' rest h',
      fgets [] 256 (':' :: "04000005".toList ++ "00000000F7\n:00000001FF\n".toList)
        = some (buff', rest)
      ∧ hexdata_load_line 0 image20 0 buff' = Step.stop 1 h'
      ∧ hexdata_load_loop (fun _ => 0) (0 + 1) image20 0 1 []
          (':' :: "04000005".toList ++ "00000000F7\n:00000001FF\n".toList)
          = some (some (1, h'))
      ∧ h'.data = image20.data ∧ h'.size = image20.size :=
  ⟨by decide, by decide,
    (hexdata_load_unsupported_type (fun _ => 0) image20 0 1 0 [] "04000005".toList
      "00000000F7\n:00000001FF\n".toList 4 0 0 0x05 (by decide) (by decide)).2.imp
      (fun _ ha => ha.imp (fun _ hb => hb.imp
        (fun _ hc => ⟨hc.1, hc.2.1, hc.2.2.1, hc.2.2.2.1, hc.2.2.2.2.1⟩)))⟩

set_option maxRecDepth 100000 in
/-- Counterexample to C13, in two files. The Data line with byte count 123, address 0, 123
bytes of value 0 and the checksum byte 0x85 is complete and balances,
`(123 + 0 + 0 + 0 + 0 + 0x85) mod 256 = 0`, yet `hexdata_load` returns 1 at it: the line has 257
characters, its checksum digits do not reach the line buffer, and the test is made on the
last data byte. And after the line `:0200000480007A`, which sets the base address
`0x80000000`, the Data line `:0100000055AB` does not balance, yet `hexdata_load` does not
return 1 at it: the process ends in `hexdata_write`, before the checksum test. -/
theorem hexdata_load_checksum_test_counterexample :
    (hexBytes (record_body ⟨123, 0, 0x00, List.replicate 123 0⟩ 0x85)
        = some (123 :: 0 :: 0 :: 0x00 :: (List.replicate 123 0 ++ [0x85]))
      ∧ (123 + 0 + 0 + 0x00 + (List.replicate 123 0).sum + 0x85) % 256 = 0
      ∧ (hexdata_load (fun _ => 0) [] (hexdata_new (fun _ => 0) 0xff)
          (':' :: record_body ⟨123, 0, 0x00, List.replicate 123 0⟩ 0x85 ++ ['\n']) 1).map
            (Option.map (fun r => r.1)) = some (some 1))
    ∧ (hexBytes "0100000055AB".toList = some (1 :: 0 :: 0 :: 0x00 :: ([0x55] ++ [0xAB]))
      ∧ (1 + 0 + 0 + 0x00 + [0x55].sum + 0xAB) % 256 ≠ 0
      ∧ (hexdata_load (fun _ => 0) [] (hexdata_new (fun _ => 0) 0xff)
          ":0200000480007A\n:0100000055AB\n".toList 3).map
            (Option.map (fun r => r.1)) = some none) := by
  decide

/-- C13, amended. Checksum validation within the line buffer and below `2 ^ 31`: for every line
of type Data (0x00, as many data bytes as the byte count), ExtendedSegmentAddress (0x02, 2
data bytes) or ExtendedLinearAddress (0x04, 2 data bytes) whose colon and hexadecimal digits
are at most 255 characters, whatever follows them, and, for a Data line, whose bytes are
written below `2 ^ 31` (`(address + base) mod 2 ^ 32 + byteCount ≤ 2 ^ 31`), `hexdata_load`
reads the line, and its loop body returns 1 at that line if and only if (byteCount +
addressLow + addressHigh + recordType + sum of the data bytes + trailing checksum byte) mod
256 is not 0; it goes on to the next line if and only if that sum is 0 mod 256. -/
theorem hexdata_load_checksum_test (junk : Nat → Nat) (h : hexdata) (B ln fuel : Nat)
    (buff body tail : List Char) (n ahi alo typ cs : Nat) (d : List Nat)
    (ht : typ = 0x00 ∨ typ = 0x02 ∨ typ = 0x04)
    (hx : hexBytes body = some (n :: ahi :: alo :: typ :: (d ++ [cs])))
    (hd : d.length = if typ = 0x00 then n else 2)
    (hfit : body.length ≤ 254)
    (hB : typ = 0x00 → (256 * ahi + alo + B) % 2 ^ 32 + n ≤ 2 ^ 31) :
    ∃ buff' rest h' B', fgets buff 256 (':' :: body ++ tail) = some (buff', rest)
      ∧ (hexdata_load_line (junk ln) h B buff' = Step.stop 1 h'
          ↔ (n + alo + ahi + typ + d.sum + cs) % 256 ≠ 0)
      ∧ (hexdata_load_line (junk ln) h B buff' = Step.next h' B'
          ↔ (n + alo + ahi + typ + d.sum + cs) % 256 = 0)
      ∧ hexdata_load_loop junk (fuel + 1) h B ln buff (':' :: body ++ tail)
          = if (n + alo + ahi + typ + d.sum + cs) % 256 ≠ 0 then some (some (1, h'))
            else hexdata_load_loop junk fuel h' B' ((ln + 1) % 2 ^ 32) buff' rest := by
  have key : ∀ (h' : hexdata) (B' : Nat),
      (∀ t, hexdata_load_line (junk ln) h B (':' :: body ++ t)
        = if (n + alo + ahi + typ + d.sum + cs) % 256 = 0 then Step.next h' B'
          else Step.stop 1 h') →
      ∃ buff' rest h' B', fgets buff 256 (':' :: body ++ tail) = some (buff', rest)
      ∧ (hexdata_load_line (junk ln) h B buff' = Step.stop 1 h'
          ↔ (n + alo + ahi + typ + d.sum + cs) % 256 ≠ 0)
      ∧ (hexdata_load_line (junk ln) h B buff' = Step.next h' B'
          ↔ (n + alo + ahi + typ + d.sum + cs) % 256 = 0)
      ∧ hexdata_load_loop junk (fuel + 1) h B ln buff (':' :: body ++ tail)
          = if (n + alo + ahi + typ + d.sum + cs) % 256 ≠ 0 then some (some (1, h'))
            else hexdata_load_loop junk fuel h' B' ((ln + 1) % 2 ^ 32) buff' rest := by
    intro h' B' hs
    by_cases hc : (n + alo + ahi + typ + d.sum + cs) % 256 = 0
    · simp only [hc, if_true] at hs
      obtain ⟨buff', rest, f1, f2, f3⟩ := hexdata_load_loop_prefix junk h B ln buff body tail _
        hx hfit _ hs
      refine ⟨buff', rest, h', B', f1, ?_, ?_, ?_⟩
      · simp [f2, hc]
      · simp [f2, hc]
      · rw [f3 fuel]
        simp [hc]
    · simp only [hc, if_false] at hs
      obtain ⟨buff', rest, f1, f2, f3⟩ := hexdata_load_loop_prefix junk h B ln buff body tail _
        hx hfit _ hs
      refine ⟨buff', rest, h', B', f1, ?_, ?_, ?_⟩
      · simp [f2, hc]
      · simp [f2, hc]
      · rw [f3 fuel]
        simp [hc]
  rcases ht with rfl | rfl | rfl
  · simp only [if_true] at hd
    have hl := hexBytes_length _ _ hx
    simp only [List.length_cons, List.length_append, List.length_nil] at hl
    obtain ⟨w, hw, _⟩ := write_bytes_spec d (track_width h n) ((256 * ahi + alo + B) % 2 ^ 32)
      (by rw [hd]; exact hB rfl)
    refine key w B (fun t => ?_)
    rw [hexdata_load_line_data (junk ln) h B body t n ahi alo cs d hx hd (by omega), hw]
    have : n + ahi + alo + 0 + d.sum + cs = n + alo + ahi + 0 + d.sum + cs := by omega
    simp only []
    rw [this]
  · simp only [show ¬ (2 = 0) by decide, if_false] at hd
    obtain ⟨vhi, vlo, rfl⟩ : ∃ vhi vlo, d = [vhi, vlo] := by
      match d, hd with
      | [a, b], _ => exact ⟨a, b, rfl⟩
    refine key (track_width h n) (((256 * vhi + vlo) <<< 4) % 2 ^ 32) (fun t => ?_)
    rw [hexdata_load_line_segment (junk ln) h B body t n ahi alo vhi vlo cs hx]
    have : n + ahi + alo + 2 + vhi + vlo + cs = n + alo + ahi + 2 + [vhi, vlo].sum + cs := by
      simp only [List.sum_cons, List.sum_nil]; omega
    rw [this]
  · simp only [show ¬ (4 = 0) by decide, if_false] at hd
    obtain ⟨vhi, vlo, rfl⟩ : ∃ vhi vlo, d = [vhi, vlo] := by
      match d, hd with
      | [a, b], _ => exact ⟨a, b, rfl⟩
    refine key (track_width h n) ((B &&& 0xffff0000) ||| (((256 * vhi + vlo) <<< 16) % 2 ^ 32))
      (fun t => ?_)
    rw [hexdata_load_line_linear (junk ln) h B body t n ahi alo vhi vlo cs hx]
    have : n + ahi + alo + 4 + vhi + vlo + cs = n + alo + ahi + 4 + [vhi, vlo].sum + cs := by
      simp only [List.sum_cons, List.sum_nil]; omega
    rw [this]

/-- Witness of C13 as amended: the Data line `:0100000055AA` followed by an end-of-file line,
read at base address 0 into the image of twenty bytes. -/
theorem hexdata_load_checksum_test_witness :
    hexBytes "0100000055AA".toList = some (1 :: 0 :: 0 :: 0x00 :: ([0x55] ++ [0xAA]))
    ∧ (0x00 = 0x00 → (256 * 0 + 0 + 0) % 2 ^ 32 + 1 ≤ 2 ^ 31)
    ∧ ∃ buff' rest h' B',
      fgets [] 256 (':' :: "0100000055AA".toList ++ "\n:00000001FF\n".toList)
        = some (buff', rest)
      ∧ (hexdata_load_line 0 image20 0 buff' = Step.stop 1 h'
          ↔ (1 + 0 + 0 + 0x00 + [0x55].sum + 0xAA) % 256 ≠ 0)
      ∧ (hexdata_load_line 0 image20 0 buff' = Step.next h' B'
          ↔ (1 + 0 + 0 + 0x00 + [0x55].sum + 0xAA) % 256 = 0) :=
  ⟨by decide, by decide,
    (hexdata_load_checksum_test (fun _ => 0) image20 0 1 0 [] "0100000055AA".toList
      "\n:00000001FF\n".toList 1 0 0 0x00 0xAA [0x55] (by decide) (by decide) (by decide)
      (by decide) (by decide)).imp
      (fun _ ha => ha.imp (fun _ hb => hb.imp (fun _ hc => hc.imp
        (fun _ hd => ⟨hd.1, hd.2.1, hd.2.2.1⟩))))⟩

/-- C14. A failed checksum on a non-data record leaves the image as it was: for every image,
every base address and every ExtendedSegmentAddress (0x02) or ExtendedLinearAddress (0x04)
line whose trailing checksum byte does not balance, whatever follows the line,
`hexdata_load` returns 1 at that line and the bytes, size, capacity and fill value of the image
are what they were before the line. The loop body leaves them as they were for every buffer
whose header has one of these two types, whatever the rest of the buffer. -/
theorem hexdata_load_address_checksum_atomic (junk : Nat → Nat) (h : hexdata) (B ln fuel : Nat)
    (buff body tail : List Char) (n ahi alo typ vhi vlo cs : Nat)
    (ht : typ = 0x02 ∨ typ = 0x04)
    (hx : hexBytes body = some [n, ahi, alo, typ, vhi, vlo, cs])
    (hbad : (n + ahi + alo + typ + vhi + vlo + cs) % 256 ≠ 0) :
    (∃ h', hexdata_load_loop junk (fuel + 1) h B ln buff (':' :: body ++ tail)
        = some (some (1, h'))
      ∧ h'.data = h.data ∧ h'.size = h.size ∧ h'.capacity = h.capacity
      ∧ h'.empty = h.empty)
    ∧ ∀ (j : Nat) (h1 : hexdata) (B1 : Nat) (b : List Char) (count addr : Nat),
        scan_header b = some (count, addr, typ) →
          ∃ h2, (hexdata_load_line j h1 B1 b).image = some h2
            ∧ h2.data = h1.data ∧ h2.size = h1.size ∧ h2.capacity = h1.capacity
            ∧ h2.empty = h1.empty := by
  refine ⟨?_, fun j h1 B1 b count addr hs =>
    hexdata_load_line_address_image j h1 B1 b count addr typ hs ht⟩
  have hl := hexBytes_length _ _ hx
  simp only [List.length_cons, List.length_nil] at hl
  have key : ∀ t, hexdata_load_line (junk ln) h B (':' :: body ++ t)
      = Step.stop 1 (track_width h n) := by
    intro t
    rcases ht with rfl | rfl
    · rw [hexdata_load_line_segment (junk ln) h B body t n ahi alo vhi vlo cs hx, if_neg hbad]
    · rw [hexdata_load_line_linear (junk ln) h B body t n ahi alo vhi vlo cs hx, if_neg hbad]
  obtain ⟨buff', rest, _, _, f3⟩ := hexdata_load_loop_prefix junk h B ln buff body tail _ hx
    (by omega) _ key
  exact ⟨_, f3 fuel, track_width_fields h n⟩

/-- Witness of C14: the ExtendedLinearAddress line `:020000040001FF` with a wrong checksum
byte, followed by an end-of-file line, read into the image of twenty bytes. -/
theorem hexdata_load_address_checksum_atomic_witness :
    hexBytes "020000040001FF".toList = some [2, 0, 0, 0x04, 0x00, 0x01, 0xFF]
    ∧ (2 + 0 + 0 + 0x04 + 0x00 + 0x01 + 0xFF) % 256 ≠ 0
    ∧ ∃ h', hexdata_load_loop (fun _ => 0) (0 + 1) image20 0 1 []
        (':' :: "020000040001FF".toList ++ "\n:00000001FF\n".toList) = some (some (1, h'))
      ∧ h'.data = image20.data ∧ h'.size = image20.size ∧ h'.capacity = image20.capacity
      ∧ h'.empty = image20.empty :=
  ⟨by decide, by decide,
    (hexdata_load_address_checksum_atomic (fun _ => 0) image20 0 1 0 [] "020000040001FF".toList
      "\n:00000001FF\n".toList 2 0 0 0x04 0x00 0x01 0xFF (Or.inr rfl) (by decide)
      (by decide)).1⟩

/-- C15. EndOfFile stops decoding: when `hexdata_load` returns 0 on a text `P` of complete
lines, with an image `hP`, then on `P` followed by a line whose header is well formed and has
the record type 0x01, and by any text `R`, it returns 0 with an image that has the bytes, size,
capacity and fill value of `hP`. The loop body returns at an end-of-file line in every state,
before any assignment to the base address, and changes nothing of the image but the width. -/
theorem hexdata_load_end_of_file_stops (junk : Nat → Nat) (h : hexdata) (B ln fuel : Nat)
    (buff P hdr R : List Char) (n ahi alo : Nat) (hP : hexdata)
    (hnl : P = [] ∨ P.getLast? = some '\n')
    (hl : hexdata_load_loop junk fuel h B ln buff P = some (some (0, hP)))
    (hx : hexBytes hdr = some [n, ahi, alo, 0x01]) :
    (∃ h', hexdata_load_loop junk (fuel + 1) h B ln buff (P ++ (':' :: hdr ++ R))
        = some (some (0, h'))
      ∧ h'.data = hP.data ∧ h'.size = hP.size ∧ h'.capacity = hP.capacity
      ∧ h'.empty = hP.empty)
    ∧ ∀ j h1 B1 t,
        hexdata_load_line j h1 B1 (':' :: hdr ++ t) = Step.stop 0 (track_width h1 n) := by
  constructor
  · obtain ⟨h', e1, e2⟩ := hexdata_load_loop_eof_after junk hdr R n ahi alo hx fuel h B ln buff P
      hP hnl hl
    refine ⟨h', e1, ?_⟩
    rcases e2 with rfl | rfl
    · exact ⟨rfl, rfl, rfl, rfl⟩
    · exact track_width_fields hP n
  · intro j h1 B1 t
    exact hexdata_load_line_eof j h1 B1 hdr t n ahi alo hx

/-- Witness of C15: an ExtendedSegmentAddress line, then the end-of-file line, then a line
that is not a record. -/
theorem hexdata_load_end_of_file_stops_witness :
    (":020000021000EC\n".toList = [] ∨ ":020000021000EC\n".toList.getLast? = some '\n')
    ∧ hexdata_load_loop (fun _ => 0) 2 image20 0 1 [] ":020000021000EC\n".toList
        = some (some (0, image20))
    ∧ hexBytes "00000001".toList = some [0, 0, 0, 0x01]
    ∧ ∃ h', hexdata_load_loop (fun _ => 0) (2 + 1) image20 0 1 []
          (":020000021000EC\n".toList ++ (':' :: "00000001".toList ++ "FF\nnot a record\n".toList))
        = some (some (0, h'))
      ∧ h'.data = image20.data ∧ h'.size = image20.size ∧ h'.capacity = image20.capacity
      ∧ h'.empty = image20.empty :=
  ⟨by decide, rfl, by decide,
    (hexdata_load_end_of_file_stops (fun _ => 0) image20 0 1 2 [] ":020000021000EC\n".toList
      "00000001".toList "FF\nnot a record\n".toList 0 0 0 image20 (by decide) rfl
      (by decide)).1⟩

/-- C16. Postcondition of `hexdata_resize`: for every image whose fill value is a byte and
every `desired` up to `2 ^ 31`, the call returns; if `desired` is at most the capacity nothing
changes; otherwise the new capacity is the smallest power of two that is at least `desired`
(`desired` itself when it is a power of two), every byte below the old capacity is unchanged,
every byte from the old capacity up to the new one equals the fill value, and size and fill
value are unchanged. -/
theorem hexdata_resize_postcondition (h : hexdata) (desired : Nat) (hd : desired ≤ 2 ^ 31)
    (he : h.empty < 256) :
    (desired ≤ h.capacity → hexdata_resize h desired = some h)
    ∧ (h.capacity < desired →
        ∃ r, hexdata_resize h desired = some r
          ∧ (∃ k, r.capacity = 2 ^ k ∧ desired ≤ 2 ^ k ∧ ∀ j, desired ≤ 2 ^ j → 2 ^ k ≤ 2 ^ j)
          ∧ (∀ k, desired = 2 ^ k → r.capacity = desired)
          ∧ (∀ i, i < h.capacity → r.data i = h.data i)
          ∧ (∀ i, h.capacity ≤ i → i < r.capacity → r.data i = h.empty)
          ∧ r.size = h.size
          ∧ r.empty = h.empty) := by
  constructor
  · intro hle
    unfold hexdata_resize
    rw [if_neg (by omega)]
  · intro hlt
    obtain ⟨r, s0, _, _, _, s4, s5, _, s7⟩ := hexdata_resize_spec h desired hd
    obtain ⟨r2, k, c0, hcap, _, k3, k4⟩ := hexdata_resize_capacity h desired hlt hd
    have hrr : r2 = r := Option.some.inj (c0.symm.trans s0)
    subst hrr
    refine ⟨r2, s0, ⟨k, hcap, k3, k4⟩, ?_, ?_, ?_, s4, s5⟩
    · intro j hj
      rw [hcap]
      have := k4 j (le_of_eq hj)
      omega
    · intro i hi
      rw [s7 i, if_neg (by omega)]
    · intro i h1 h2
      rw [s7 i, if_pos ⟨h1, h2⟩]
      exact Nat.mod_eq_of_lt he

/-- Witness of C16: the image of twenty bytes, of capacity 65536, resized to 65537. -/
theorem hexdata_resize_postcondition_witness :
    (65537 ≤ 2 ^ 31 ∧ image20.empty < 256 ∧ image20.capacity < 65537)
    ∧ ∃ r, hexdata_resize image20 65537 = some r
      ∧ (∃ k, r.capacity = 2 ^ k ∧ 65537 ≤ 2 ^ k ∧ ∀ j, 65537 ≤ 2 ^ j → 2 ^ k ≤ 2 ^ j)
      ∧ (∀ i, i < image20.capacity → r.data i = image20.data i)
      ∧ (∀ i, image20.capacity ≤ i → i < r.capacity → r.data i = image20.empty) :=
  ⟨⟨by decide, by decide, by decide⟩,
    ((hexdata_resize_postcondition image20 65537 (by decide) (by decide)).2 (by decide)).imp
      (fun _ hr => ⟨hr.1, hr.2.1, hr.2.2.2.1, hr.2.2.2.2.1⟩)⟩

set_option maxRecDepth 100000 in
/-- Counterexample to C17: `hexdata_write` at the 32-bit address `0x80000000` into a fresh
image does not return: `hexdata_resize(0x80000001)` rounds to 0 and `xrealloc` leaves through
`exit(1)`, so there is no image after the call in which the byte at `addr` is `val` and the
size is `addr + 1`. The call is reached by decoding the lines `:0200000480007A` and
`:0100000055AA`, where `hexdata_load` does not return either. -/
theorem hexdata_write_postcondition_counterexample :
    0x80000000 < 2 ^ 32
    ∧ (¬ ∃ w, hexdata_write (hexdata_new (fun _ => 0) 0xff) 0x80000000 0x55 = some w
        ∧ w.data 0x80000000 = 0x55 ∧ w.size = max (hexdata_new (fun _ => 0) 0xff).size
          (0x80000000 + 1))
    ∧ (hexdata_load (fun _ => 0) [] (hexdata_new (fun _ => 0) 0xff)
        ":0200000480007A\n:0100000055AA\n:00000001FF\n".toList 4).map
          (Option.map (fun r => r.1)) = some none := by
  refine ⟨by decide, ?_, by decide⟩
  rintro ⟨w, hw, _⟩
  have e : hexdata_write (hexdata_new (fun _ => 0) 0xff) 0x80000000 0x55 = none := rfl
  rw [e] at hw
  cases hw

/-- C17, amended. Postcondition of `hexdata_write` where the call can return: for every image
and every byte `val`, and every `addr` that is below the capacity or below `2 ^ 31`, the call
`hexdata_write(addr, val)` returns, and after it the byte at offset `addr` equals `val`, the
size equals `max(old size, addr + 1)`, and every offset other than `addr` in
`[0, old capacity)` holds the value it held before. -/
theorem hexdata_write_postcondition (h : hexdata) (addr val : Nat) (hc : h.capacity < 2 ^ 32)
    (ha : addr < h.capacity ∨ addr < 2 ^ 31) :
    ∃ w, hexdata_write h addr val = some w
      ∧ w.data addr = val
      ∧ w.size = max h.size (addr + 1)
      ∧ ∀ j, j < h.capacity → j ≠ addr → w.data j = h.data j := by
  by_cases hin : addr < h.capacity
  · obtain ⟨w, w0, _, w2, _, _, w5⟩ := hexdata_write_inside h addr val hin (by omega)
    refine ⟨w, w0, by rw [w5, if_pos rfl], w2, ?_⟩
    intro j _ hj
    rw [w5, if_neg hj]
  · have ha' : addr < 2 ^ 31 := ha.resolve_left hin
    obtain ⟨w, w0, _, _, _, w4, _, _, w7⟩ := hexdata_write_spec h addr val ha'
    refine ⟨w, w0, by rw [w7, if_pos rfl], w4, ?_⟩
    intro j hjc hj
    rw [w7, if_neg hj, if_neg (by omega)]

/-- Witness of C17 as amended: a write at `0x20000`, beyond the capacity 65536 of the image of
twenty bytes. -/
theorem hexdata_write_postcondition_witness :
    image20.capacity < 2 ^ 32 ∧ (0x20000 < image20.capacity ∨ 0x20000 < 2 ^ 31)
    ∧ ∃ w, hexdata_write image20 0x20000 0xAA = some w
      ∧ w.data 0x20000 = 0xAA
      ∧ w.size = max image20.size (0x20000 + 1)
      ∧ ∀ j, j < image20.capacity → j ≠ 0x20000 → w.data j = image20.data j :=
  ⟨by decide, by decide,
    hexdata_write_postcondition image20 0x20000 0xAA (by decide) (by decide)⟩

/-- C18. Record-width tracking: `hexdata_load`, started on a fresh image, comes to an end once
the fuel exceeds the length of the file, and when it returns and the byte counts of the lines
whose header it parsed are at most 255, as they are for well-formed headers, the width of the
resulting image is the maximum of 16 and those byte counts, whatever the record types and
whatever the line it returns on; without an override (`count = 0` in `main`) `hexdata_dump` is
called with that width. (The run ends without a return only inside `hexdata_write`, where the
process does not come back.) -/
theorem hexdata_load_tracks_width (junk : Nat → Nat) (buff : List Char) (heap : Nat → Nat)
    (fill fuel : Nat) (file : List Char) (hf : file.length < fuel)
    (hc : ∀ c ∈ hexdata_load_counts junk fuel (hexdata_new heap fill) 0 1 buff file, c ≤ 255) :
    ∃ r, hexdata_load junk buff (hexdata_new heap fill) file fuel = some r
      ∧ ∀ code h', r = some (code, h') →
        h'.width
            = (hexdata_load_counts junk fuel (hexdata_new heap fill) 0 1 buff file).foldl max 16
        ∧ ∀ fuel2, hexdata_dump (main_override h' 0) fuel2
            = hexdata_dump
                { h' with
                  width := List.foldl max 16
                    (hexdata_load_counts junk fuel (hexdata_new heap fill) 0 1 buff file) }
                fuel2 := by
  obtain ⟨r, e1, e2⟩ := hexdata_load_loop_width junk fuel (hexdata_new heap fill) 0 1 buff
    file hf hc
  have e3 : (hexdata_new heap fill).width = 16 := rfl
  rw [e3] at e2
  refine ⟨r, e1, ?_⟩
  intro code h' hr
  have e4 := e2 code h' hr
  refine ⟨e4, ?_⟩
  intro fuel2
  rw [← e4]
  rfl

set_option maxRecDepth 100000 in
/-- Witness of C18: a data line of 2 bytes, an ExtendedSegmentAddress line, a data line of 32
bytes with a wrong checksum byte, on which `hexdata_load` returns 1: the counts are 2, 2 and
32 and the width is 32. -/
theorem hexdata_load_tracks_width_witness :
    hexdata_load_counts (fun _ => 0) 200 (hexdata_new (fun _ => 0) 0xff) 0 1 []
        (":02000000AABB99\n:020000021000EC\n".toList
          ++ record_line ⟨32, 0, 0x00, List.replicate 32 0⟩ 0x00 ++ ":00000001FF\n".toList)
      = [2, 2, 32]
    ∧ ∃ code h', hexdata_load (fun _ => 0) [] (hexdata_new (fun _ => 0) 0xff)
        (":02000000AABB99\n:020000021000EC\n".toList
          ++ record_line ⟨32, 0, 0x00, List.replicate 32 0⟩ 0x00 ++ ":00000001FF\n".toList) 200
        = some (some (code, h'))
      ∧ code = 1
      ∧ h'.width = (hexdata_load_counts (fun _ => 0) 200 (hexdata_new (fun _ => 0) 0xff) 0 1 []
        (":02000000AABB99\n:020000021000EC\n".toList
          ++ record_line ⟨32, 0, 0x00, List.replicate 32 0⟩ 0x00 ++ ":00000001FF\n".toList)).foldl
          max 16 := by
  refine ⟨by decide, ?_⟩
  obtain ⟨r, e1, e2⟩ := hexdata_load_tracks_width (fun _ => 0) [] (fun _ => 0) 0xff 200
    (":02000000AABB99\n:020000021000EC\n".toList
      ++ record_line ⟨32, 0, 0x00, List.replicate 32 0⟩ 0x00 ++ ":00000001FF\n".toList)
    (by decide) (by decide)
  have e3 : (hexdata_load (fun _ => 0) [] (hexdata_new (fun _ => 0) 0xff)
      (":02000000AABB99\n:020000021000EC\n".toList
        ++ record_line ⟨32, 0, 0x00, List.replicate 32 0⟩ 0x00 ++ ":00000001FF\n".toList)
      200).map (Option.map (fun r => r.1)) = some (some 1) := by decide
  rw [e1] at e3
  cases r with
  | none => simp at e3
  | some p =>
    simp only [Option.map_some', Option.some.injEq] at e3
    exact ⟨p.1, p.2, e1, e3, (e2 p.1 p.2 rfl).1⟩

/-- C19. Restricted round trip: for every image with size at most `0x100000` and every width
among 1, 2, 4, 8, 16, 32 and 64, `hexdata_dump` returns, and `hexdata_load` applied to its
output, into a fresh image of any fill value, returns 0 and yields an image with the same size
and the same bytes at every offset in `[0, size)`. -/
theorem hexdata_load_dump_restricted (h : hexdata) (w : Nat) (hi : Image h)
    (hw : w ∈ [1, 2, 4, 8, 16, 32, 64]) (hs : h.size ≤ 0x100000)
    (junk : Nat → Nat) (buff : List Char) (heap : Nat → Nat) (fill fuel : Nat)
    (hf : h.size < fuel) :
    ∃ text, hexdata_dump { h with width := w } fuel = some text ∧
      ∀ fuel2, text.length < fuel2 →
        ∃ L, hexdata_load junk buff (hexdata_new heap fill) text fuel2
            = some (some (0, L))
          ∧ L.size = h.size ∧ ∀ j, j < h.size → L.data j = h.data j := by
  have hw3 : 1 ≤ w ∧ w ≤ 121 ∧ 65536 % w = 0 := by
    simp only [List.mem_cons, List.mem_singleton, List.mem_nil_iff, or_false] at hw
    rcases hw with rfl | rfl | rfl | rfl | rfl | rfl | rfl <;> decide
  exact hexdata_load_dump h w hi hw3.1 hw3.2.1 hs (Or.inl hw3.2.2) junk buff heap fill fuel hf

/-- Witness of C19: the image of twenty bytes with width 8. -/
theorem hexdata_load_dump_restricted_witness :
    Image image20 ∧ 8 ∈ [1, 2, 4, 8, 16, 32, 64] ∧ image20.size ≤ 0x100000 ∧ image20.size < 21
    ∧ ∃ text, hexdata_dump { image20 with width := 8 } 21 = some text ∧
      ∀ fuel2, text.length < fuel2 →
        ∃ L, hexdata_load (fun _ => 0) [] (hexdata_new (fun _ => 0) 0xff) text fuel2
            = some (some (0, L))
          ∧ L.size = image20.size ∧ ∀ j, j < image20.size → L.data j = image20.data j :=
  ⟨image20_valid, by decide, by decide, by decide,
    hexdata_load_dump_restricted image20 8 image20_valid (by decide) (by decide)
      (fun _ => 0) [] (fun _ => 0) 0xff 21 (by decide)⟩

/-- C20. Termination of the encoder: for every image and every width in [1,255] with
`size + width < 2 ^ 32`, the loop of `hexdata_dump` returns once the fuel exceeds the size,
after exactly `ceil(size / width)` calls of `write_record` with type 0x00; and each iteration
that starts at an address `addr` below the size writes a Data record with a count `c` in
`[1, width]` and continues at `addr + c`, which is at most the size and so does not wrap. -/
theorem hexdata_dump_terminates (h : hexdata) (w fuel : Nat) (hw : 1 ≤ w ∧ w ≤ 255)
    (hs : h.size + w < 2 ^ 32) (hf : h.size < fuel) :
    (∃ calls, hexdata_dump_calls { h with width := w } fuel = some calls
      ∧ (calls.filter (fun c => decide (c.type = 0x00))).length = (h.size + w - 1) / w)
    ∧ ∀ addr, addr < h.size →
        ∃ c, ((hexdata_dump_body { h with width := w } addr).1.getLast?).map
              (fun x => (x.count, x.type)) = some (c, 0x00)
          ∧ 1 ≤ c ∧ c ≤ w
          ∧ (hexdata_dump_body { h with width := w } addr).2 = addr + c
          ∧ addr + c ≤ h.size ∧ addr + c < 2 ^ 32 := by
  constructor
  · obtain ⟨calls, h1, h2⟩ := hexdata_dump_loop_eq { h with width := w } hw.1 hw.2
      (by show h.size + w ≤ 2 ^ 32; omega) fuel 0 (Nat.zero_le _)
      (by show h.size - 0 < fuel; omega)
    refine ⟨calls, h1, ?_⟩
    have h3 : calls.map Call.record
        = (List.range (chunks h.size w)).flatMap (fun k => spec_chunk h w (k * w))
          ++ [spec_eof] := by
      rw [h2]
      simp [spec_chunk, spec_data]
    have h4 : (calls.map Call.record).filter (fun r => decide (r.type = 0x00))
        = (List.range (chunks h.size w)).map (fun k => spec_data h w (k * w)) := by
      rw [h3, List.filter_append, spec_chunks_data]
      simp [spec_eof]
    have h5 : (calls.map Call.record).filter (fun r => decide (r.type = 0x00))
        = (calls.filter (fun c => decide (c.type = 0x00))).map Call.record := by
      rw [List.filter_map]
      rfl
    have h6 := congrArg List.length h4
    rw [h5, List.length_map, List.length_map, List.length_range] at h6
    rw [h6]
    rfl
  · intro addr ha
    obtain ⟨_, b2⟩ := hexdata_dump_body_eq { h with width := w } addr hw.1 hw.2 ha
      (by show h.size + w ≤ 2 ^ 32; omega)
    have e1 : (addr + w) % 2 ^ 32 = addr + w := Nat.mod_eq_of_lt (by omega)
    have e2 : (if (addr + w) % 2 ^ 32 > h.size
        then (h.size + 2 ^ 32 - addr) % 2 ^ 32 % 256 else w) = min w (h.size - addr) := by
      rw [e1]
      split <;> omega
    refine ⟨min w (h.size - addr), ?_, by omega, by omega, b2, by omega, by omega⟩
    simp only [hexdata_dump_body, e2, List.getLast?_append, List.getLast?_singleton]
    rfl

/-- Witness of C20: the image of twenty bytes with width 16 is written in two Data records. -/
theorem hexdata_dump_terminates_witness :
    (1 ≤ 16 ∧ 16 ≤ 255) ∧ image20.size + 16 < 2 ^ 32 ∧ image20.size < 21
    ∧ (image20.size + 16 - 1) / 16 = 2
    ∧ ∃ calls, hexdata_dump_calls { image20 with width := 16 } 21 = some calls
      ∧ (calls.filter (fun c => decide (c.type = 0x00))).length = (image20.size + 16 - 1) / 16 :=
  ⟨by decide, by decide, by decide, by decide,
    (hexdata_dump_terminates image20 16 21 (by decide) (by decide) (by decide)).1⟩

end Flhex
